import Mathlib

/-!
# testdeck: the lifecycle engine and the deferred-call stack

A shallow embedding of `harness.go`, `deferrer/deferrer.go`, `constants/constants.go` and
`runner/runner.go` (the singleton, `MatchTag`, the test filter, `Run` and the methods of
the runner on its statistics, its event logger and its filter), and of the functions
`RunAs` of `service/config/config.go`, `CreateMultipartBody` of
`httputils/multipart_form.go`, and the loops over the request fields of
`fuzzer/fuzzer.go` and `intruder/intruder.go`.

* The host test-reporting object (`TestingT`, Go's `*testing.T` or a test double) is a
  parameter: a table of methods over an abstract host state.  A host method may end the
  running goroutine (`runtime.Goexit`) instead of returning.
* A stage callback `func(t *TD)` and a deferred callback `func()` are the sequence of
  statements they execute: calls of `TD` methods, calls of `Defer` on the test case, and
  other (numbered) statements.
* `time.Now()` is a parameter: the value of the k-th reading of the clock.
* `regexp.Compile` is a parameter: a pattern compiles to the predicate `MatchString`, or
  does not compile.
* The run of the tests inside `Run`, `os.LookupEnv` and the facts that reflection gives
  about a struct are parameters as well.
* Every step threads a `World`; its `trace` field is a ghost log of what was executed.
-/

namespace Testdeck

/-! ## constants/constants.go -/

/-- Test case status: `StatusFail`, `StatusPass`, `StatusSkip`. -/
inductive StatusValue
  | Fail
  | Pass
  | Skip
  deriving DecidableEq, Repr

/-- Test case stages: `LifecycleTestSetup`, `LifecycleArrange`, `LifecycleAct`,
`LifecycleAssert`, `LifecycleAfter`, `LifecycleTestFinished`. -/
inductive Lifecycle
  | TestSetup
  | Arrange
  | Act
  | Assert
  | After
  | TestFinished
  deriving DecidableEq, Repr

set_option linter.dupNamespace false in
/-- Status stores the lifecycle stage and test status. -/
structure Status where
  Status : StatusValue
  Lifecycle : Lifecycle
  Fatal : Bool
  deriving DecidableEq, Repr

/-- Timing stores the start, end, and duration of a lifecycle stage. -/
structure Timing where
  Lifecycle : Lifecycle
  Start : Nat
  End : Nat
  Duration : Int
  Started : Bool
  Ended : Bool
  deriving DecidableEq, Repr

/-- Statistics are the test results that will be saved to the DB.  The Go map
`map[string]Timing` is a partial function on the stage names. -/
structure Statistics where
  Name : String
  Failed : Bool
  Fatal : Bool
  Statuses : List Status
  Timings : Lifecycle → Option Timing
  Start : Nat
  End : Nat
  Duration : Int
  Output : String

/-! ## The host: `TestingT` (harness.go, "methods from testing.T") -/

/-- The methods of the `TestingT` interface with their arguments. `TD` implements the
same method set, so this type also names the `TD` method a callback calls. -/
inductive Method
  | Error (args : List String)
  | Errorf (format : String) (args : List String)
  | Fail
  | FailNow
  | Failed
  | Fatal (args : List String)
  | Fatalf (format : String) (args : List String)
  | Log (args : List String)
  | Logf (format : String) (args : List String)
  | Name
  | Skip (args : List String)
  | SkipNow
  | Skipf (format : String) (args : List String)
  | Skipped
  | Helper
  | Parallel
  deriving DecidableEq, Repr

/-- A host implementing `TestingT` over a host state `σ`.  `call m s` is the effect of
calling method `m` in host state `s`: the new host state, and `true` when the call ended
the goroutine instead of returning.  The three value-returning methods read their result
off the host state in which they are called. -/
structure TestingT (σ : Type) where
  call : Method → σ → σ × Bool
  Failed : σ → Bool
  Skipped : σ → Bool
  Name : σ → String

/-! ## Callbacks -/

/-- One statement of a callback body. -/
inductive Stmt
  | call (m : Method)
  | Defer (fn : List Stmt)
  | other (n : Nat)

/-- A callback is the sequence of statements it executes. -/
abbrev Callback := List Stmt

/-- Ghost log entries. -/
inductive Event
  | enter (l : Lifecycle)
  | call (l : Lifecycle) (m : Method)
  | host (m : Method)
  | other (n : Nat)
  | deferred (i : Nat)
  deriving DecidableEq, Repr

/-! ## harness.go: data -/

/-- TestConfig is for passing special configurations for the test case. -/
structure TestConfig where
  ParallelOff : Bool
  deriving DecidableEq, Repr

/-- TD contains a testdeck test case + statistics; `T` is the state of the host. -/
structure TD (σ : Type) where
  T : σ
  fatal : Bool
  currentLifecycle : Lifecycle
  statuses : List Status
  timings : Lifecycle → Option Timing
  actualName : String

/-- A testdeck test case: four optional callbacks (`none` is Go's `nil`) and the
embedded `deferrer.DefaultDeferrer`. -/
structure TestCase where
  Arrange : Option Callback
  Act : Option Callback
  Assert : Option Callback
  After : Option Callback
  deferStack : List Callback

/-- An entry `testing.InternalTest`: the name of a test and its function, which is
identified by a number. -/
structure InternalTest where
  Name : String
  F : Nat
  deriving DecidableEq, Repr

/-- A driver `m` (a `*testing.M` or a stand-in for it) as the runner sees it through
reflection: the value of its field of type `[]testing.InternalTest`, if it has one. -/
structure TestRunner where
  internalTests : Option (List InternalTest)
  deriving DecidableEq, Repr

/-- The `runner` struct without its field `deps`: the driver (`none` for Go's `nil`), the
captured output, the accumulated statistics, the optional event logger with the messages
it received, and the filter (`matchRe` is `none` for Go's `nil`; a compiled regular
expression is its `MatchString`). -/
structure runner where
  m : Option TestRunner
  output : String
  stats : List Statistics
  eventLogger : Option (List String)
  matchRe : Option (String → Bool)
  matchPattern : String

/-- Everything a step of the harness can read or write. -/
structure World (σ : Type) where
  td : TD σ
  deferStack : List Callback
  clockReads : Nat
  runnerInstance : Option runner
  trace : List Event

/-- How a step ends: it returns to its caller, or the goroutine is unwound. -/
inductive Exit
  | returned
  | goexit
  deriving DecidableEq, Repr

/-- A step of the harness. -/
abbrev Step (σ : Type) := World σ → Exit × World σ

/-- Sequential composition: the second step runs only if the first returned. -/
def Step.andThen {σ : Type} (f g : Step σ) : Step σ := fun w =>
  match (f w).1 with
  | Exit.returned => g (f w).2
  | Exit.goexit => (Exit.goexit, (f w).2)

/-- A step that always returns. -/
def Step.ret {σ : Type} (f : World σ → World σ) : Step σ := fun w => (Exit.returned, f w)

/-- The external parameters of the harness. -/
structure Env (σ : Type) where
  host : TestingT σ
  now : Nat → Nat
  regexpCompile : String → Option (String → Bool)

/-! ## runner/runner.go: `MatchTag` and the methods of the runner -/

/-- The submatches of `reMatchTag = ^(.*)\x00(.*)$` on a list of characters that holds no
newline: the greedy first group ends at the last NUL. -/
def splitLastNul : List Char → Option (List Char × List Char)
  | [] => none
  | c :: cs =>
    match splitLastNul cs with
    | some (p, a) => some (c :: p, a)
    | none => if c = Char.ofNat 0 then some ([], cs) else none

/-- The regular expression `reMatchTag`, as `FindStringSubmatch`: `.` matches every
character but the newline, and `^`, `$` anchor at the ends of the text. -/
def reMatchTag (name : String) : Option (String × String) :=
  if name.data.contains (Char.ofNat 10) then none
  else (splitLastNul name.data).map fun pa => (String.mk pa.1, String.mk pa.2)

/-- MatchTag returns ok = true if the name has a test tag, whether the actual name matches
the tagged pattern, and the actual name.  The result is `none` when `regexp.MustCompile`
panics on the tag pattern. -/
def MatchTag (regexpCompile : String → Option (String → Bool)) (name : String) :
    Option (Bool × Bool × String) :=
  match reMatchTag name with
  | some (tagPattern, actual) =>
    match regexpCompile tagPattern with
    | some re => some (true, re actual, actual)
    | none => none
  | none => some (false, false, name)

/-- The method `LogEvent` of the runner. -/
def runner.LogEvent (r : runner) (message : String) : runner :=
  match r.eventLogger with
  | some log => { r with eventLogger := some (log ++ [message]) }
  | none => r

/-- The method `AddStatistics` of the runner. -/
def runner.AddStatistics (r : runner) (stats : Statistics) : runner :=
  { r with stats := r.stats ++ [stats] }

/-- The runner `newInstance(m)` returns: the driver is `m` and every other field but
`deps` has its zero value. -/
def newInstance (m : Option TestRunner) : runner :=
  { m := m, output := "", stats := [], eventLogger := none, matchRe := none,
    matchPattern := "" }

/-- The method `Statistics` of the runner. -/
def runner.Statistics (r : runner) : List Testdeck.Statistics := r.stats

/-- ClearStatistics resets the stats to nothing. -/
def runner.ClearStatistics (r : runner) : runner := { r with stats := [] }

/-- The loop of `Passed` over the records that are left: `false` at the first record with
`Failed`, `true` when the records are exhausted. -/
def runner.PassedLoop : List Testdeck.Statistics → Bool
  | [] => true
  | s :: rest => if s.Failed then false else runner.PassedLoop rest

/-- The method `Passed` of the runner. -/
def runner.Passed (r : runner) : Bool := runner.PassedLoop r.stats

/-- Match sets the regular expression pattern to filter tests to run.  The first component
of the result tells whether the returned error is non-nil. -/
def runner.Match (regexpCompile : String → Option (String → Bool)) (r : runner)
    (pattern : String) : Bool × runner :=
  match regexpCompile pattern with
  | none => (true, r)
  | some re => (false, { r with matchRe := some re, matchPattern := pattern })

/-- The guarded call `if runner.Initialized() { runner.Instance(nil).LogEvent(message) }`. -/
def logEventIfInitialized {σ : Type} (message : String) : Step σ :=
  Step.ret fun w => { w with runnerInstance := w.runnerInstance.map fun r => r.LogEvent message }

/-! ## harness.go: the methods of `TD` -/

/-- A step that runs a list of steps in order and stops at the first that does not return. -/
def Step.seq {σ : Type} : List (Step σ) → Step σ
  | [] => fun w => (Exit.returned, w)
  | f :: fs => Step.andThen f (Step.seq fs)

/-- A call of host method `m`. -/
def callT {σ : Type} (h : TestingT σ) (m : Method) : Step σ := fun w =>
  ((if (h.call m w.td.T).2 then Exit.goexit else Exit.returned),
   { w with td := { w.td with T := (h.call m w.td.T).1 }, trace := w.trace ++ [Event.host m] })

/-- Add result of PASSED lifecycle stage to stack. -/
def TD.setPassed {σ : Type} (c : TD σ) : TD σ :=
  { c with statuses := c.statuses ++ [⟨StatusValue.Pass, c.currentLifecycle, false⟩] }

/-- Add result of FAILED lifecycle stage to stack. -/
def TD.setFailed {σ : Type} (c : TD σ) (fatal : Bool) : TD σ :=
  { c with statuses := c.statuses ++ [⟨StatusValue.Fail, c.currentLifecycle, fatal⟩] }

/-- Add result of SKIPPED lifecycle stage to stack (the `Fatal` field keeps its zero value). -/
def TD.setSkipped {σ : Type} (c : TD σ) : TD σ :=
  { c with statuses := c.statuses ++ [⟨StatusValue.Skip, c.currentLifecycle, false⟩] }

/-- A step that only changes the `TD`. -/
def onTD {σ : Type} (f : TD σ → TD σ) : Step σ := Step.ret fun w => { w with td := f w.td }

def TD.Failed {σ : Type} (h : TestingT σ) : Step σ := callT h Method.Failed

def TD.Log {σ : Type} (h : TestingT σ) (args : List String) : Step σ := callT h (Method.Log args)

def TD.Logf {σ : Type} (h : TestingT σ) (format : String) (args : List String) : Step σ :=
  callT h (Method.Logf format args)

/-- Name passes through to the host unless the actual name is set. -/
def TD.Name {σ : Type} (h : TestingT σ) : Step σ := fun w =>
  if w.td.actualName ≠ "" then (Exit.returned, w) else callT h Method.Name w

/-- The value returned by `TD.Name`. -/
def TD.nameValue {σ : Type} (h : TestingT σ) (c : TD σ) : String :=
  if c.actualName ≠ "" then c.actualName else h.Name c.T

def TD.Helper {σ : Type} (h : TestingT σ) : Step σ := callT h Method.Helper

def TD.Skipped {σ : Type} (h : TestingT σ) : Step σ := callT h Method.Skipped

def TD.Fail {σ : Type} (h : TestingT σ) : Step σ :=
  Step.seq [onTD fun c => c.setFailed false, callT h Method.Fail]

def TD.Error {σ : Type} (h : TestingT σ) (args : List String) : Step σ :=
  Step.seq [callT h Method.Helper, onTD fun c => c.setFailed false, callT h (Method.Error args)]

def TD.Errorf {σ : Type} (h : TestingT σ) (format : String) (args : List String) : Step σ :=
  Step.seq [callT h Method.Helper, onTD fun c => c.setFailed false,
    callT h (Method.Errorf format args)]

def TD.Fatal {σ : Type} (h : TestingT σ) (args : List String) : Step σ :=
  Step.seq [callT h Method.Helper, onTD fun c => c.setFailed true,
    onTD fun c => { c with fatal := true }, callT h (Method.Fatal args)]

def TD.Fatalf {σ : Type} (h : TestingT σ) (format : String) (args : List String) : Step σ :=
  Step.seq [callT h Method.Helper, onTD fun c => c.setFailed true,
    onTD fun c => { c with fatal := true }, callT h (Method.Fatalf format args)]

def TD.Skip {σ : Type} (h : TestingT σ) (args : List String) : Step σ :=
  Step.seq [onTD fun c => c.setSkipped, callT h (Method.Skip args)]

def TD.Skipf {σ : Type} (h : TestingT σ) (format : String) (args : List String) : Step σ :=
  Step.seq [onTD fun c => c.setSkipped, callT h (Method.Skipf format args)]

def TD.SkipNow {σ : Type} (h : TestingT σ) : Step σ :=
  Step.seq [onTD fun c => c.setSkipped, callT h Method.SkipNow]

def TD.FailNow {σ : Type} (h : TestingT σ) : Step σ :=
  Step.seq [onTD fun c => c.setFailed true, onTD fun c => { c with fatal := true },
    callT h Method.FailNow]

def TD.Parallel {σ : Type} (h : TestingT σ) : Step σ := callT h Method.Parallel

/-- The `TD` method that a callback statement `t.m(...)` runs. -/
def TD.invoke {σ : Type} (h : TestingT σ) : Method → Step σ
  | Method.Error args => TD.Error h args
  | Method.Errorf format args => TD.Errorf h format args
  | Method.Fail => TD.Fail h
  | Method.FailNow => TD.FailNow h
  | Method.Failed => TD.Failed h
  | Method.Fatal args => TD.Fatal h args
  | Method.Fatalf format args => TD.Fatalf h format args
  | Method.Log args => TD.Log h args
  | Method.Logf format args => TD.Logf h format args
  | Method.Name => TD.Name h
  | Method.Skip args => TD.Skip h args
  | Method.SkipNow => TD.SkipNow h
  | Method.Skipf format args => TD.Skipf h format args
  | Method.Skipped => TD.Skipped h
  | Method.Helper => TD.Helper h
  | Method.Parallel => TD.Parallel h

/-- A step that only extends the ghost log. -/
def logEvent {σ : Type} (e : Event) : Step σ :=
  Step.ret fun w => { w with trace := w.trace ++ [e] }

/-! ## deferrer/deferrer.go and the execution of callbacks -/

/-- Pushes a function into the defer stack to run later. -/
def DefaultDeferrer.Defer {σ : Type} (fn : Callback) : Step σ :=
  Step.ret fun w => { w with deferStack := w.deferStack ++ [fn] }

/-- One statement of a callback. -/
def Stmt.exec {σ : Type} (h : TestingT σ) : Stmt → Step σ
  | Stmt.call m => fun w =>
      Step.andThen (logEvent (Event.call w.td.currentLifecycle m)) (TD.invoke h m) w
  | Stmt.Defer fn => DefaultDeferrer.Defer fn
  | Stmt.other n => logEvent (Event.other n)

/-- The call `fn(t)` of a stage callback, or `fn()` of a deferred callback: its statements
in order, up to the first one that does not return. -/
def run {σ : Type} (h : TestingT σ) : Callback → Step σ
  | [] => fun w => (Exit.returned, w)
  | s :: rest => Step.andThen (Stmt.exec h s) (run h rest)

/-- The loop of `RunDeferred` with `n = i + 1` for the loop index `i`: calls
`d.deferStack[i]` and goes on with `i - 1` until `i < 0`.  An index out of range panics. -/
def DefaultDeferrer.RunDeferredLoop {σ : Type} (h : TestingT σ) : Nat → Step σ
  | 0 => fun w => (Exit.returned, w)
  | i + 1 => fun w =>
    match w.deferStack.get? i with
    | some fn => Step.seq [logEvent (Event.deferred i), run h fn, DefaultDeferrer.RunDeferredLoop h i] w
    | none => (Exit.goexit, w)

/-- Run deferred functions in LIFO order: `for i := len(d.deferStack) - 1; i >= 0; i--`. -/
def DefaultDeferrer.RunDeferred {σ : Type} (h : TestingT σ) : Step σ := fun w =>
  DefaultDeferrer.RunDeferredLoop h w.deferStack.length w

/-! ## harness.go: `timedRun`, the lifecycle methods and `Test` -/

/-- The assignment `m[k] = v` on a Go map. -/
def mapSet (m : Lifecycle → Option Timing) (k : Lifecycle) (v : Timing) :
    Lifecycle → Option Timing :=
  fun l => if l = k then some v else m l

/-- The end of `timedRun`: `timing.End = time.Now()`, the duration, and the store into
`t.timings[timing.Lifecycle]`. -/
def storeTiming {σ : Type} (env : Env σ) (timing : Timing) : Step σ :=
  Step.ret fun w =>
    let timing1 := { timing with End := env.now w.clockReads }
    let timing2 := { timing1 with Duration := (timing1.End : Int) - (timing1.Start : Int) }
    { w with
      clockReads := w.clockReads + 1
      td := { w.td with timings := mapSet w.td.timings timing2.Lifecycle timing2 } }

/-- timedRun executes fn and saves the lifecycle timing to the test case.  When `fn(t)`
does not return, the statements after it are not executed. -/
def timedRun {σ : Type} (env : Env σ) (fn : Option Callback) (lifecycle : Lifecycle) :
    Step σ := fun w =>
  let w1 : World σ := { w with td := { w.td with currentLifecycle := lifecycle } }
  let timing : Timing :=
    { Lifecycle := lifecycle, Start := 0, End := 0, Duration := 0,
      Started := false, Ended := false }
  let timing1 := { timing with Start := env.now w1.clockReads }
  let w2 : World σ := { w1 with clockReads := w1.clockReads + 1 }
  match fn with
  | some body =>
    let timing2 := { timing1 with Started := true }
    Step.seq [logEvent (Event.enter lifecycle), run env.host body,
      storeTiming env { timing2 with Ended := true }] w2
  | none => storeTiming env timing1 w2

def TestCase.ArrangeMethod {σ : Type} (env : Env σ) (tc : TestCase) : Step σ :=
  timedRun env tc.Arrange Lifecycle.Arrange

def TestCase.ActMethod {σ : Type} (env : Env σ) (tc : TestCase) : Step σ :=
  timedRun env tc.Act Lifecycle.Act

def TestCase.AssertMethod {σ : Type} (env : Env σ) (tc : TestCase) : Step σ :=
  timedRun env tc.Assert Lifecycle.Assert

def TestCase.AfterMethod {σ : Type} (env : Env σ) (tc : TestCase) : Step σ :=
  timedRun env tc.After Lifecycle.After

/-- Create a statistics struct: the calls `c.Name()` and `c.Failed()` in this order, and
the record built from their results (the record is used only if both calls return). -/
def TD.makeStatistics {σ : Type} (h : TestingT σ) (start end_ : Nat) (w : World σ) :
    (Exit × World σ) × Statistics :=
  let r1 := TD.Name h w
  let r2 := Step.andThen (TD.Name h) (TD.Failed h) w
  (r2,
   { Name := TD.nameValue h w.td
     Failed := h.Failed r1.2.td.T
     Fatal := r2.2.td.fatal
     Statuses := r2.2.td.statuses
     Timings := r2.2.td.timings
     Start := start
     End := end_
     Duration := (end_ : Int) - (start : Int)
     Output := "" })

/-- The end of the cleanup: `if runner.Initialized() { ... r.AddStatistics(stats) }`. -/
def saveStatistics {σ : Type} (h : TestingT σ) (start end_ : Nat) : Step σ := fun w =>
  match w.runnerInstance with
  | none => (Exit.returned, w)
  | some r =>
    let ms := TD.makeStatistics h start end_ w
    match ms.1.1 with
    | Exit.returned =>
      (Exit.returned, { ms.1.2 with runnerInstance := some (r.AddStatistics ms.2) })
    | Exit.goexit => ms.1

/-- The final status: `Pass` if no status was recorded, otherwise `Fail` with the fatal
flag of the context. -/
def TD.finalStatus {σ : Type} (c : TD σ) : TD σ :=
  if c.statuses.length = 0 then c.setPassed else c.setFailed c.fatal

/-- The function deferred by `Test` ("runs at the end of the test"), with the values of
the captured variables `start` and `arrangeComplete`. -/
def cleanup {σ : Type} (env : Env σ) (tc : TestCase) (start : Nat) (arrangeComplete : Bool) :
    Step σ := fun w =>
  let end_ := env.now w.clockReads
  let skipped := env.host.Skipped w.td.T
  Step.seq [
    Step.ret (fun w1 => { w1 with clockReads := w1.clockReads + 1 }),
    TD.Skipped env.host,
    (if !skipped || arrangeComplete then tc.AfterMethod env else Step.seq []),
    onTD (fun c => { c with currentLifecycle := Lifecycle.TestFinished }),
    onTD TD.finalStatus,
    DefaultDeferrer.RunDeferred env.host,
    saveStatistics env.host start end_] w

/-- The three stage calls of `Test` with the value the variable `arrangeComplete` has when
they end. -/
def runStages {σ : Type} (env : Env σ) (tc : TestCase) (w : World σ) :
    Exit × Bool × World σ :=
  match (tc.ArrangeMethod env w).1 with
  | Exit.goexit => (Exit.goexit, false, (tc.ArrangeMethod env w).2)
  | Exit.returned =>
    let r := Step.seq [tc.ActMethod env, tc.AssertMethod env] (tc.ArrangeMethod env w).2
    (r.1, true, r.2)

/-- The part of `Test` from `arrangeComplete := false` on: the stages, then the deferred
function, which runs however the stages ended. -/
def lifecycle {σ : Type} (env : Env σ) (tc : TestCase) (start : Nat) : Step σ := fun w =>
  let r := runStages env tc w
  let c := cleanup env tc start r.2.1 r.2.2
  ((match r.1 with
    | Exit.goexit => Exit.goexit
    | Exit.returned => c.1), c.2)

/-- The request for parallel scheduling at the start of `Test`. -/
def parallelStep {σ : Type} (h : TestingT σ) (options : List TestConfig) : Step σ :=
  match options with
  | o :: _ => if o.ParallelOff = false then callT h Method.Parallel else Step.seq []
  | [] => callT h Method.Parallel

/-- The fresh `TD` and the state `Test` starts in. -/
def World.init {σ : Type} (tc : TestCase) (t : σ) (clockReads : Nat)
    (runnerInstance : Option runner) : World σ :=
  { td := { T := t, fatal := false, currentLifecycle := Lifecycle.TestSetup, statuses := [],
            timings := fun _ => none, actualName := "" }
    deferStack := tc.deferStack
    clockReads := clockReads
    runnerInstance := runnerInstance
    trace := [] }

/-- This method starts the test: `Test(t, tc, options...)` on a host in state `t`, with
the clock read `clockReads` times so far and the given runner instance (`none` when
`runner.Initialized()` is false). -/
def Test {σ : Type} (env : Env σ) (tc : TestCase) (options : List TestConfig) (t : σ)
    (clockReads : Nat) (runnerInstance : Option runner) : Exit × World σ :=
  let w0 := World.init tc t clockReads runnerInstance
  let rn := callT env.host Method.Name w0
  match rn.1 with
  | Exit.goexit => rn
  | Exit.returned =>
    match MatchTag env.regexpCompile (env.host.Name t) with
    | none => (Exit.goexit, rn.2)
    | some (tagged, matched, actualName) =>
      let start := env.now rn.2.clockReads
      Step.seq [
        Step.ret (fun w => { w with clockReads := w.clockReads + 1 }),
        logEventIfInitialized ("Instantiating: " ++ actualName),
        parallelStep env.host options,
        (if tagged then
          if !matched then
            logEventIfInitialized "(match workaround) test not in tagged set; skipping"
          else
            Step.seq [onTD (fun c => { c with actualName := actualName }),
              lifecycle env tc start]
        else lifecycle env tc start)] rn.2

/-- The invocation enters the lifecycle: the host name is not a tagged name whose pattern
does not match. -/
def entersLifecycle {σ : Type} (env : Env σ) (t : σ) : Prop :=
  ∃ tagged matched actualName,
    MatchTag env.regexpCompile (env.host.Name t) = some (tagged, matched, actualName) ∧
    (tagged = false ∨ matched = true)

/-! ## Two hosts -/

/-- The state of a Go `testing.T`, as far as the harness observes it. -/
structure GoT where
  name : String
  failed : Bool
  skipped : Bool
  finished : Bool
  output : List (List String)
  deriving DecidableEq, Repr

/-- The standard library host: `Error` logs and fails, `Fatal` logs and calls `FailNow`,
`Skip` logs and calls `SkipNow`; `FailNow` and `SkipNow` end the goroutine. -/
def goTestingT : TestingT GoT where
  call m s :=
    match m with
    | Method.Error args => ({ s with output := s.output ++ [args], failed := true }, false)
    | Method.Errorf format args =>
      ({ s with output := s.output ++ [format :: args], failed := true }, false)
    | Method.Fail => ({ s with failed := true }, false)
    | Method.FailNow => ({ s with failed := true, finished := true }, true)
    | Method.Fatal args =>
      ({ s with output := s.output ++ [args], failed := true, finished := true }, true)
    | Method.Fatalf format args =>
      ({ s with output := s.output ++ [format :: args], failed := true, finished := true },
        true)
    | Method.Log args => ({ s with output := s.output ++ [args] }, false)
    | Method.Logf format args => ({ s with output := s.output ++ [format :: args] }, false)
    | Method.Skip args =>
      ({ s with output := s.output ++ [args], skipped := true, finished := true }, true)
    | Method.Skipf format args =>
      ({ s with output := s.output ++ [format :: args], skipped := true, finished := true },
        true)
    | Method.SkipNow => ({ s with skipped := true, finished := true }, true)
    | _ => (s, false)
  Failed s := s.failed
  Skipped s := s.skipped
  Name s := s.name

/-- The state of the test double `mockT` of harness_test.go: the calls it logged and the
configured return values. -/
structure MockT where
  calls : List Method
  retSkipped : Bool
  retFailed : Bool
  retName : String
  deriving DecidableEq, Repr

/-- The test double `mockT`: every method logs the call and returns. -/
def mockT : TestingT MockT where
  call m s := ({ s with calls := s.calls ++ [m] }, false)
  Failed s := s.retFailed
  Skipped s := s.retSkipped
  Name s := s.retName

/-- The state `newMockT()` returns. -/
def newMockT : MockT := { calls := [], retSkipped := false, retFailed := false, retName := "" }

/-- A fresh `testing.T` with the given name. -/
def newGoT (name : String) : GoT :=
  { name := name, failed := false, skipped := false, finished := false, output := [] }

/-- An environment around a host, with a clock that advances by one at each reading and a
regular-expression library that compiles nothing. -/
def Env.simple {σ : Type} (h : TestingT σ) : Env σ :=
  { host := h, now := fun k => k, regexpCompile := fun _ => none }

/-! ## Classes of methods -/

/-- Error-class methods: they record `Fail(fatal=false)`. -/
def Method.isErrorClass : Method → Bool
  | Method.Error _ => true
  | Method.Errorf _ _ => true
  | Method.Fail => true
  | _ => false

/-- Fatal-class methods: `Fatal`, `Fatalf`, `FailNow`. -/
def Method.isFatalClass : Method → Bool
  | Method.Fatal _ => true
  | Method.Fatalf _ _ => true
  | Method.FailNow => true
  | _ => false

/-- Skip-class methods: `Skip`, `Skipf`, `SkipNow`. -/
def Method.isSkipClass : Method → Bool
  | Method.Skip _ => true
  | Method.Skipf _ _ => true
  | Method.SkipNow => true
  | _ => false

/-- Methods through which a callback reports: the ones that record a status. -/
def Method.reports (m : Method) : Bool := m.isErrorClass || m.isFatalClass || m.isSkipClass

/-- Methods that end the task on a standard host. -/
def Method.aborts (m : Method) : Bool := m.isFatalClass || m.isSkipClass

/-- The status a `TD` method records while the current lifecycle is `cur`. -/
def Method.report (cur : Lifecycle) (m : Method) : List Status :=
  if m.isErrorClass then [⟨StatusValue.Fail, cur, false⟩]
  else if m.isFatalClass then [⟨StatusValue.Fail, cur, true⟩]
  else if m.isSkipClass then [⟨StatusValue.Skip, cur, false⟩]
  else []

/-- The statement is a report. -/
def Stmt.reports : Stmt → Bool
  | Stmt.call m => m.reports
  | _ => false

/-- The statement is a Fatal- or Skip-class call. -/
def Stmt.aborts : Stmt → Bool
  | Stmt.call m => m.aborts
  | _ => false

/-- The status the statement records while the current lifecycle is `cur`. -/
def Stmt.report (cur : Lifecycle) : Stmt → List Status
  | Stmt.call m => m.report cur
  | _ => []

/-- The callback the statement registers with `Defer`. -/
def Stmt.defers : Stmt → List Callback
  | Stmt.Defer fn => [fn]
  | _ => []

/-- The statement is a Fatal-class call. -/
def Stmt.isFatal : Stmt → Bool
  | Stmt.call m => m.isFatalClass
  | _ => false

/-- The statement is a Skip-class call. -/
def Stmt.isSkip : Stmt → Bool
  | Stmt.call m => m.isSkipClass
  | _ => false

/-- The statuses a callback records when all of its statements are executed. -/
def reportsOf (cur : Lifecycle) : Callback → List Status
  | [] => []
  | s :: rest => s.report cur ++ reportsOf cur rest

/-- The callbacks a callback registers with `Defer` when all of its statements are
executed. -/
def defersOf : Callback → List Callback
  | [] => []
  | s :: rest => s.defers ++ defersOf rest

/-- No statement of the callback reports. -/
def quiet (body : Callback) : Prop := ∀ s ∈ body, s.reports = false

/-- No statement of the callback is a Fatal- or Skip-class call. -/
def noAbort (body : Callback) : Prop := ∀ s ∈ body, s.aborts = false

/-! ## Host laws -/

/-- Every host method other than the Fatal- and Skip-class ones returns to its caller. -/
def TestingT.Returns {σ : Type} (h : TestingT σ) : Prop :=
  ∀ m s, m.aborts = false → (h.call m s).2 = false

/-- Fatal-class calls (Fatal, Fatalf, FailNow) abort the running task. -/
def TestingT.FatalAborts {σ : Type} (h : TestingT σ) : Prop :=
  ∀ m s, m.isFatalClass = true → (h.call m s).2 = true

/-- Skip-class calls (Skip, Skipf, SkipNow) abort the running task and make `Skipped()`
true. -/
def TestingT.SkipAborts {σ : Type} (h : TestingT σ) : Prop :=
  ∀ m s, m.isSkipClass = true → (h.call m s).2 = true ∧ h.Skipped (h.call m s).1 = true

/-- Calls other than the Skip-class ones do not change what `Skipped()` returns. -/
def TestingT.SkippedStable {σ : Type} (h : TestingT σ) : Prop :=
  ∀ m s, m.isSkipClass = false → h.Skipped (h.call m s).1 = h.Skipped s

/-! ## Predicates used in the statements -/

/-- Events a callback adds to the log while the current lifecycle is `cur`: its calls of
`TD` methods (tagged with `cur`), the host calls they make, and its other statements. -/
def Event.isLocal (cur : Lifecycle) : Event → Bool
  | Event.enter _ => false
  | Event.deferred _ => false
  | Event.call l _ => decide (l = cur)
  | Event.host _ => true
  | Event.other _ => true

/-- Events added while the deferred-call stack runs. -/
def Event.isDeferredPhase : Event → Bool
  | Event.enter _ => false
  | Event.call l _ => decide (l = Lifecycle.TestFinished)
  | _ => true

/-- The event logs the invocation of a stage callback or of a deferred callback. -/
def Event.isInvocation : Event → Bool
  | Event.enter _ => true
  | Event.deferred _ => true
  | _ => false

/-- The event logs a Fatal-class report made during one of the four stages. -/
def Event.isStageFatal : Event → Bool
  | Event.call l m => m.isFatalClass && decide (l ≠ Lifecycle.TestFinished)
  | _ => false

/-- The state `w2` continues `w1`: the status sequence, the defer stack and the log have
only grown at their ends, every new status carries the current lifecycle and is not a
`Pass`, the fatal flag is the old flag or a new fatal status, every new log entry
satisfies `P`, and the rest of the context is unchanged. -/
structure Grows {σ : Type} (P : Event → Prop) (w1 w2 : World σ) : Prop where
  lifecycle : w2.td.currentLifecycle = w1.td.currentLifecycle
  timings : w2.td.timings = w1.td.timings
  actualName : w2.td.actualName = w1.td.actualName
  clockReads : w2.clockReads = w1.clockReads
  runnerInstance : w2.runnerInstance = w1.runnerInstance
  statuses : ∃ ext, w2.td.statuses = w1.td.statuses ++ ext ∧
    (∀ s ∈ ext, s.Lifecycle = w1.td.currentLifecycle ∧ s.Status ≠ StatusValue.Pass) ∧
    w2.td.fatal = (w1.td.fatal || ext.any fun s => s.Fatal)
  deferStack : ∃ ext, w2.deferStack = w1.deferStack ++ ext
  trace : ∃ ext, w2.trace = w1.trace ++ ext ∧ ∀ e ∈ ext, P e

/-- The step only extends the context, with log entries that satisfy `P` for the current
lifecycle. -/
def Step.Adds {σ : Type} (P : Lifecycle → Event → Prop) (f : Step σ) : Prop :=
  ∀ w, Grows (P w.td.currentLifecycle) w (f w).2

/-- The step only extends the context, with log entries local to the current lifecycle. -/
def Step.Local {σ : Type} (f : Step σ) : Prop :=
  Step.Adds (fun cur e => e.isLocal cur = true) f

/-! ## Specifications the code is compared with -/

/-- The call `d.deferStack[i]()` of the callback `fn` registered at index `i`. -/
def callDeferred {σ : Type} (h : TestingT σ) (i : Nat) (fn : Callback) : Step σ :=
  Step.seq [logEvent (Event.deferred i), run h fn]

/-- Strict reverse order of registration: the callbacks of `fs`, each called once, the last
registered first. -/
def invokeInReverse {σ : Type} (h : TestingT σ) (fs : List Callback) : Step σ :=
  Step.seq (fs.enum.reverse.map fun p => callDeferred h p.1 p.2)

/-- The calls `d.Defer(f1); ...; d.Defer(fn)`. -/
def deferAll {σ : Type} (fs : List Callback) : Step σ :=
  Step.seq (fs.map DefaultDeferrer.Defer)

/-- The invocations of callbacks in a log, in order. -/
def invocations (tr : List Event) : List Event := tr.filter Event.isInvocation

/-- The state in which `timedRun` calls a callback that is present: the stage is current,
the clock has been read once, and the invocation is logged. -/
def stageEntry {σ : Type} (l : Lifecycle) (w : World σ) : World σ :=
  { w with
    td := { w.td with currentLifecycle := l }
    clockReads := w.clockReads + 1
    trace := w.trace ++ [Event.enter l] }

/-- The callback returns to its caller from every state. -/
def Callback.Returns {σ : Type} (h : TestingT σ) (body : Callback) : Prop :=
  ∀ w : World σ, (run h body w).1 = Exit.returned

/-- The statements of an optional callback (none for `nil`). -/
def bodyOf (fn : Option Callback) : Callback := fn.getD []

/-- The log entry for the invocation of an optional stage callback. -/
def enterOf (l : Lifecycle) (fn : Option Callback) : List Event :=
  match fn with
  | some _ => [Event.enter l]
  | none => []

/-- The callback of a stage of the test case, by stage name. -/
def TestCase.callback (tc : TestCase) : Lifecycle → Option Callback
  | Lifecycle.Arrange => tc.Arrange
  | Lifecycle.Act => tc.Act
  | Lifecycle.Assert => tc.Assert
  | Lifecycle.After => tc.After
  | _ => none

/-- The four stage names. -/
def Lifecycle.isStage : Lifecycle → Bool
  | Lifecycle.Arrange => true
  | Lifecycle.Act => true
  | Lifecycle.Assert => true
  | Lifecycle.After => true
  | _ => false

/-- What the stage `l` leaves behind when its callback executes the statements `pre` and is
then aborted by the statement `s`: the reports and deferred callbacks of `pre` and `s` are
recorded, the invocation is logged, and no timing is stored. -/
structure AbortedStage {σ : Type} (env : Env σ) (l : Lifecycle) (pre : Callback) (s : Stmt)
    (w w2 : World σ) : Prop where
  statuses : w2.td.statuses = w.td.statuses ++ reportsOf l pre ++ s.report l
  deferStack : w2.deferStack = w.deferStack ++ defersOf pre ++ s.defers
  fatal : w2.td.fatal = (w.td.fatal || s.isFatal)
  trace : ∃ ext, w2.trace = w.trace ++ ext ∧ invocations ext = [Event.enter l]
  timings : w2.td.timings = w.td.timings
  lifecycle : w2.td.currentLifecycle = l
  actualName : w2.td.actualName = w.td.actualName
  runnerInstance : w2.runnerInstance = w.runnerInstance
  skipped : env.host.SkippedStable → s.isSkip = false →
    env.host.Skipped w2.td.T = env.host.Skipped w.td.T
  last : ∃ v, w2 = (Stmt.exec env.host s v).2

/-- The end of the deferred function of `Test`, after the After stage: the final status,
the deferred-call stack and the statistics. -/
def finishTest {σ : Type} (env : Env σ) (start end_ : Nat) : Step σ :=
  Step.seq [
    onTD (fun c => { c with currentLifecycle := Lifecycle.TestFinished }),
    onTD TD.finalStatus,
    DefaultDeferrer.RunDeferred env.host,
    saveStatistics env.host start end_]

/-- The final status for a status sequence and a fatal flag. -/
def terminalStatus (statuses : List Status) (fatal : Bool) : Status :=
  if statuses.length = 0 then ⟨StatusValue.Pass, Lifecycle.TestFinished, false⟩
  else ⟨StatusValue.Fail, Lifecycle.TestFinished, fatal⟩

/-- The state of the deferred function of `Test` after `end := time.Now()` and the call
`td.Skipped()`. -/
def cleanupEntry {σ : Type} (env : Env σ) (w : World σ) : World σ :=
  (callT env.host Method.Skipped { w with clockReads := w.clockReads + 1 }).2

/-- The state in which `Test` enters the lifecycle for a test case on a host that was in
state `t`: nothing is recorded yet, the defer stack is that of the test case, and only
host calls are logged. -/
structure Fresh {σ : Type} (env : Env σ) (tc : TestCase) (t : σ) (w : World σ) : Prop where
  statuses : w.td.statuses = []
  fatal : w.td.fatal = false
  timings : w.td.timings = fun _ => none
  deferStack : w.deferStack = tc.deferStack
  trace : ∀ e ∈ w.trace, ∃ m, e = Event.host m
  skipped : env.host.SkippedStable → env.host.Skipped w.td.T = env.host.Skipped t

/-- The statuses the four stage callbacks record when all their statements are executed. -/
def stageReports (tc : TestCase) : List Status :=
  reportsOf Lifecycle.Arrange (bodyOf tc.Arrange) ++ reportsOf Lifecycle.Act (bodyOf tc.Act) ++
    reportsOf Lifecycle.Assert (bodyOf tc.Assert) ++ reportsOf Lifecycle.After (bodyOf tc.After)

/-- The callbacks the four stage callbacks register with `Defer` when all their statements
are executed. -/
def stageDefers (tc : TestCase) : List Callback :=
  defersOf (bodyOf tc.Arrange) ++ defersOf (bodyOf tc.Act) ++ defersOf (bodyOf tc.Assert) ++
    defersOf (bodyOf tc.After)

/-- The invocations of the callbacks that are present, in the order Arrange, Act, Assert,
After. -/
def stageEnters (tc : TestCase) : List Event :=
  enterOf Lifecycle.Arrange tc.Arrange ++ enterOf Lifecycle.Act tc.Act ++
    enterOf Lifecycle.Assert tc.Assert ++ enterOf Lifecycle.After tc.After

/-- None of the four stage callbacks has a Fatal- or Skip-class call. -/
def TestCase.stagesReturn (tc : TestCase) : Prop :=
  noAbort (bodyOf tc.Arrange) ∧ noAbort (bodyOf tc.Act) ∧ noAbort (bodyOf tc.Assert) ∧
    noAbort (bodyOf tc.After)

/-- None of the four stage callbacks reports. -/
def TestCase.stagesQuiet (tc : TestCase) : Prop :=
  quiet (bodyOf tc.Arrange) ∧ quiet (bodyOf tc.Act) ∧ quiet (bodyOf tc.Assert) ∧
    quiet (bodyOf tc.After)

/-- The callback makes exactly one Error-class report and no other report. -/
def oneError (body : Callback) : Prop :=
  ∃ pre m post, body = pre ++ Stmt.call m :: post ∧ m.isErrorClass = true ∧
    quiet pre ∧ quiet post

/-- The four stage names in lifecycle order. -/
def stageNames : List Lifecycle :=
  [Lifecycle.Arrange, Lifecycle.Act, Lifecycle.Assert, Lifecycle.After]

/-- The callback of each stage in `S` is present and makes exactly one Error-class report,
and the callbacks of the other stages do not report. -/
def errorsExactlyIn (S : Lifecycle → Bool) (tc : TestCase) : Prop :=
  ∀ l ∈ stageNames,
    (S l = true → ∃ body, tc.callback l = some body ∧ oneError body) ∧
    (S l = false → quiet (bodyOf (tc.callback l)))

/-! ## Test cases used as concrete inputs -/

/-- Four callbacks that do not report, one of which registers a deferred callback. -/
def quietCase : TestCase :=
  { Arrange := some [Stmt.other 1, Stmt.Defer [Stmt.call (Method.Log ["deferred"])]]
    Act := some [Stmt.call (Method.Log ["act"])]
    Assert := none
    After := some [Stmt.other 4]
    deferStack := [] }

/-- The test case of `Test_Test_ShouldAllowErrorInEachLifecycleMethod`: every stage
reports one error. -/
def errorInEachStage : TestCase :=
  { Arrange := some [Stmt.call (Method.Error [])]
    Act := some [Stmt.call (Method.Error [])]
    Assert := some [Stmt.call (Method.Error [])]
    After := some [Stmt.call (Method.Error [])]
    deferStack := [] }

/-- The test case of `Test_Test_ShouldExecuteNoNilLifecycleMethods`: no callback at all. -/
def emptyCase : TestCase :=
  { Arrange := none, Act := none, Assert := none, After := none, deferStack := [] }

/-- The stage of an invocation of a stage callback. -/
def Event.stage : Event → Option Lifecycle
  | Event.enter l => some l
  | _ => none

/-- The stages whose callback was invoked, in the order of the invocations. -/
def entered (tr : List Event) : List Lifecycle := tr.filterMap Event.stage

/-- The stage name, if the callback of the stage is present. -/
def presentStage (l : Lifecycle) (fn : Option Callback) : List Lifecycle :=
  match fn with
  | some _ => [l]
  | none => []

/-- The test case with the callback of stage `l` replaced. -/
def TestCase.withCallback (tc : TestCase) (l : Lifecycle) (fn : Option Callback) : TestCase :=
  match l with
  | Lifecycle.Arrange => { tc with Arrange := fn }
  | Lifecycle.Act => { tc with Act := fn }
  | Lifecycle.Assert => { tc with Assert := fn }
  | Lifecycle.After => { tc with After := fn }
  | _ => tc

/-- The callbacks of the stages that run before stage `X`. -/
def callbacksBefore (tc : TestCase) : Lifecycle → List (Lifecycle × Option Callback)
  | Lifecycle.Act => [(Lifecycle.Arrange, tc.Arrange)]
  | Lifecycle.Assert => [(Lifecycle.Arrange, tc.Arrange), (Lifecycle.Act, tc.Act)]
  | _ => []

/-- The statuses recorded by the stages before `X` when they run in full. -/
def reportsBefore (tc : TestCase) (X : Lifecycle) : List Status :=
  ((callbacksBefore tc X).map fun p => reportsOf p.1 (bodyOf p.2)).flatten

/-- The callbacks registered with `Defer` by the stages before `X` when they run in full. -/
def defersBefore (tc : TestCase) (X : Lifecycle) : List Callback :=
  ((callbacksBefore tc X).map fun p => defersOf (bodyOf p.2)).flatten

/-- The stages before `X` whose callback is present. -/
def enteredBefore (tc : TestCase) (X : Lifecycle) : List Lifecycle :=
  ((callbacksBefore tc X).map fun p => presentStage p.1 p.2).flatten

/-- One of the three stages that `Test` runs before its deferred function. -/
def Lifecycle.isMainStage : Lifecycle → Bool
  | Lifecycle.Arrange => true
  | Lifecycle.Act => true
  | Lifecycle.Assert => true
  | _ => false

/-- The test case of `Test_BasicExample_ArrangeMultiFatal`: two Fatal calls in a row in
Arrange. -/
def arrangeMultiFatal : TestCase :=
  { Arrange := some [Stmt.call (Method.Fatalf "basic arrange example fatal 1" []),
      Stmt.call (Method.Fatalf "basic arrange example fatal 2" [])]
    Act := some [Stmt.other 2]
    Assert := none
    After := some [Stmt.other 4]
    deferStack := [] }

/-- The Act case of `Test_TestWithFatal_ShouldBeMarkedFatal`: the only callback is Act, and
it calls Fatal. -/
def actFatal : TestCase :=
  { Arrange := none
    Act := some [Stmt.call (Method.Fatal [])]
    Assert := none
    After := none
    deferStack := [] }

/-- The test case of `Test_ArrangeSkipNow_ShouldbeMarkedSkip`: Arrange registers a deferred
callback, skips, and would register a second one. -/
def arrangeSkipNow : TestCase :=
  { Arrange := some [Stmt.Defer [Stmt.call (Method.Log ["skip now defer message 1"])],
      Stmt.call Method.SkipNow,
      Stmt.Defer [Stmt.call (Method.Log ["skip now defer message 2"])]]
    Act := some [Stmt.call (Method.Error ["skip now act error"])]
    Assert := some [Stmt.call (Method.Error ["skip now assert error"])]
    After := some [Stmt.call (Method.Log ["skip now after message"])]
    deferStack := [] }

/-- The test case of `Test_ActSkipNow_ShouldbeMarkedSkipAndExecuteAfter`. -/
def actSkipNow : TestCase :=
  { Arrange := some [Stmt.Defer [Stmt.call (Method.Log ["skip now defer message"])]]
    Act := some [Stmt.call Method.SkipNow, Stmt.call (Method.Error ["skip now act error"])]
    Assert := some [Stmt.call (Method.Error ["skip now assert error"])]
    After := some [Stmt.call (Method.Log ["skip now after message"])]
    deferStack := [] }

/-- The fatal flag of the context is set exactly when the log holds a Fatal-class report
made during one of the stages. -/
def FatalLogged {σ : Type} (w : World σ) : Prop :=
  w.td.fatal = w.trace.any Event.isStageFatal

/-- Every status recorded so far carries one of the four stage names. -/
def StageStatuses {σ : Type} (w : World σ) : Prop :=
  ∀ s ∈ w.td.statuses, s.Lifecycle.isStage = true

/-- Every timing is stored under its own stage name, which is one of the four, and its
`Started` and `Ended` fields tell whether the callback of the stage is present. -/
def TimingsOK (tc : TestCase) (timings : Lifecycle → Option Timing) : Prop :=
  ∀ l tm, timings l = some tm →
    l.isStage = true ∧ tm.Lifecycle = l ∧ tm.Started = (tc.callback l).isSome ∧
      tm.Ended = (tc.callback l).isSome

/-- A regular-expression library for patterns without metacharacters: every such pattern
compiles, and it matches a text when it occurs in it. -/
def literalRegexp (pattern : String) : Option (String → Bool) :=
  some fun text => text.data.tails.any fun suffix => pattern.data.isPrefixOf suffix

/-- The standard host with the library for literal patterns. -/
def Env.literal : Env GoT :=
  { host := goTestingT, now := fun k => k, regexpCompile := literalRegexp }

/-- The name the runner's workaround gives the test `TestA` under the filter `TestB`. -/
def taggedTestA : String := String.mk ("TestB".data ++ [Char.ofNat 0] ++ "TestA".data)

/-- An error in Act and a deferred callback that reports a fatal failure. -/
def errorThenDeferredFatal : TestCase :=
  { Arrange := some [Stmt.Defer [Stmt.call (Method.Fatal ["deferred fatal"])]]
    Act := some [Stmt.call (Method.Error ["act error"])]
    Assert := none
    After := none
    deferStack := [] }

/-- A test case modelled on `Test_BasicExample_ArrangeAfterMultiFatal` and
`Test_BasicExample_ArrangeFatalAndDeferred`: Arrange registers a deferred callback and
After reports a fatal failure. -/
def afterFatal : TestCase :=
  { Arrange := some [Stmt.Defer [Stmt.call (Method.Log ["basic deferred output"])]]
    Act := none
    Assert := none
    After := some [Stmt.call (Method.Fatalf "basic after example fatal" [])]
    deferStack := [] }

/-- Every stored timing has `Duration = End - Start`. -/
def DurationsOK (timings : Lifecycle → Option Timing) : Prop :=
  ∀ l tm, timings l = some tm → tm.Duration = (tm.End : Int) - (tm.Start : Int)

/-- The test case of `Test_Test_ShouldSetTimingsForLifecycleMethods` and of `TestStatistics`:
only an Act callback, which logs and returns. -/
def onlyAct : TestCase :=
  { Arrange := none
    Act := some [Stmt.other 2, Stmt.call (Method.Log ["stub should pass"])]
    Assert := none
    After := none
    deferStack := [] }

/-- The methods of `TD` that call `c.T.Helper()` before anything else. -/
def Method.callsHelper : Method → Bool
  | Method.Error _ => true
  | Method.Errorf _ _ => true
  | Method.Fatal _ => true
  | Method.Fatalf _ _ => true
  | _ => false

/-- The host calls that `TD`'s method `m` makes when they all return: `Helper` for the
four methods that mark themselves as helpers, then the method of the same name with the
same arguments. -/
def forwardedCalls (m : Method) : List Method :=
  (if m.callsHelper then [Method.Helper] else []) ++ [m]

/-- The host calls in a log, in order. -/
def hostCalls (tr : List Event) : List Method :=
  tr.filterMap fun e =>
    match e with
    | Event.host m => some m
    | _ => none

/-- The value returned by `TD.Failed`. -/
def TD.failedValue {σ : Type} (h : TestingT σ) (c : TD σ) : Bool := h.Failed c.T

/-- The value returned by `TD.Skipped`. -/
def TD.skippedValue {σ : Type} (h : TestingT σ) (c : TD σ) : Bool := h.Skipped c.T

/-- The log entry of a call of the host's `Parallel`. -/
def Event.isHostParallel : Event → Bool
  | Event.host Method.Parallel => true
  | _ => false

/-- The log entry of a statement `t.Parallel()` of a callback. -/
def Event.isCallParallel : Event → Bool
  | Event.call _ Method.Parallel => true
  | _ => false

/-- The log entries hold as many calls of the host's `Parallel` as statements
`t.Parallel()` of callbacks: every such host call is the one a callback asked for. -/
def ParallelBalanced (ext : List Event) : Prop :=
  ext.countP Event.isHostParallel = ext.countP Event.isCallParallel

/-- The step only extends the log, and calls the host's `Parallel` only for the statements
`t.Parallel()` of callbacks. -/
def Step.Balanced {σ : Type} (f : Step σ) : Prop :=
  ∀ w, ∃ ext, (f w).2.trace = w.trace ++ ext ∧ ParallelBalanced ext

/-- The calls of the host's `Parallel` the claim expects of `Test` itself: one when no
`TestConfig` is passed or the first has `ParallelOff = false`, none otherwise. -/
def parallelCalls (options : List TestConfig) : List Event :=
  match options.head? with
  | none => [Event.host Method.Parallel]
  | some o => if o.ParallelOff = true then [] else [Event.host Method.Parallel]

/-- A record with the given name and `Failed` field and nothing else. -/
def Statistics.named (name : String) (failed : Bool) : Statistics :=
  { Name := name, Failed := failed, Fatal := false, Statuses := [], Timings := fun _ => none,
    Start := 0, End := 0, Duration := 0, Output := "" }

/-- A regular-expression library in which only the pattern `TestA` compiles; it matches
the text `TestA`. -/
def onlyTestA (pattern : String) : Option (String → Bool) :=
  if pattern = "TestA" then some fun s => s == "TestA" else none

/-- The deferred callback on the stack of the test case reports a fatal failure. -/
def deferredFatal : TestCase :=
  { Arrange := none, Act := none, Assert := none, After := none,
    deferStack := [[Stmt.call (Method.Fatal ["deferred fatal"])]] }

/-- The fields of a record that can be compared: all but the timing map. -/
def Statistics.summary (s : Statistics) :
    String × Bool × Bool × List Status × Nat × Nat × Int × String :=
  (s.Name, s.Failed, s.Fatal, s.Statuses, s.Start, s.End, s.Duration, s.Output)

/-! ## Goroutines that call `AddStatistics` at the same time -/

/-- Where a goroutine is in the statement `r.stats = append(r.stats, *stats)` of
`AddStatistics`: before it reads `r.stats`, between the read and the write (holding the
slice it has read), or behind the write. -/
inductive AddStatisticsCall
  | start (stats : Statistics)
  | loaded (old : List Statistics) (stats : Statistics)
  | done

/-- The next memory access of a goroutine in `AddStatistics`: the read of `r.stats`, or the
write of the appended slice.  The method takes no lock, so accesses of other goroutines may
come between the two. -/
def AddStatisticsCall.step (r : runner) : AddStatisticsCall → runner × AddStatisticsCall
  | AddStatisticsCall.start stats => (r, AddStatisticsCall.loaded r.stats stats)
  | AddStatisticsCall.loaded old stats =>
    ({ r with stats := old ++ [stats] }, AddStatisticsCall.done)
  | AddStatisticsCall.done => (r, AddStatisticsCall.done)

/-- The goroutine has returned from `AddStatistics`. -/
def AddStatisticsCall.isDone : AddStatisticsCall → Bool
  | AddStatisticsCall.done => true
  | _ => false

/-- The runner and the goroutines after the goroutines made their accesses in the order of
the schedule (a list of goroutine indices). -/
def runSchedule : List Nat → runner × List AddStatisticsCall → runner × List AddStatisticsCall
  | [], st => st
  | i :: rest, st =>
    match st.2.get? i with
    | some g => runSchedule rest ((g.step st.1).1, st.2.set i (g.step st.1).2)
    | none => runSchedule rest st

/-! ## runner/runner.go: the singleton, the test filter and `Run` -/

/-- The package-level variables `instance` (`none` for `nil`) and `once` (whether
`once.Do` has run its function). -/
structure Package where
  instanceVar : Option runner
  onceDone : Bool

/-- The package state when the program starts. -/
def Package.init : Package := { instanceVar := none, onceDone := false }

/-- Instance returns the runner instance; only the first invocation sets the driver.  The
first component of the result is `none` when the call panics, and otherwise the value of
the variable `instance` that is returned. -/
def Instance (m : Option TestRunner) (p : Package) : Option (Option runner) × Package :=
  if m.isNone && p.instanceVar.isNone then (none, p)
  else
    let p1 : Package :=
      if p.onceDone then p else { instanceVar := some (newInstance m), onceDone := true }
    (some p1.instanceVar, p1)

/-- Initialized returns true if the instance is initialized. -/
def Initialized (p : Package) : Bool := p.instanceVar.isSome

/-- The package state is one that calls of `Instance` can lead to from the start: the
function of `once` has run exactly when the instance is set. -/
def Package.Reachable (p : Package) : Prop := p.onceDone = p.instanceVar.isSome

/-- The function `getInternalTests`: the tests of the driver; `none` when it panics (the
driver is `nil` or has no field of type `[]testing.InternalTest`). -/
def getInternalTests (m : Option TestRunner) : Option (List InternalTest) :=
  match m with
  | none => none
  | some d => d.internalTests

/-- The function `filterTests`: the tests whose name matches `re`, in order; `none` when
`re` is `nil` and a name has to be matched (nil dereference). -/
def filterTests (re : Option (String → Bool)) : List InternalTest → Option (List InternalTest)
  | [] => some []
  | test :: rest =>
    match re with
    | none => none
    | some f =>
      match filterTests re rest with
      | none => none
      | some filtered => some (if f test.Name then test :: filtered else filtered)

/-- The loop of `filterTestsWorkaround` that tags the name of every test. -/
def tagTests (rePattern : String) : List InternalTest → List InternalTest
  | [] => []
  | test :: rest =>
    { test with Name := rePattern ++ String.singleton (Char.ofNat 0) ++ test.Name } ::
      tagTests rePattern rest

/-- Temporary workaround to run individual test cases by name. -/
def filterTestsWorkaround (re : Option (String → Bool)) (tests : List InternalTest)
    (matchWorkaround : Bool) (rePattern : String) : Option (List InternalTest) :=
  if matchWorkaround && decide (rePattern ≠ ".*") then some (tagTests rePattern tests)
  else filterTests re tests

/-- What `Run` takes from outside the runner: the package variable `EnableMatchWorkaround`,
the package variable `runnerMainStart` (running the given tests leaves the runner in a new
state, because the tests deliver statistics and events to it, and writes text to the
standard output, which `Run` captures), and `reFilterTags.ReplaceAllString(·, "")`. -/
structure RunEnv where
  EnableMatchWorkaround : Bool
  runnerMainStart : List InternalTest → runner → runner × String
  reFilterTagsReplace : String → String

/-- The state of the runner when `runnerMainStart` has returned in `Run`, and the captured
output; `none` when `getInternalTests` or the filter panics. -/
def runner.runTests (env : RunEnv) (r : runner) : Option (runner × String) :=
  match getInternalTests r.m with
  | none => none
  | some internalTests =>
    match filterTestsWorkaround r.matchRe internalTests env.EnableMatchWorkaround
        r.matchPattern with
    | none => none
    | some tests => some (env.runnerMainStart tests r)

/-- The loop at the end of `Run`: `for i := range r.stats { r.stats[i].Output = r.output }`,
on the records that are left. -/
def runner.copyOutput (output : String) : List Testdeck.Statistics → List Testdeck.Statistics
  | [] => []
  | s :: rest => { s with Output := output } :: runner.copyOutput output rest

/-- Run starts the test runner; `none` when it panics. -/
def runner.Run (env : RunEnv) (r : runner) : Option runner :=
  match r.runTests env with
  | none => none
  | some (r1, captured) =>
    let r2 : runner := { r1 with output := captured }
    let r3 : runner :=
      if env.EnableMatchWorkaround then
        { r2 with output := env.reFilterTagsReplace r2.output }
      else r2
    some { r3 with stats := runner.copyOutput r3.output r3.stats }

/-- The method `Output` of the runner. -/
def runner.Output (r : runner) : String := r.output

/-- The record without its `Output` field. -/
def Statistics.withoutOutput (s : Statistics) : Statistics := { s with Output := "" }

/-- A stand-in for the test run: every test delivers one record that carries its name, and
the output is one line for each test; the tag filter is the identity. -/
def fakeRunEnv : RunEnv :=
  { EnableMatchWorkaround := true
    runnerMainStart := fun tests r =>
      (tests.foldl (fun r1 t => r1.AddStatistics (Statistics.named t.Name false)) r,
        String.join (tests.map fun t => "PASS: " ++ t.Name ++ "\n"))
    reFilterTagsReplace := fun s => s }

/-! ## service/config/config.go -/

/-- The configuration value for tests that do not save their results. -/
def RunAsLocal : String := "local"

/-- The configuration value for tests that save their results. -/
def RunAsJob : String := "job"

/-- The environment variable that tells a Kubernetes pod. -/
def KubernetesServiceHostKey : String := "KUBERNETES_SERVICE_HOST"

/-- The environment variable that tells Telepresence. -/
def TelepresenceRootKey : String := "TELEPRESENCE_ROOT"

/-- The field of `config.Env` that `RunAs` reads. -/
structure config.Env where
  RunAs : String

/-- Detects if test service is running in a Kubernetes pod (`lookupEnv` is
`os.LookupEnv`: the value of a variable that is set). -/
def RunningInKubernetes (lookupEnv : String → Option String) : Bool :=
  (lookupEnv KubernetesServiceHostKey).isSome

/-- Detects if test service is running in Telepresence. -/
def RunningInTelepresence (lookupEnv : String → Option String) : Bool :=
  (lookupEnv TelepresenceRootKey).isSome

/-- RunAs returns a string containing the type of environment the tests should run as. -/
def config.RunAs (lookupEnv : String → Option String) (env : config.Env) : String :=
  if env.RunAs ≠ "" then
    if env.RunAs = RunAsJob then RunAsJob else RunAsLocal
  else if RunningInKubernetes lookupEnv && !RunningInTelepresence lookupEnv then RunAsJob
  else RunAsLocal

/-- The process environment in which exactly the listed variables are set. -/
def envOf (vars : List (String × String)) (key : String) : Option String :=
  (vars.find? fun kv => kv.1 == key).map fun kv => kv.2

/-! ## fuzzer/fuzzer.go and intruder/intruder.go: the loop over the fields -/

/-- The loop of `FuzzGrpcEndpoint` over the field names that are left: the fields on which
`FuzzThisField` is called, in order. -/
def FuzzGrpcEndpoint : List String → List String
  | [] => []
  | fieldName :: rest =>
    if "XXX".data.isPrefixOf fieldName.data then []
    else fieldName :: FuzzGrpcEndpoint rest

/-- The loop of `RunIntruderTests` over the field names that are left: the fields on which
`TestThisField` is called, in order. -/
def RunIntruderTests : List String → List String
  | [] => []
  | fieldName :: rest =>
    if "XXX".data.isPrefixOf fieldName.data then []
    else fieldName :: RunIntruderTests rest

/-- The fields the claim expects to be tested: those whose name does not start with
`XXX`. -/
def fieldsToTest (fieldNames : List String) : List String :=
  fieldNames.filter fun fieldName => !"XXX".data.isPrefixOf fieldName.data

/-- The callback returns on a standard host and registers no deferred callback: none of
its statements is a Fatal- or Skip-class call or a call of `Defer`. -/
def plainCallback (fn : Callback) : Prop := noAbort fn ∧ defersOf fn = []

/-- The test case as the program holds it after an invocation of `Test` that ended in the
state `w`: the same callbacks, and the deferred-call stack that the invocation left. -/
def TestCase.after {σ : Type} (tc : TestCase) (w : World σ) : TestCase :=
  { tc with deferStack := w.deferStack }

/-- A test case whose Arrange callback registers a deferred callback that logs. -/
def deferInArrange : TestCase :=
  { Arrange := some [Stmt.Defer [Stmt.call (Method.Log ["deferred"])]]
    Act := some [Stmt.call (Method.Log ["act"])]
    Assert := none
    After := none
    deferStack := [] }

/-- The test case with only an Act callback, run on the standard host with a new runner and
a clock that advances by one at each reading. -/
def onlyActRun : Exit × World GoT :=
  Test (Env.simple goTestingT) onlyAct [] (newGoT "T") 0 (some (newInstance none))

/-- The first record the runner holds after `onlyActRun`. -/
def onlyActRecord : Statistics :=
  ((onlyActRun.2.runnerInstance.map runner.Statistics).getD []).headD (Statistics.named "" false)

/-- The timing of After after `onlyActRun`. -/
def onlyActAfter : Timing :=
  (onlyActRun.2.td.timings Lifecycle.After).getD ⟨Lifecycle.After, 0, 0, 0, false, false⟩

/-! ## httputils/multipart_form.go -/

/-- What reflection tells `structFieldsMap` about one field of the struct: its name, the
values of its `json`, `multipart` and `optional` tags (`none` for a tag that is not set),
the result of `isZero` (`none` when it panics, for an array or a struct), the text
`fmt.Sprint` gives for the value, whether the type implements `MultipartFieldWriter`, the
result of `IsNil` (`none` when it panics, for a kind without a nil value), and what the
`WriteField` method of the value writes (`none` when it returns an error). -/
structure StructField where
  Name : String
  jsonTag : Option String
  multipartTag : Option String
  optionalTag : Option String
  isZero : Option Bool
  Sprint : String
  implementsWriter : Bool
  IsNil : Option Bool
  WriteField : Option (List (String × String))

/-- The struct `FieldProperties`; `Ref` is `none` for `nil` and otherwise holds what the
`WriteField` method of the referenced value writes. -/
structure FieldProperties where
  MultipartType : String
  Value : String
  Optional : Bool
  IsZero : Bool
  Ref : Option (Option (List (String × String)))

/-- The key of a field in the map: the `json` tag if it is set, the field name if not. -/
def itemKey (field : StructField) : String :=
  match field.jsonTag with
  | some jsonKey => jsonKey
  | none => field.Name

/-- The body of the loop of `structFieldsMap` up to the map assignment: the properties of
one field; `none` when `isZero` or `IsNil` panics. -/
def fieldProperties (field : StructField) : Option FieldProperties :=
  let multipartType := field.multipartTag.getD ""
  let optional := decide (field.optionalTag.getD "" = "true")
  match (if multipartType = "field" then field.isZero.map fun z => (z, field.Sprint)
      else some (false, "")) with
  | none => none
  | some (zero, value) =>
    match (if field.implementsWriter then
        field.IsNil.map fun isNil => if isNil then none else some field.WriteField
      else some none) with
    | none => none
    | some ref =>
      some { MultipartType := multipartType, Value := value, Optional := optional,
             IsZero := zero, Ref := ref }

/-- The assignment `fmap[itemKey] = fp` on a Go map, kept as a list of entries with
distinct keys. -/
def fmapSet (fmap : List (String × FieldProperties)) (key : String) (fp : FieldProperties) :
    List (String × FieldProperties) :=
  if fmap.any (fun kv => kv.1 == key) then
    fmap.map fun kv => if kv.1 == key then (key, fp) else kv
  else fmap ++ [(key, fp)]

/-- The loop of `structFieldsMap` over the fields that are left. -/
def structFieldsLoop :
    List StructField → List (String × FieldProperties) → Option (List (String × FieldProperties))
  | [], fmap => some fmap
  | field :: rest, fmap =>
    match fieldProperties field with
    | none => none
    | some fp => structFieldsLoop rest (fmapSet fmap (itemKey field) fp)

/-- Helper method to convert type struct data into FieldProperties type; `none` when it
panics. -/
def structFieldsMap (it : List StructField) : Option (List (String × FieldProperties)) :=
  structFieldsLoop it []

/-- The loop of `CreateMultipartBody` over the map entries that are left, in the order in
which `range` visits them, with the form entries written so far; `none` when a custom
`WriteField` returns an error. -/
def writeFields :
    List (String × FieldProperties) → List (String × String) → Option (List (String × String))
  | [], written => some written
  | (key, val) :: rest, written =>
    if val.MultipartType = "field" then
      if !val.Optional || !val.IsZero then writeFields rest (written ++ [(key, val.Value)])
      else writeFields rest written
    else if val.MultipartType = "custom" then
      match val.Ref with
      | some (some entries) => writeFields rest (written ++ entries)
      | some none => none
      | none => writeFields rest written
    else writeFields rest written

/-- How a call of `CreateMultipartBody` ends: with a panic, with an error, or with a body
that holds the given form entries. -/
inductive MultipartResult
  | panicked
  | failed
  | body (entries : List (String × String))

/-- Converts a type struct into a multipart form for use in HTTP requests.  `iterate` is
the order in which `range` visits the entries of the map. -/
def CreateMultipartBody
    (iterate : List (String × FieldProperties) → List (String × FieldProperties))
    (it : List StructField) : MultipartResult :=
  match structFieldsMap it with
  | none => MultipartResult.panicked
  | some fields =>
    match writeFields (iterate fields) [] with
    | none => MultipartResult.failed
    | some entries => MultipartResult.body entries

/-- The form entries the claim expects for one field. -/
def expectedEntries (field : StructField) : List (String × String) :=
  if field.multipartTag = some "field" then
    if field.optionalTag = some "true" ∧ field.isZero = some true then []
    else [(itemKey field, field.Sprint)]
  else if field.multipartTag = some "custom" then
    if field.implementsWriter = true ∧ field.IsNil = some false then field.WriteField.getD []
    else []
  else []

/-- A field of type `*DemoStruct` tagged `multipart:"custom"`, with the given name, `json`
tag and value (`none` for `nil`, otherwise the key and the value that `WriteField`
writes). -/
def demoStructField (name : String) (jsonTag : Option String)
    (value : Option (String × String)) : StructField :=
  { Name := name, jsonTag := jsonTag, multipartTag := some "custom", optionalTag := none,
    isZero := some value.isNone, Sprint := "", implementsWriter := true,
    IsNil := some value.isNone, WriteField := some value.toList }

/-- A field of type `string` tagged `multipart:"field"`. -/
def stringField (name : String) (jsonTag optionalTag : Option String) (value : String) :
    StructField :=
  { Name := name, jsonTag := jsonTag, multipartTag := some "field", optionalTag := optionalTag,
    isZero := some (decide (value = "")), Sprint := value, implementsWriter := false,
    IsNil := none, WriteField := none }

/-- The form entries that one iteration of the loop of `CreateMultipartBody` writes for a
map entry; `none` when the custom `WriteField` returns an error. -/
def writeEntry (kv : String × FieldProperties) : Option (List (String × String)) :=
  if kv.2.MultipartType = "field" then
    if !kv.2.Optional || !kv.2.IsZero then some [(kv.1, kv.2.Value)] else some []
  else if kv.2.MultipartType = "custom" then
    match kv.2.Ref with
    | some (some entries) => some entries
    | some none => none
    | none => some []
  else some []

/-- The struct can be converted: `isZero` and `IsNil` do not panic where they are called,
and no custom `WriteField` that is called returns an error. -/
def Convertible (it : List StructField) : Prop :=
  ∀ field ∈ it, (∃ fp, fieldProperties field = some fp) ∧
    (field.multipartTag = some "custom" → field.implementsWriter = true →
      field.IsNil = some false → field.WriteField ≠ none)

/-! # Theorems -/

/-! ## Basic facts about steps -/

@[simp] theorem Step.ret_apply {σ : Type} (f : World σ → World σ) (w : World σ) :
    Step.ret f w = (Exit.returned, f w) := rfl

@[simp] theorem Step.seq_nil {σ : Type} (w : World σ) :
    Step.seq ([] : List (Step σ)) w = (Exit.returned, w) := rfl

@[simp] theorem Step.seq_cons {σ : Type} (f : Step σ) (fs : List (Step σ)) (w : World σ) :
    Step.seq (f :: fs) w = Step.andThen f (Step.seq fs) w := rfl

theorem Step.andThen_returned {σ : Type} {f : Step σ} {w : World σ} (g : Step σ)
    (hf : (f w).1 = Exit.returned) : Step.andThen f g w = g (f w).2 := by
  simp [Step.andThen, hf]

theorem Step.andThen_goexit {σ : Type} {f : Step σ} {w : World σ} (g : Step σ)
    (hf : (f w).1 = Exit.goexit) : Step.andThen f g w = (Exit.goexit, (f w).2) := by
  simp [Step.andThen, hf]

@[simp] theorem Step.andThen_ret {σ : Type} (f : World σ → World σ) (g : Step σ)
    (w : World σ) : Step.andThen (Step.ret f) g w = g (f w) := rfl

@[simp] theorem onTD_andThen {σ : Type} (f : TD σ → TD σ) (g : Step σ) (w : World σ) :
    Step.andThen (onTD f) g w = g { w with td := f w.td } := rfl

@[simp] theorem logEvent_andThen {σ : Type} (e : Event) (g : Step σ) (w : World σ) :
    Step.andThen (logEvent e) g w = g { w with trace := w.trace ++ [e] } := rfl

/-! ## The two hosts satisfy the host laws -/

theorem goTestingT_returns : goTestingT.Returns := by
  intro m s hm
  cases m <;> simp_all [goTestingT, Method.aborts, Method.isFatalClass, Method.isSkipClass]

theorem goTestingT_fatalAborts : goTestingT.FatalAborts := by
  intro m s hm
  cases m <;> simp_all [goTestingT, Method.isFatalClass]

theorem goTestingT_skipAborts : goTestingT.SkipAborts := by
  intro m s hm
  cases m <;> simp_all [goTestingT, Method.isSkipClass]

theorem goTestingT_skippedStable : goTestingT.SkippedStable := by
  intro m s hm
  cases m <;> simp_all [goTestingT, Method.isSkipClass]

theorem mockT_returns : mockT.Returns := fun _ _ _ => rfl

theorem mockT_skippedStable : mockT.SkippedStable := fun _ _ _ => rfl

/-! ## Callbacks only extend the context -/

theorem Grows.refl {σ : Type} (P : Event → Prop) (w : World σ) : Grows P w w where
  lifecycle := rfl
  timings := rfl
  actualName := rfl
  clockReads := rfl
  runnerInstance := rfl
  statuses := ⟨[], by simp⟩
  deferStack := ⟨[], by simp⟩
  trace := ⟨[], by simp⟩

theorem Grows.trans {σ : Type} {P : Event → Prop} {w1 w2 w3 : World σ}
    (h12 : Grows P w1 w2) (h23 : Grows P w2 w3) : Grows P w1 w3 where
  lifecycle := h23.lifecycle.trans h12.lifecycle
  timings := h23.timings.trans h12.timings
  actualName := h23.actualName.trans h12.actualName
  clockReads := h23.clockReads.trans h12.clockReads
  runnerInstance := h23.runnerInstance.trans h12.runnerInstance
  statuses := by
    obtain ⟨e1, h1, p1, f1⟩ := h12.statuses
    obtain ⟨e2, h2, p2, f2⟩ := h23.statuses
    refine ⟨e1 ++ e2, by rw [h2, h1, List.append_assoc], ?_, ?_⟩
    · intro s hs
      rcases List.mem_append.1 hs with hs | hs
      · exact p1 s hs
      · rw [← h12.lifecycle]; exact p2 s hs
    · rw [f2, f1, List.any_append, Bool.or_assoc]
  deferStack := by
    obtain ⟨e1, h1⟩ := h12.deferStack
    obtain ⟨e2, h2⟩ := h23.deferStack
    exact ⟨e1 ++ e2, by rw [h2, h1, List.append_assoc]⟩
  trace := by
    obtain ⟨e1, h1, p1⟩ := h12.trace
    obtain ⟨e2, h2, p2⟩ := h23.trace
    refine ⟨e1 ++ e2, by rw [h2, h1, List.append_assoc], ?_⟩
    intro e he
    rcases List.mem_append.1 he with he | he
    · exact p1 e he
    · exact p2 e he

theorem Grows.mono {σ : Type} {P Q : Event → Prop} {w1 w2 : World σ}
    (hPQ : ∀ e, P e → Q e) (h : Grows P w1 w2) : Grows Q w1 w2 where
  lifecycle := h.lifecycle
  timings := h.timings
  actualName := h.actualName
  clockReads := h.clockReads
  runnerInstance := h.runnerInstance
  statuses := h.statuses
  deferStack := h.deferStack
  trace := by
    obtain ⟨e1, h1, p1⟩ := h.trace
    exact ⟨e1, h1, fun e he => hPQ e (p1 e he)⟩

/-- A host call only extends the log with a host event. -/
theorem callT_grows {σ : Type} (h : TestingT σ) (m : Method) (P : Event → Prop)
    (hP : P (Event.host m)) (w : World σ) : Grows P w (callT h m w).2 where
  lifecycle := rfl
  timings := rfl
  actualName := rfl
  clockReads := rfl
  runnerInstance := rfl
  statuses := ⟨[], by simp [callT]⟩
  deferStack := ⟨[], by simp [callT]⟩
  trace := ⟨[Event.host m], by simp [callT], by simpa using hP⟩

/-- Recording a status that is not a `Pass`, with the fatal flag raised when the status
is fatal. -/
theorem record_grows {σ : Type} (P : Event → Prop) (w : World σ) (v : StatusValue)
    (fatal : Bool) (hv : v ≠ StatusValue.Pass) :
    Grows P w { w with td := { w.td with
      statuses := w.td.statuses ++ [⟨v, w.td.currentLifecycle, fatal⟩]
      fatal := w.td.fatal || fatal } } where
  lifecycle := rfl
  timings := rfl
  actualName := rfl
  clockReads := rfl
  runnerInstance := rfl
  statuses := ⟨[⟨v, w.td.currentLifecycle, fatal⟩], rfl, by simpa using hv, by simp⟩
  deferStack := ⟨[], by simp⟩
  trace := ⟨[], by simp, by simp⟩

theorem Step.Adds.andThen {σ : Type} {P : Lifecycle → Event → Prop} {f g : Step σ}
    (hf : Step.Adds P f) (hg : Step.Adds P g) : Step.Adds P (Step.andThen f g) := by
  intro w
  unfold Step.andThen
  split
  · have h2 := hg (f w).2
    rw [(hf w).lifecycle] at h2
    exact (hf w).trans h2
  · exact hf w

theorem Step.Adds.nil {σ : Type} {P : Lifecycle → Event → Prop} :
    Step.Adds P (Step.seq ([] : List (Step σ))) :=
  fun w => Grows.refl _ w

theorem Step.Adds.callT {σ : Type} {P : Lifecycle → Event → Prop}
    (hP : ∀ cur m, P cur (Event.host m)) (h : TestingT σ) (m : Method) :
    Step.Adds P (callT h m) :=
  fun w => callT_grows h m (P w.td.currentLifecycle) (hP _ _) w

theorem Step.Adds.setFailed {σ : Type} {P : Lifecycle → Event → Prop} {g : Step σ}
    (hg : Step.Adds P g) : Step.Adds P (Step.andThen (onTD fun c => c.setFailed false) g) := by
  intro w
  have h1 : Grows (P w.td.currentLifecycle) w
      { w with td := w.td.setFailed false } := by
    have := record_grows (P w.td.currentLifecycle) w
      StatusValue.Fail false (by decide)
    simpa [TD.setFailed] using this
  exact h1.trans (hg { w with td := w.td.setFailed false })

theorem Step.Adds.setSkipped {σ : Type} {P : Lifecycle → Event → Prop} {g : Step σ}
    (hg : Step.Adds P g) : Step.Adds P (Step.andThen (onTD fun c => c.setSkipped) g) := by
  intro w
  have h1 : Grows (P w.td.currentLifecycle) w
      { w with td := w.td.setSkipped } := by
    have := record_grows (P w.td.currentLifecycle) w
      StatusValue.Skip false (by decide)
    simpa [TD.setSkipped] using this
  exact h1.trans (hg { w with td := w.td.setSkipped })

theorem Step.Adds.setFatal {σ : Type} {P : Lifecycle → Event → Prop} {g : Step σ}
    (hg : Step.Adds P g) :
    Step.Adds P (Step.andThen (onTD fun c => c.setFailed true)
      (Step.andThen (onTD fun c => { c with fatal := true }) g)) := by
  intro w
  have h1 : Grows (P w.td.currentLifecycle) w
      { w with td := { w.td.setFailed true with fatal := true } } := by
    have := record_grows (P w.td.currentLifecycle) w
      StatusValue.Fail true (by decide)
    simpa [TD.setFailed] using this
  exact h1.trans (hg { w with td := { w.td.setFailed true with fatal := true } })

/-- Every method of `TD` only extends the context, and logs host calls only. -/
theorem TD.invoke_adds {σ : Type} {P : Lifecycle → Event → Prop}
    (hP : ∀ cur m, P cur (Event.host m)) (h : TestingT σ) (m : Method) :
    Step.Adds P (TD.invoke h m) := by
  cases m
  case Error args =>
    exact (Step.Adds.callT hP h _).andThen (Step.Adds.setFailed
      ((Step.Adds.callT hP h _).andThen Step.Adds.nil))
  case Errorf format args =>
    exact (Step.Adds.callT hP h _).andThen (Step.Adds.setFailed
      ((Step.Adds.callT hP h _).andThen Step.Adds.nil))
  case Fail => exact Step.Adds.setFailed ((Step.Adds.callT hP h _).andThen Step.Adds.nil)
  case FailNow => exact Step.Adds.setFatal ((Step.Adds.callT hP h _).andThen Step.Adds.nil)
  case Failed => exact Step.Adds.callT hP h _
  case Fatal args =>
    exact (Step.Adds.callT hP h _).andThen (Step.Adds.setFatal
      ((Step.Adds.callT hP h _).andThen Step.Adds.nil))
  case Fatalf format args =>
    exact (Step.Adds.callT hP h _).andThen (Step.Adds.setFatal
      ((Step.Adds.callT hP h _).andThen Step.Adds.nil))
  case Log args => exact Step.Adds.callT hP h _
  case Logf format args => exact Step.Adds.callT hP h _
  case Name =>
    intro w
    show Grows _ w (TD.Name h w).2
    unfold TD.Name
    split
    · exact Grows.refl _ w
    · exact Step.Adds.callT hP h _ w
  case Skip args => exact Step.Adds.setSkipped ((Step.Adds.callT hP h _).andThen Step.Adds.nil)
  case SkipNow => exact Step.Adds.setSkipped ((Step.Adds.callT hP h _).andThen Step.Adds.nil)
  case Skipf format args =>
    exact Step.Adds.setSkipped ((Step.Adds.callT hP h _).andThen Step.Adds.nil)
  case Skipped => exact Step.Adds.callT hP h _
  case Helper => exact Step.Adds.callT hP h _
  case Parallel => exact Step.Adds.callT hP h _

theorem TD.invoke_local {σ : Type} (h : TestingT σ) (m : Method) :
    Step.Local (TD.invoke h m) :=
  TD.invoke_adds (P := fun cur e => e.isLocal cur = true) (fun _ _ => rfl) h m

theorem Step.Local.compose {σ : Type} {f g : Step σ} (hf : Step.Local f)
    (hg : Step.Local g) : Step.Local (Step.andThen f g) :=
  Step.Adds.andThen hf hg

/-- Every statement of a callback only extends the context. -/
theorem Stmt.exec_local {σ : Type} (h : TestingT σ) (s : Stmt) :
    Step.Local (Stmt.exec h s) := by
  cases s
  case call m =>
    intro w
    have h1 : Grows (fun e => e.isLocal w.td.currentLifecycle = true) w
        { w with trace := w.trace ++ [Event.call w.td.currentLifecycle m] } :=
      { lifecycle := rfl, timings := rfl, actualName := rfl, clockReads := rfl,
        runnerInstance := rfl, statuses := ⟨[], by simp⟩, deferStack := ⟨[], by simp⟩,
        trace := ⟨[_], rfl, by simp [Event.isLocal]⟩ }
    exact h1.trans
      (TD.invoke_local h m { w with trace := w.trace ++ [Event.call w.td.currentLifecycle m] })
  case Defer fn =>
    intro w
    exact
      { lifecycle := rfl, timings := rfl, actualName := rfl, clockReads := rfl,
        runnerInstance := rfl, statuses := ⟨[], by simp [Stmt.exec, DefaultDeferrer.Defer]⟩,
        deferStack := ⟨[fn], rfl⟩, trace := ⟨[], by simp [Stmt.exec, DefaultDeferrer.Defer], by simp⟩ }
  case other n =>
    intro w
    exact
      { lifecycle := rfl, timings := rfl, actualName := rfl, clockReads := rfl,
        runnerInstance := rfl, statuses := ⟨[], by simp [Stmt.exec, logEvent]⟩,
        deferStack := ⟨[], by simp [Stmt.exec, logEvent]⟩,
        trace := ⟨[Event.other n], rfl, by simp [Event.isLocal]⟩ }

/-- A callback only extends the context, whatever its statements and however it ends. -/
theorem run_local {σ : Type} (h : TestingT σ) (body : Callback) : Step.Local (run h body) := by
  induction body with
  | nil => exact fun w => Grows.refl _ w
  | cons s rest ih => exact (Stmt.exec_local h s).compose ih

/-! ## The effect of one statement on a host whose other methods return -/

@[simp] theorem Step.andThen_nil {σ : Type} (f : Step σ) :
    Step.andThen f (Step.seq []) = f := by
  funext w
  unfold Step.andThen
  split
  · next hr => exact Prod.ext hr.symm rfl
  · next hr => exact Prod.ext hr.symm rfl

@[simp] theorem Step.seq_singleton {σ : Type} (f : Step σ) : Step.seq [f] = f :=
  Step.andThen_nil f

theorem callT_returned {σ : Type} {h : TestingT σ} (hR : h.Returns) {m : Method}
    (hm : m.aborts = false) (w : World σ) : (callT h m w).1 = Exit.returned := by
  simp [callT, hR m w.td.T hm]

theorem callT_goexit {σ : Type} {h : TestingT σ} {m : Method} {w : World σ}
    (hm : (h.call m w.td.T).2 = true) : (callT h m w).1 = Exit.goexit := by
  simp [callT, hm]

@[simp] theorem callT_statuses {σ : Type} (h : TestingT σ) (m : Method) (w : World σ) :
    (callT h m w).2.td.statuses = w.td.statuses := rfl

@[simp] theorem callT_fatal {σ : Type} (h : TestingT σ) (m : Method) (w : World σ) :
    (callT h m w).2.td.fatal = w.td.fatal := rfl

@[simp] theorem callT_deferStack {σ : Type} (h : TestingT σ) (m : Method) (w : World σ) :
    (callT h m w).2.deferStack = w.deferStack := rfl

@[simp] theorem callT_lifecycle {σ : Type} (h : TestingT σ) (m : Method) (w : World σ) :
    (callT h m w).2.td.currentLifecycle = w.td.currentLifecycle := rfl

@[simp] theorem callT_host {σ : Type} (h : TestingT σ) (m : Method) (w : World σ) :
    (callT h m w).2.td.T = (h.call m w.td.T).1 := rfl

/-- On a host whose other methods return, a statement records exactly its report,
registers exactly its deferred callback and raises the fatal flag exactly when it is a
Fatal-class call, whether or not it returns. -/
theorem Stmt.exec_effect {σ : Type} {h : TestingT σ} (hR : h.Returns) (s : Stmt)
    (w : World σ) :
    (Stmt.exec h s w).2.td.statuses = w.td.statuses ++ s.report w.td.currentLifecycle ∧
    (Stmt.exec h s w).2.deferStack = w.deferStack ++ s.defers ∧
    (Stmt.exec h s w).2.td.fatal = (w.td.fatal || s.isFatal) := by
  have hH : ∀ w : World σ, (callT h Method.Helper w).1 = Exit.returned :=
    fun w => callT_returned hR (m := Method.Helper) rfl w
  cases s
  case Defer fn => simp [Stmt.exec, DefaultDeferrer.Defer, Stmt.report, Stmt.defers, Stmt.isFatal]
  case other n => simp [Stmt.exec, logEvent, Stmt.report, Stmt.defers, Stmt.isFatal]
  case call m =>
    cases m <;>
      simp [Stmt.exec, TD.invoke, TD.Error, TD.Errorf, TD.Fail, TD.FailNow, TD.Failed, TD.Fatal,
        TD.Fatalf, TD.Log, TD.Logf, TD.Skip, TD.SkipNow, TD.Skipf, TD.Skipped, TD.Helper,
        TD.Parallel, Step.andThen_returned _ (hH _), Stmt.report, Stmt.defers, Stmt.isFatal,
        Method.report, Method.isErrorClass, Method.isFatalClass, Method.isSkipClass,
        TD.setFailed, TD.setSkipped]
    case Name =>
      unfold TD.Name
      split <;> simp

/-- A statement that is no Fatal- or Skip-class call returns. -/
theorem Stmt.exec_returned {σ : Type} {h : TestingT σ} (hR : h.Returns) (s : Stmt)
    (hs : s.aborts = false) (w : World σ) : (Stmt.exec h s w).1 = Exit.returned := by
  have hC : ∀ (m : Method) (w : World σ), m.aborts = false →
      (callT h m w).1 = Exit.returned := fun m w hm => callT_returned hR hm w
  cases s
  case Defer fn => rfl
  case other n => rfl
  case call m =>
    cases m <;>
      simp_all [Stmt.exec, TD.invoke, TD.Error, TD.Errorf, TD.Fail, TD.Failed, TD.Log,
        TD.Logf, TD.Skipped, TD.Helper, TD.Parallel, Step.andThen_returned, Stmt.aborts,
        Method.aborts, Method.isFatalClass, Method.isSkipClass]
    case Name =>
      unfold TD.Name
      split
      · rfl
      · exact callT_returned hR (m := Method.Name) rfl _

/-- A Fatal-class call does not return on a host whose Fatal-class methods abort. -/
theorem Stmt.exec_fatal_goexit {σ : Type} {h : TestingT σ} (hR : h.Returns)
    (hF : h.FatalAborts) (s : Stmt) (hs : s.isFatal = true) (w : World σ) :
    (Stmt.exec h s w).1 = Exit.goexit := by
  have hH : ∀ w : World σ, (callT h Method.Helper w).1 = Exit.returned :=
    fun w => callT_returned hR (m := Method.Helper) rfl w
  have hG : ∀ (m : Method) (w : World σ), m.isFatalClass = true →
      (callT h m w).1 = Exit.goexit := fun m w hm => callT_goexit (hF m _ hm)
  cases s
  case Defer fn => simp [Stmt.isFatal] at hs
  case other n => simp [Stmt.isFatal] at hs
  case call m =>
    cases m <;> simp [Stmt.isFatal, Method.isFatalClass] at hs <;>
      simp [Stmt.exec, TD.invoke, TD.Fatal, TD.Fatalf, TD.FailNow,
        Step.andThen_returned _ (hH _), hG, Method.isFatalClass]

/-- A Skip-class call does not return on a host whose Skip-class methods abort, and
`Skipped()` is true afterwards. -/
theorem Stmt.exec_skip_goexit {σ : Type} {h : TestingT σ} (hS : h.SkipAborts) (s : Stmt)
    (hs : s.isSkip = true) (w : World σ) :
    (Stmt.exec h s w).1 = Exit.goexit ∧ h.Skipped (Stmt.exec h s w).2.td.T = true := by
  have hG : ∀ (m : Method) (w : World σ), m.isSkipClass = true →
      (callT h m w).1 = Exit.goexit := fun m w hm => callT_goexit (hS m _ hm).1
  cases s
  case Defer fn => simp [Stmt.isSkip] at hs
  case other n => simp [Stmt.isSkip] at hs
  case call m =>
    cases m <;> simp [Stmt.isSkip, Method.isSkipClass] at hs <;>
      simp [Stmt.exec, TD.invoke, TD.Skip, TD.Skipf, TD.SkipNow, hG, Method.isSkipClass,
        (hS _ _ _).2]

/-- A statement that is no Skip-class call leaves the value of `Skipped()` unchanged. -/
theorem Stmt.exec_skipped {σ : Type} {h : TestingT σ} (hR : h.Returns)
    (hK : h.SkippedStable) (s : Stmt) (hs : s.isSkip = false) (w : World σ) :
    h.Skipped (Stmt.exec h s w).2.td.T = h.Skipped w.td.T := by
  have hK : ∀ (m : Method) (t : σ), m.isSkipClass = false →
      h.Skipped (h.call m t).1 = h.Skipped t := hK
  have hH : ∀ w : World σ, (callT h Method.Helper w).1 = Exit.returned :=
    fun w => callT_returned hR (m := Method.Helper) rfl w
  cases s
  case Defer fn => rfl
  case other n => rfl
  case call m =>
    cases m <;> simp [Stmt.isSkip, Method.isSkipClass] at hs <;>
      simp [Stmt.exec, TD.invoke, TD.Error, TD.Errorf, TD.Fail, TD.FailNow, TD.Failed,
        TD.Fatal, TD.Fatalf, TD.Log, TD.Logf, TD.Skipped, TD.Helper, TD.Parallel,
        Step.andThen_returned _ (hH _), hK, Method.isSkipClass, TD.setFailed]
    case Name =>
      unfold TD.Name
      split
      · rfl
      · simp [hK, Method.isSkipClass]

/-! ## The effect of a callback -/

theorem Step.andThen_assoc {σ : Type} (f g k : Step σ) :
    Step.andThen (Step.andThen f g) k = Step.andThen f (Step.andThen g k) := by
  funext w
  cases hf : (f w).1 <;> simp [Step.andThen, hf]

theorem run_nil {σ : Type} (h : TestingT σ) (w : World σ) :
    run h [] w = (Exit.returned, w) := rfl

theorem run_cons {σ : Type} (h : TestingT σ) (s : Stmt) (rest : Callback) :
    run h (s :: rest) = Step.andThen (Stmt.exec h s) (run h rest) := rfl

theorem run_append {σ : Type} (h : TestingT σ) (a b : Callback) :
    run h (a ++ b) = Step.andThen (run h a) (run h b) := by
  induction a with
  | nil =>
    funext w
    simp [run_nil, Step.andThen]
  | cons s rest ih => rw [List.cons_append, run_cons, run_cons, ih, Step.andThen_assoc]

theorem Stmt.aborts_eq (s : Stmt) : s.aborts = (s.isFatal || s.isSkip) := by
  cases s <;> simp [Stmt.aborts, Stmt.isFatal, Stmt.isSkip, Method.aborts]

theorem Stmt.aborts_of_reports {s : Stmt} (hs : s.reports = false) : s.aborts = false := by
  cases s <;> simp_all [Stmt.aborts, Stmt.reports, Method.aborts, Method.reports]

theorem Stmt.report_of_reports {s : Stmt} (hs : s.reports = false) (cur : Lifecycle) :
    s.report cur = [] := by
  cases s <;> simp_all [Stmt.report, Stmt.reports, Method.report, Method.reports]

theorem noAbort_of_quiet {body : Callback} (hq : quiet body) : noAbort body :=
  fun s hs => Stmt.aborts_of_reports (hq s hs)

theorem reportsOf_quiet {body : Callback} (hq : quiet body) (cur : Lifecycle) :
    reportsOf cur body = [] := by
  induction body with
  | nil => rfl
  | cons s rest ih =>
    simp only [reportsOf]
    rw [Stmt.report_of_reports (hq s (List.mem_cons_self _ _)),
      ih (fun x hx => hq x (List.mem_cons_of_mem _ hx))]
    rfl

theorem reportsOf_append (cur : Lifecycle) (a b : Callback) :
    reportsOf cur (a ++ b) = reportsOf cur a ++ reportsOf cur b := by
  induction a with
  | nil => rfl
  | cons s rest ih => simp [reportsOf, ih]

theorem defersOf_append (a b : Callback) : defersOf (a ++ b) = defersOf a ++ defersOf b := by
  induction a with
  | nil => rfl
  | cons s rest ih => simp [defersOf, ih]

/-- A callback without Fatal- and Skip-class calls returns, having recorded the reports
of all its statements and registered all its deferred callbacks; the fatal flag and the
value of `Skipped()` are unchanged. -/
theorem run_noAbort {σ : Type} {h : TestingT σ} (hR : h.Returns) (body : Callback)
    (hb : noAbort body) (w : World σ) :
    (run h body w).1 = Exit.returned ∧
    (run h body w).2.td.statuses = w.td.statuses ++ reportsOf w.td.currentLifecycle body ∧
    (run h body w).2.deferStack = w.deferStack ++ defersOf body ∧
    (run h body w).2.td.fatal = w.td.fatal ∧
    (h.SkippedStable → h.Skipped (run h body w).2.td.T = h.Skipped w.td.T) := by
  induction body generalizing w with
  | nil => simp [run_nil, reportsOf, defersOf]
  | cons s rest ih =>
    have hs : s.aborts = false := hb s (List.mem_cons_self _ _)
    have hs2 := hs
    rw [Stmt.aborts_eq, Bool.or_eq_false_iff] at hs2
    have hret := Stmt.exec_returned hR s hs w
    obtain ⟨e1, e2, e3⟩ := Stmt.exec_effect hR s w
    obtain ⟨i1, i2, i3, i4, i5⟩ := ih (fun x hx => hb x (List.mem_cons_of_mem _ hx))
      (Stmt.exec h s w).2
    have hl := (Stmt.exec_local h s w).lifecycle
    rw [run_cons, Step.andThen_returned _ hret]
    refine ⟨i1, ?_, ?_, ?_, ?_⟩
    · rw [i2, e1, hl, List.append_assoc]; rfl
    · rw [i3, e2, List.append_assoc]; rfl
    · rw [i4, e3, hs2.1, Bool.or_false]
    · intro hK
      rw [i5 hK, Stmt.exec_skipped hR hK s hs2.2 w]

/-- A callback whose first aborting statement is `s`: nothing after `s` is executed. -/
theorem run_abort_at {σ : Type} {h : TestingT σ} (hR : h.Returns) (pre post : Callback)
    (s : Stmt) (hpre : noAbort pre) (w : World σ)
    (hs : (Stmt.exec h s (run h pre w).2).1 = Exit.goexit) :
    run h (pre ++ s :: post) w = (Exit.goexit, (Stmt.exec h s (run h pre w).2).2) := by
  rw [run_append, Step.andThen_returned _ (run_noAbort hR pre hpre w).1, run_cons,
    Step.andThen_goexit _ hs]

/-! ## The deferred-call stack -/

theorem deferAll_eq {σ : Type} (fs : List Callback) (w : World σ) :
    deferAll fs w = (Exit.returned, { w with deferStack := w.deferStack ++ fs }) := by
  induction fs generalizing w with
  | nil => simp [deferAll]
  | cons f rest ih =>
    have := ih { w with deferStack := w.deferStack ++ [f] }
    simp only [deferAll, List.map_cons, Step.seq_cons] at this ⊢
    simp only [DefaultDeferrer.Defer, Step.andThen_ret]
    simpa using this

/-- Calling a deferred callback only extends the context. -/
theorem callDeferred_grows {σ : Type} (h : TestingT σ) (i : Nat) (fn : Callback)
    (w : World σ) :
    Grows (fun e => e.isLocal w.td.currentLifecycle = true ∨ ∃ j, e = Event.deferred j) w
      (callDeferred h i fn w).2 := by
  have h1 : Grows (fun e => e.isLocal w.td.currentLifecycle = true ∨ ∃ j, e = Event.deferred j)
      w { w with trace := w.trace ++ [Event.deferred i] } :=
    { lifecycle := rfl, timings := rfl, actualName := rfl, clockReads := rfl,
      runnerInstance := rfl, statuses := ⟨[], by simp⟩, deferStack := ⟨[], by simp⟩,
      trace := ⟨[_], rfl, by simp⟩ }
  have h2 := (run_local h fn { w with trace := w.trace ++ [Event.deferred i] }).mono
    (Q := fun e => e.isLocal w.td.currentLifecycle = true ∨ ∃ j, e = Event.deferred j)
    (fun e he => Or.inl he)
  simpa [callDeferred] using h1.trans h2

theorem callDeferred_eq {σ : Type} (h : TestingT σ) (i : Nat) (fn : Callback) (g : Step σ) :
    Step.andThen (logEvent (Event.deferred i)) (Step.seq [run h fn, g]) =
      Step.andThen (callDeferred h i fn) g := by
  have h1 : Step.seq [run h fn, g] = Step.andThen (run h fn) g := by
    show Step.andThen (run h fn) (Step.andThen g (Step.seq [])) = _
    rw [Step.andThen_nil]
  have h2 : callDeferred h i fn = Step.andThen (logEvent (Event.deferred i)) (run h fn) := by
    show Step.andThen (logEvent (Event.deferred i)) (Step.andThen (run h fn) (Step.seq [])) = _
    rw [Step.andThen_nil]
  rw [h1, h2, Step.andThen_assoc]

/-- The loop of `RunDeferred` over the first `k` entries of a stack `S` calls them from
index `k - 1` down to `0`, also when the callbacks push further entries. -/
theorem RunDeferredLoop_eq {σ : Type} (h : TestingT σ) (S : List Callback) (k : Nat)
    (hk : k ≤ S.length) (w : World σ) (hw : ∃ ext, w.deferStack = S ++ ext) :
    DefaultDeferrer.RunDeferredLoop h k w = invokeInReverse h (S.take k) w := by
  induction k generalizing w with
  | zero => simp [DefaultDeferrer.RunDeferredLoop, invokeInReverse]
  | succ k ih =>
    obtain ⟨ext, hext⟩ := hw
    have hlt : k < S.length := hk
    have hget : w.deferStack.get? k = some S[k] := by
      rw [hext, List.get?_eq_getElem?, List.getElem?_append_left hlt, List.getElem?_eq_getElem hlt]
    have htake : (S.take (k + 1)).enum.reverse = (k, S[k]) :: (S.take k).enum.reverse := by
      rw [List.take_succ, List.getElem?_eq_getElem hlt, List.enum_append]
      simp [List.length_take, Nat.min_eq_left (Nat.le_of_lt hlt), List.enumFrom_singleton]
    simp only [DefaultDeferrer.RunDeferredLoop, hget, invokeInReverse, htake, List.map_cons,
      Step.seq_cons]
    show Step.andThen (logEvent (Event.deferred k))
      (Step.seq [run h S[k], DefaultDeferrer.RunDeferredLoop h k]) w = _
    rw [callDeferred_eq]
    cases hx : (callDeferred h k S[k] w).1
    · rw [Step.andThen_returned _ hx, Step.andThen_returned _ hx]
      obtain ⟨e2, he2⟩ := (callDeferred_grows h k S[k] w).deferStack
      exact ih (Nat.le_of_lt hlt) _ ⟨ext ++ e2, by rw [he2, hext, List.append_assoc]⟩
    · rw [Step.andThen_goexit _ hx, Step.andThen_goexit _ hx]

/-- The method `RunDeferred` calls the registered callbacks in strict reverse order of
registration. -/
theorem RunDeferred_eq {σ : Type} (h : TestingT σ) (w : World σ) :
    DefaultDeferrer.RunDeferred h w = invokeInReverse h w.deferStack w := by
  have := RunDeferredLoop_eq h w.deferStack w.deferStack.length (Nat.le_refl _) w ⟨[], by simp⟩
  simpa [DefaultDeferrer.RunDeferred] using this

theorem Event.not_invocation_of_local {cur : Lifecycle} {e : Event}
    (he : e.isLocal cur = true) : e.isInvocation = false := by
  cases e <;> simp_all [Event.isLocal, Event.isInvocation]

theorem invocations_append (a b : List Event) :
    invocations (a ++ b) = invocations a ++ invocations b := by
  simp [invocations]

theorem invocations_local {cur : Lifecycle} {ext : List Event}
    (h : ∀ e ∈ ext, e.isLocal cur = true) : invocations ext = [] := by
  simp only [invocations, List.filter_eq_nil_iff]
  intro e he
  simp [Event.not_invocation_of_local (h e he)]

/-- The log of a callback that is run holds no invocation of another callback. -/
theorem run_invocations {σ : Type} (h : TestingT σ) (body : Callback) (w : World σ) :
    ∃ ext, (run h body w).2.trace = w.trace ++ ext ∧ invocations ext = [] := by
  obtain ⟨ext, h1, h2⟩ := (run_local h body w).trace
  exact ⟨ext, h1, invocations_local h2⟩

/-- When every callback of the list returns, calling them in order logs exactly one
invocation for each, in order. -/
theorem seq_callDeferred_invocations {σ : Type} (h : TestingT σ) (L : List (Nat × Callback))
    (hret : ∀ p ∈ L, ∀ v : World σ, (run h p.2 v).1 = Exit.returned) (w : World σ) :
    (Step.seq (L.map fun p => callDeferred h p.1 p.2) w).1 = Exit.returned ∧
    ∃ ext, (Step.seq (L.map fun p => callDeferred h p.1 p.2) w).2.trace = w.trace ++ ext ∧
      invocations ext = L.map fun p => Event.deferred p.1 := by
  induction L generalizing w with
  | nil => exact ⟨rfl, [], by simp, rfl⟩
  | cons p rest ih =>
    have hp : (callDeferred h p.1 p.2 w).1 = Exit.returned := by
      simp only [callDeferred, Step.seq_cons, Step.andThen_nil, logEvent_andThen]
      exact hret p (List.mem_cons_self _ _) _
    have htr : ∃ ext, (callDeferred h p.1 p.2 w).2.trace = w.trace ++ ext ∧
        invocations ext = [Event.deferred p.1] := by
      simp only [callDeferred, Step.seq_cons, Step.andThen_nil, logEvent_andThen]
      obtain ⟨e1, h1, h2⟩ := run_invocations h p.2
        { w with trace := w.trace ++ [Event.deferred p.1] }
      refine ⟨Event.deferred p.1 :: e1, by rw [h1]; simp, ?_⟩
      have : invocations (Event.deferred p.1 :: e1) = Event.deferred p.1 :: invocations e1 := by
        simp [invocations, Event.isInvocation]
      rw [this, h2]
    obtain ⟨e1, h1, h2⟩ := htr
    obtain ⟨i1, e2, i2, i3⟩ := ih (fun q hq => hret q (List.mem_cons_of_mem _ hq))
      (callDeferred h p.1 p.2 w).2
    simp only [List.map_cons, Step.seq_cons, Step.andThen_returned _ hp]
    refine ⟨i1, e1 ++ e2, by rw [i2, h1, List.append_assoc], ?_⟩
    rw [invocations_append, h2, i3]
    rfl

/-- C9. Callbacks f1, ..., fn registered with `Defer` on a fresh `DefaultDeferrer` end up
on the stack in this order, and one `RunDeferred` is the sequence of calls fn, ..., f1,
each callback once (a call that does not return ends the sequence); with nothing
registered it calls nothing.  When every callback returns, `RunDeferred` returns and the
invocations it logs are exactly those of the indices n-1, ..., 0 in this order. -/
theorem DefaultDeferrer_RunDeferred_reverse_order {σ : Type} (h : TestingT σ)
    (fs : List Callback) (w : World σ) :
    (deferAll fs { w with deferStack := [] }).2.deferStack = fs ∧
    DefaultDeferrer.RunDeferred h (deferAll fs { w with deferStack := [] }).2 =
      invokeInReverse h fs (deferAll fs { w with deferStack := [] }).2 ∧
    DefaultDeferrer.RunDeferred h { w with deferStack := [] } =
      (Exit.returned, { w with deferStack := [] }) ∧
    ((∀ f ∈ fs, ∀ v : World σ, (run h f v).1 = Exit.returned) →
      (DefaultDeferrer.RunDeferred h (deferAll fs { w with deferStack := [] }).2).1 =
        Exit.returned ∧
      ∃ ext, (DefaultDeferrer.RunDeferred h (deferAll fs { w with deferStack := [] }).2).2.trace =
          (deferAll fs { w with deferStack := [] }).2.trace ++ ext ∧
        invocations ext = (List.range fs.length).reverse.map Event.deferred) := by
  have hstack : (deferAll fs { w with deferStack := [] }).2.deferStack = fs := by
    rw [deferAll_eq]; simp
  refine ⟨hstack, ?_, rfl, ?_⟩
  · rw [RunDeferred_eq, hstack]
  · intro hret
    rw [RunDeferred_eq, hstack]
    have hL : ∀ p ∈ fs.enum.reverse, ∀ v : World σ, (run h p.2 v).1 = Exit.returned := by
      intro p hp v
      have hp2 : p.2 ∈ fs := by
        have := List.mem_map_of_mem Prod.snd (List.mem_reverse.1 hp)
        rwa [List.enum_map_snd] at this
      exact hret p.2 hp2 v
    obtain ⟨r1, ext, r2, r3⟩ := seq_callDeferred_invocations h fs.enum.reverse hL
      (deferAll fs { w with deferStack := [] }).2
    refine ⟨r1, ext, r2, ?_⟩
    rw [r3, ← List.enum_map_fst fs, List.map_reverse, List.map_reverse, List.map_map]
    rfl

/-- C9 at a concrete input: three callbacks that log "1", "2", "3" on the standard host. -/
theorem DefaultDeferrer_RunDeferred_reverse_order_witness :
    (DefaultDeferrer.RunDeferred goTestingT
      (deferAll [[Stmt.call (Method.Log ["1"])], [Stmt.call (Method.Log ["2"])],
        [Stmt.call (Method.Log ["3"])]]
        { World.init ⟨none, none, none, none, []⟩ (newGoT "T") 0 none
          with deferStack := [] }).2).2.td.T.output = [["3"], ["2"], ["1"]] ∧
    (DefaultDeferrer.RunDeferred goTestingT
      (deferAll [[Stmt.call (Method.Log ["1"])], [Stmt.call (Method.Log ["2"])],
        [Stmt.call (Method.Log ["3"])]]
        { World.init ⟨none, none, none, none, []⟩ (newGoT "T") 0 none
          with deferStack := [] }).2) =
      invokeInReverse goTestingT [[Stmt.call (Method.Log ["1"])],
        [Stmt.call (Method.Log ["2"])], [Stmt.call (Method.Log ["3"])]]
        (deferAll [[Stmt.call (Method.Log ["1"])], [Stmt.call (Method.Log ["2"])],
        [Stmt.call (Method.Log ["3"])]]
        { World.init ⟨none, none, none, none, []⟩ (newGoT "T") 0 none
          with deferStack := [] }).2 :=
  ⟨by decide,
   (DefaultDeferrer_RunDeferred_reverse_order goTestingT
      [[Stmt.call (Method.Log ["1"])], [Stmt.call (Method.Log ["2"])],
        [Stmt.call (Method.Log ["3"])]]
      (World.init ⟨none, none, none, none, []⟩ (newGoT "T") 0 none)).2.1⟩

/-! ## One stage: `timedRun` -/

@[simp] theorem stageEntry_statuses {σ : Type} (l : Lifecycle) (w : World σ) :
    (stageEntry l w).td.statuses = w.td.statuses := rfl

@[simp] theorem stageEntry_fatal {σ : Type} (l : Lifecycle) (w : World σ) :
    (stageEntry l w).td.fatal = w.td.fatal := rfl

@[simp] theorem stageEntry_host {σ : Type} (l : Lifecycle) (w : World σ) :
    (stageEntry l w).td.T = w.td.T := rfl

@[simp] theorem stageEntry_timings {σ : Type} (l : Lifecycle) (w : World σ) :
    (stageEntry l w).td.timings = w.td.timings := rfl

@[simp] theorem stageEntry_actualName {σ : Type} (l : Lifecycle) (w : World σ) :
    (stageEntry l w).td.actualName = w.td.actualName := rfl

@[simp] theorem stageEntry_lifecycle {σ : Type} (l : Lifecycle) (w : World σ) :
    (stageEntry l w).td.currentLifecycle = l := rfl

@[simp] theorem stageEntry_deferStack {σ : Type} (l : Lifecycle) (w : World σ) :
    (stageEntry l w).deferStack = w.deferStack := rfl

@[simp] theorem stageEntry_clockReads {σ : Type} (l : Lifecycle) (w : World σ) :
    (stageEntry l w).clockReads = w.clockReads + 1 := rfl

@[simp] theorem stageEntry_runnerInstance {σ : Type} (l : Lifecycle) (w : World σ) :
    (stageEntry l w).runnerInstance = w.runnerInstance := rfl

@[simp] theorem stageEntry_trace {σ : Type} (l : Lifecycle) (w : World σ) :
    (stageEntry l w).trace = w.trace ++ [Event.enter l] := rfl

/-- The state in which `timedRun` calls the callback. -/
theorem timedRun_some {σ : Type} (env : Env σ) (body : Callback) (l : Lifecycle)
    (w : World σ) :
    timedRun env (some body) l w =
      Step.andThen (run env.host body)
        (storeTiming env ⟨l, env.now w.clockReads, 0, 0, true, true⟩) (stageEntry l w) := by
  simp [timedRun, stageEntry]

theorem timedRun_none {σ : Type} (env : Env σ) (l : Lifecycle) (w : World σ) :
    timedRun env none l w =
      (Exit.returned,
        { w with
          clockReads := w.clockReads + 2
          td := { w.td with
            currentLifecycle := l
            timings := mapSet w.td.timings l
              ⟨l, env.now w.clockReads, env.now (w.clockReads + 1),
                (env.now (w.clockReads + 1) : Int) - (env.now w.clockReads : Int),
                false, false⟩ } }) := by
  simp [timedRun, storeTiming]

/-- A stage whose callback is absent or has no Fatal- or Skip-class call returns; it
records the reports of the callback under the stage name, registers its deferred
callbacks, logs its invocation, and stores the timing of the stage. -/
theorem timedRun_noAbort {σ : Type} {env : Env σ} (hR : env.host.Returns)
    (fn : Option Callback) (hb : noAbort (bodyOf fn)) (l : Lifecycle) (w : World σ) :
    (timedRun env fn l w).1 = Exit.returned ∧
    (timedRun env fn l w).2.td.statuses = w.td.statuses ++ reportsOf l (bodyOf fn) ∧
    (timedRun env fn l w).2.deferStack = w.deferStack ++ defersOf (bodyOf fn) ∧
    (timedRun env fn l w).2.td.fatal = w.td.fatal ∧
    (env.host.SkippedStable →
      env.host.Skipped (timedRun env fn l w).2.td.T = env.host.Skipped w.td.T) ∧
    (∃ ext, (timedRun env fn l w).2.trace = w.trace ++ ext ∧ invocations ext = enterOf l fn) ∧
    (∃ tm, (timedRun env fn l w).2.td.timings = mapSet w.td.timings l tm ∧
      tm.Lifecycle = l ∧ tm.Started = fn.isSome ∧ tm.Ended = fn.isSome) ∧
    (timedRun env fn l w).2.td.currentLifecycle = l ∧
    (timedRun env fn l w).2.td.actualName = w.td.actualName ∧
    (timedRun env fn l w).2.runnerInstance = w.runnerInstance := by
  cases fn with
  | none =>
    rw [timedRun_none]
    simp [bodyOf, reportsOf, defersOf, enterOf, invocations]
    exact ⟨_, rfl, rfl, rfl, rfl⟩
  | some body =>
    have hb2 : noAbort body := hb
    rw [timedRun_some]
    obtain ⟨r1, r2, r3, r4, r5⟩ := run_noAbort hR body hb2 (stageEntry l w)
    obtain ⟨ext, t1, t2⟩ := run_invocations env.host body (stageEntry l w)
    have g := run_local env.host body (stageEntry l w)
    rw [Step.andThen_returned _ r1]
    refine ⟨rfl, ?_, ?_, ?_, ?_, ?_, ?_, ?_, ?_, ?_⟩
    · simpa [storeTiming, bodyOf] using r2
    · simpa [storeTiming, bodyOf] using r3
    · simpa [storeTiming] using r4
    · intro hK
      simpa [storeTiming] using r5 hK
    · refine ⟨Event.enter l :: ext, ?_, ?_⟩
      · simp [storeTiming, t1]
      · have : invocations (Event.enter l :: ext) = Event.enter l :: invocations ext := by
          simp [invocations, Event.isInvocation]
        rw [this, t2]; rfl
    · refine ⟨⟨l, env.now w.clockReads, env.now (run env.host body (stageEntry l w)).2.clockReads,
        (env.now (run env.host body (stageEntry l w)).2.clockReads : Int) -
          (env.now w.clockReads : Int), true, true⟩, ?_, rfl, rfl, rfl⟩
      simp only [storeTiming, Step.ret_apply]
      rw [g.timings]
      rfl
    · simpa [storeTiming] using g.lifecycle
    · simpa [storeTiming] using g.actualName
    · simpa [storeTiming] using g.runnerInstance

/-- A stage whose callback is aborted by its statement `s` after the statements `pre`:
the stage does not return, nothing after `s` is executed, and no timing is stored. -/
theorem timedRun_abort_at {σ : Type} {env : Env σ} (hR : env.host.Returns)
    (pre post : Callback) (s : Stmt) (hpre : noAbort pre)
    (hs : ∀ v : World σ, (Stmt.exec env.host s v).1 = Exit.goexit) (l : Lifecycle)
    (w : World σ) :
    (timedRun env (some (pre ++ s :: post)) l w).1 = Exit.goexit ∧
    timedRun env (some (pre ++ s :: post)) l w = timedRun env (some (pre ++ [s])) l w ∧
    AbortedStage env l pre s w (timedRun env (some (pre ++ s :: post)) l w).2 := by
  have key : ∀ post2, timedRun env (some (pre ++ s :: post2)) l w =
      (Exit.goexit, (Stmt.exec env.host s (run env.host pre (stageEntry l w)).2).2) := by
    intro post2
    rw [timedRun_some, Step.andThen_goexit _ (by rw [run_abort_at hR pre post2 s hpre _ (hs _)]),
      run_abort_at hR pre post2 s hpre _ (hs _)]
  obtain ⟨r1, r2, r3, r4, r5⟩ := run_noAbort hR pre hpre (stageEntry l w)
  obtain ⟨e1, e2, e3⟩ := Stmt.exec_effect hR s (run env.host pre (stageEntry l w)).2
  have g1 := run_local env.host pre (stageEntry l w)
  have g2 := Stmt.exec_local env.host s (run env.host pre (stageEntry l w)).2
  obtain ⟨x1, t1, t2⟩ := run_invocations env.host pre (stageEntry l w)
  obtain ⟨x2, t3, t4⟩ := g2.trace
  refine ⟨by rw [key], by rw [key, key], ?_⟩
  rw [key]
  exact
    { statuses := by
        show (Stmt.exec env.host s (run env.host pre (stageEntry l w)).2).2.td.statuses = _
        rw [e1, r2, g1.lifecycle]; rfl
      deferStack := by
        show (Stmt.exec env.host s (run env.host pre (stageEntry l w)).2).2.deferStack = _
        rw [e2, r3]; rfl
      fatal := by
        show (Stmt.exec env.host s (run env.host pre (stageEntry l w)).2).2.td.fatal = _
        rw [e3, r4]; rfl
      trace := by
        refine ⟨Event.enter l :: (x1 ++ x2), ?_, ?_⟩
        · show (Stmt.exec env.host s (run env.host pre (stageEntry l w)).2).2.trace = _
          rw [t3, t1]; simp
        · have h1 : invocations (Event.enter l :: (x1 ++ x2)) =
              Event.enter l :: (invocations x1 ++ invocations x2) := by
            simp [invocations, Event.isInvocation]
          rw [h1, t2, invocations_local t4]; rfl
      timings := g2.timings.trans g1.timings
      lifecycle := g2.lifecycle.trans g1.lifecycle
      actualName := g2.actualName.trans g1.actualName
      runnerInstance := g2.runnerInstance.trans g1.runnerInstance
      skipped := fun hK hsk => by
        show env.host.Skipped (Stmt.exec env.host s (run env.host pre (stageEntry l w)).2).2.td.T
          = _
        rw [Stmt.exec_skipped hR hK s hsk, r5 hK]; rfl
      last := ⟨_, rfl⟩ }

/-! ## The end of the test: final status, deferred calls, statistics -/

theorem Callback.returns_of_noAbort {σ : Type} {h : TestingT σ} (hR : h.Returns)
    {body : Callback} (hb : noAbort body) : Callback.Returns h body :=
  fun w => (run_noAbort hR body hb w).1

/-- Saving the statistics leaves the statuses, the timings, the fatal flag and the defer
stack alone, and logs no invocation. -/
theorem saveStatistics_frame {σ : Type} (h : TestingT σ) (start end_ : Nat) (w : World σ) :
    (saveStatistics h start end_ w).2.td.statuses = w.td.statuses ∧
    (saveStatistics h start end_ w).2.td.timings = w.td.timings ∧
    (saveStatistics h start end_ w).2.td.fatal = w.td.fatal ∧
    (saveStatistics h start end_ w).2.deferStack = w.deferStack ∧
    ∃ ext, (saveStatistics h start end_ w).2.trace = w.trace ++ ext ∧
      ∀ e ∈ ext, e.isLocal w.td.currentLifecycle = true := by
  have hl : Step.Local (Step.andThen (TD.Name h) (TD.Failed h)) :=
    (TD.invoke_local h Method.Name).compose (TD.invoke_local h Method.Failed)
  have g := hl w
  have hst : (Step.andThen (TD.Name h) (TD.Failed h) w).2.td.statuses = w.td.statuses ∧
      (Step.andThen (TD.Name h) (TD.Failed h) w).2.td.fatal = w.td.fatal ∧
      (Step.andThen (TD.Name h) (TD.Failed h) w).2.deferStack = w.deferStack := by
    unfold Step.andThen TD.Name TD.Failed
    split <;> split <;> simp_all
  unfold saveStatistics
  cases hr : w.runnerInstance with
  | none => exact ⟨rfl, rfl, rfl, rfl, [], by simp, by simp⟩
  | some r =>
    simp only [TD.makeStatistics]
    split
    · exact ⟨hst.1, g.timings, hst.2.1, hst.2.2, g.trace⟩
    · exact ⟨hst.1, g.timings, hst.2.1, hst.2.2, g.trace⟩

theorem saveStatistics_returned {σ : Type} {h : TestingT σ} (hR : h.Returns)
    (start end_ : Nat) (w : World σ) : (saveStatistics h start end_ w).1 = Exit.returned := by
  have h1 : ∀ v : World σ, (TD.Name h v).1 = Exit.returned := by
    intro v
    unfold TD.Name
    split
    · rfl
    · exact callT_returned hR (m := Method.Name) rfl v
  have h2 : (Step.andThen (TD.Name h) (TD.Failed h) w).1 = Exit.returned := by
    rw [Step.andThen_returned _ (h1 w)]
    exact callT_returned hR (m := Method.Failed) rfl _
  unfold saveStatistics
  cases hr : w.runnerInstance with
  | none => rfl
  | some r => simp [TD.makeStatistics, h2]

/-- Calling deferred callbacks in any order only extends the context. -/
theorem seq_callDeferred_grows {σ : Type} (h : TestingT σ) (L : List (Nat × Callback))
    (w : World σ) :
    Grows (fun e => e.isLocal w.td.currentLifecycle = true ∨ ∃ j, e = Event.deferred j) w
      (Step.seq (L.map fun p => callDeferred h p.1 p.2) w).2 := by
  induction L generalizing w with
  | nil => exact Grows.refl _ w
  | cons p rest ih =>
    have g1 := callDeferred_grows h p.1 p.2 w
    simp only [List.map_cons, Step.seq_cons]
    unfold Step.andThen
    split
    · have g2 := ih (callDeferred h p.1 p.2 w).2
      rw [g1.lifecycle] at g2
      exact g1.trans g2
    · exact g1

/-- The method `RunDeferred` only extends the context. -/
theorem RunDeferred_grows {σ : Type} (h : TestingT σ) (w : World σ) :
    Grows (fun e => e.isLocal w.td.currentLifecycle = true ∨ ∃ j, e = Event.deferred j) w
      (DefaultDeferrer.RunDeferred h w).2 := by
  rw [RunDeferred_eq]
  exact seq_callDeferred_grows h _ w

/-- Deferred callbacks that do not report leave the statuses and the fatal flag alone. -/
theorem seq_callDeferred_quiet {σ : Type} {h : TestingT σ} (hR : h.Returns)
    (L : List (Nat × Callback)) (hq : ∀ p ∈ L, quiet p.2) (w : World σ) :
    (Step.seq (L.map fun p => callDeferred h p.1 p.2) w).2.td.statuses = w.td.statuses ∧
    (Step.seq (L.map fun p => callDeferred h p.1 p.2) w).2.td.fatal = w.td.fatal := by
  induction L generalizing w with
  | nil => exact ⟨rfl, rfl⟩
  | cons p rest ih =>
    have hp := hq p (List.mem_cons_self _ _)
    obtain ⟨r1, r2, _, r4, _⟩ := run_noAbort hR p.2 (noAbort_of_quiet hp)
      { w with trace := w.trace ++ [Event.deferred p.1] }
    have hc : callDeferred h p.1 p.2 w =
        run h p.2 { w with trace := w.trace ++ [Event.deferred p.1] } := by
      simp [callDeferred]
    obtain ⟨i1, i2⟩ := ih (fun q hq2 => hq q (List.mem_cons_of_mem _ hq2))
      (callDeferred h p.1 p.2 w).2
    simp only [List.map_cons, Step.seq_cons]
    rw [Step.andThen_returned _ (by rw [hc]; exact r1), i1, i2, hc, r2, r4,
      reportsOf_quiet hp]
    simp

theorem TD.finalStatus_statuses {σ : Type} (c : TD σ)
    (hc : c.currentLifecycle = Lifecycle.TestFinished) :
    c.finalStatus.statuses = c.statuses ++ [terminalStatus c.statuses c.fatal] ∧
    c.finalStatus.fatal = c.fatal ∧ c.finalStatus.timings = c.timings ∧
    c.finalStatus.currentLifecycle = c.currentLifecycle ∧ c.finalStatus.T = c.T := by
  unfold TD.finalStatus terminalStatus
  split <;> simp_all [TD.setPassed, TD.setFailed]

theorem Event.deferredPhase_of_local {e : Event}
    (he : e.isLocal Lifecycle.TestFinished = true ∨ ∃ j, e = Event.deferred j) :
    e.isDeferredPhase = true := by
  rcases he with he | ⟨j, rfl⟩
  · cases e <;> simp_all [Event.isLocal, Event.isDeferredPhase]
  · rfl

/-- The state in which the deferred-call stack is run. -/
theorem finishTest_eq {σ : Type} (env : Env σ) (start end_ : Nat) (w : World σ) :
    finishTest env start end_ w =
      Step.andThen (DefaultDeferrer.RunDeferred env.host) (saveStatistics env.host start end_)
        { w with td := TD.finalStatus { w.td with currentLifecycle := Lifecycle.TestFinished } } := by
  simp [finishTest]

/-- The end of the test on every state: the final status is appended behind the statuses
recorded so far, every status recorded after it carries `TestFinished` and is not a
`Pass`, the timings are unchanged, and no stage callback is invoked. -/
theorem finishTest_general {σ : Type} (env : Env σ) (start end_ : Nat) (w : World σ) :
    ∃ D ext, (finishTest env start end_ w).2.td.statuses =
        w.td.statuses ++ terminalStatus w.td.statuses w.td.fatal :: D ∧
      (∀ d ∈ D, d.Lifecycle = Lifecycle.TestFinished ∧ d.Status ≠ StatusValue.Pass) ∧
      (finishTest env start end_ w).2.td.timings = w.td.timings ∧
      (finishTest env start end_ w).2.trace = w.trace ++ ext ∧
      ∀ e ∈ ext, e.isDeferredPhase = true := by
  obtain ⟨f1, f2, f3, f4, f5⟩ :=
    TD.finalStatus_statuses { w.td with currentLifecycle := Lifecycle.TestFinished } rfl
  have g := RunDeferred_grows env.host
    { w with td := TD.finalStatus { w.td with currentLifecycle := Lifecycle.TestFinished } }
  obtain ⟨D, d1, d2, _⟩ := g.statuses
  obtain ⟨x1, t1, t2⟩ := g.trace
  rw [finishTest_eq]
  unfold Step.andThen
  split
  · obtain ⟨s1, s2, _, _, x2, t3, t4⟩ := saveStatistics_frame env.host start end_
      (DefaultDeferrer.RunDeferred env.host
        { w with td := TD.finalStatus { w.td with currentLifecycle := Lifecycle.TestFinished } }).2
    refine ⟨D, x1 ++ x2, ?_, ?_, ?_, ?_, ?_⟩
    · rw [s1, d1]
      show TD.statuses (TD.finalStatus _) ++ D = _
      rw [f1]; simp
    · intro d hd
      have := d2 d hd
      exact ⟨this.1.trans f4, this.2⟩
    · rw [s2, g.timings]; exact f3
    · rw [t3, t1]; simp
    · intro e he
      rcases List.mem_append.1 he with he | he
      · have := t2 e he
        rw [show (World.td _).currentLifecycle = Lifecycle.TestFinished from f4] at this
        exact Event.deferredPhase_of_local this
      · have := t4 e he
        rw [g.lifecycle, show (World.td _).currentLifecycle = Lifecycle.TestFinished from f4]
          at this
        exact Event.deferredPhase_of_local (Or.inl this)
  · refine ⟨D, x1, ?_, ?_, ?_, t1, ?_⟩
    · rw [d1]
      show TD.statuses (TD.finalStatus _) ++ D = _
      rw [f1]; simp
    · intro d hd
      have := d2 d hd
      exact ⟨this.1.trans f4, this.2⟩
    · rw [g.timings]; exact f3
    · intro e he
      have := t2 e he
      rw [show (World.td _).currentLifecycle = Lifecycle.TestFinished from f4] at this
      exact Event.deferredPhase_of_local this

/-- When the deferred callbacks on the stack return, the end of the test returns and the
invocations it logs are those of the stack entries from the last to the first. -/
theorem finishTest_returns {σ : Type} {env : Env σ} (hR : env.host.Returns)
    (start end_ : Nat) (w : World σ)
    (hret : ∀ fn ∈ w.deferStack, Callback.Returns env.host fn) :
    (finishTest env start end_ w).1 = Exit.returned ∧
    ∃ ext, (finishTest env start end_ w).2.trace = w.trace ++ ext ∧
      invocations ext = (List.range w.deferStack.length).reverse.map Event.deferred := by
  have hL : ∀ p ∈ w.deferStack.enum.reverse, ∀ v : World σ,
      (run env.host p.2 v).1 = Exit.returned := by
    intro p hp v
    have hp2 : p.2 ∈ w.deferStack := by
      have := List.mem_map_of_mem Prod.snd (List.mem_reverse.1 hp)
      rwa [List.enum_map_snd] at this
    exact hret p.2 hp2 v
  obtain ⟨r1, x1, r2, r3⟩ := seq_callDeferred_invocations env.host w.deferStack.enum.reverse hL
    { w with td := TD.finalStatus { w.td with currentLifecycle := Lifecycle.TestFinished } }
  have hrd : DefaultDeferrer.RunDeferred env.host
      { w with td := TD.finalStatus { w.td with currentLifecycle := Lifecycle.TestFinished } } =
      Step.seq (w.deferStack.enum.reverse.map fun p => callDeferred env.host p.1 p.2)
      { w with td := TD.finalStatus { w.td with currentLifecycle := Lifecycle.TestFinished } } := by
    rw [RunDeferred_eq]; rfl
  rw [finishTest_eq, Step.andThen_returned _ (by rw [hrd]; exact r1), hrd]
  obtain ⟨_, _, _, _, x2, t3, t4⟩ := saveStatistics_frame env.host start end_
    (Step.seq (w.deferStack.enum.reverse.map fun p => callDeferred env.host p.1 p.2)
      { w with td := TD.finalStatus { w.td with currentLifecycle := Lifecycle.TestFinished } }).2
  refine ⟨saveStatistics_returned hR _ _ _, x1 ++ x2, ?_, ?_⟩
  · rw [t3, r2]; simp
  · rw [invocations_append, invocations_local t4, r3, ← List.enum_map_fst w.deferStack,
      List.map_reverse, List.map_reverse, List.map_map, List.append_nil]
    rfl

/-- When the deferred callbacks on the stack do not report, the final status is the last
status. -/
theorem finishTest_quiet {σ : Type} {env : Env σ} (hR : env.host.Returns)
    (start end_ : Nat) (w : World σ) (hq : ∀ fn ∈ w.deferStack, quiet fn) :
    (finishTest env start end_ w).2.td.statuses =
      w.td.statuses ++ [terminalStatus w.td.statuses w.td.fatal] := by
  have hL : ∀ p ∈ w.deferStack.enum.reverse, quiet p.2 := by
    intro p hp
    have hp2 : p.2 ∈ w.deferStack := by
      have := List.mem_map_of_mem Prod.snd (List.mem_reverse.1 hp)
      rwa [List.enum_map_snd] at this
    exact hq p.2 hp2
  obtain ⟨q1, _⟩ := seq_callDeferred_quiet hR w.deferStack.enum.reverse hL
    { w with td := TD.finalStatus { w.td with currentLifecycle := Lifecycle.TestFinished } }
  have hrd : DefaultDeferrer.RunDeferred env.host
      { w with td := TD.finalStatus { w.td with currentLifecycle := Lifecycle.TestFinished } } =
      Step.seq (w.deferStack.enum.reverse.map fun p => callDeferred env.host p.1 p.2)
      { w with td := TD.finalStatus { w.td with currentLifecycle := Lifecycle.TestFinished } } := by
    rw [RunDeferred_eq]; rfl
  have hst : (DefaultDeferrer.RunDeferred env.host
      { w with td := TD.finalStatus { w.td with currentLifecycle := Lifecycle.TestFinished }
        }).2.td.statuses = w.td.statuses ++ [terminalStatus w.td.statuses w.td.fatal] := by
    rw [hrd, q1]
    exact (TD.finalStatus_statuses
      { w.td with currentLifecycle := Lifecycle.TestFinished } rfl).1
  rw [finishTest_eq]
  unfold Step.andThen
  split
  · rw [(saveStatistics_frame env.host start end_ _).1, hst]
  · exact hst

@[simp] theorem cleanupEntry_statuses {σ : Type} (env : Env σ) (w : World σ) :
    (cleanupEntry env w).td.statuses = w.td.statuses := rfl

@[simp] theorem cleanupEntry_fatal {σ : Type} (env : Env σ) (w : World σ) :
    (cleanupEntry env w).td.fatal = w.td.fatal := rfl

@[simp] theorem cleanupEntry_timings {σ : Type} (env : Env σ) (w : World σ) :
    (cleanupEntry env w).td.timings = w.td.timings := rfl

@[simp] theorem cleanupEntry_deferStack {σ : Type} (env : Env σ) (w : World σ) :
    (cleanupEntry env w).deferStack = w.deferStack := rfl

@[simp] theorem cleanupEntry_trace {σ : Type} (env : Env σ) (w : World σ) :
    (cleanupEntry env w).trace = w.trace ++ [Event.host Method.Skipped] := rfl

@[simp] theorem cleanupEntry_lifecycle {σ : Type} (env : Env σ) (w : World σ) :
    (cleanupEntry env w).td.currentLifecycle = w.td.currentLifecycle := rfl

/-- The deferred function of `Test` on a host whose `Skipped` method returns: the After
stage unless the test was skipped before Arrange completed, then the end of the test. -/
theorem cleanup_eq {σ : Type} {env : Env σ} (hR : env.host.Returns) (tc : TestCase)
    (start : Nat) (arrangeComplete : Bool) (w : World σ) :
    cleanup env tc start arrangeComplete w =
      Step.andThen
        (if (!env.host.Skipped w.td.T || arrangeComplete) = true then tc.AfterMethod env
          else Step.seq [])
        (finishTest env start (env.now w.clockReads)) (cleanupEntry env w) := by
  have h1 : (TD.Skipped env.host { w with clockReads := w.clockReads + 1 }).1 =
      Exit.returned := callT_returned hR (m := Method.Skipped) rfl _
  simp only [cleanup, Step.seq_cons, Step.andThen_ret, Step.andThen_returned _ h1]
  rfl

/-- The stages and the deferred function when Arrange does not return. -/
theorem lifecycle_arrange_goexit {σ : Type} (env : Env σ) (tc : TestCase) (start : Nat)
    (w : World σ) (h1 : (tc.ArrangeMethod env w).1 = Exit.goexit) :
    lifecycle env tc start w =
      (Exit.goexit, (cleanup env tc start false (tc.ArrangeMethod env w).2).2) := by
  simp [lifecycle, runStages, h1]

/-- The stages and the deferred function when Arrange returns and Act does not. -/
theorem lifecycle_act_goexit {σ : Type} (env : Env σ) (tc : TestCase) (start : Nat)
    (w : World σ) (h1 : (tc.ArrangeMethod env w).1 = Exit.returned)
    (h2 : (tc.ActMethod env (tc.ArrangeMethod env w).2).1 = Exit.goexit) :
    lifecycle env tc start w =
      (Exit.goexit,
        (cleanup env tc start true (tc.ActMethod env (tc.ArrangeMethod env w).2).2).2) := by
  simp [lifecycle, runStages, h1, Step.andThen_goexit _ h2]

/-- The stages and the deferred function when Arrange and Act return and Assert does
not. -/
theorem lifecycle_assert_goexit {σ : Type} (env : Env σ) (tc : TestCase) (start : Nat)
    (w : World σ) (h1 : (tc.ArrangeMethod env w).1 = Exit.returned)
    (h2 : (tc.ActMethod env (tc.ArrangeMethod env w).2).1 = Exit.returned)
    (h3 : (tc.AssertMethod env (tc.ActMethod env (tc.ArrangeMethod env w).2).2).1 =
      Exit.goexit) :
    lifecycle env tc start w =
      (Exit.goexit,
        (cleanup env tc start true
          (tc.AssertMethod env (tc.ActMethod env (tc.ArrangeMethod env w).2).2).2).2) := by
  simp [lifecycle, runStages, h1, Step.andThen_returned _ h2, h3]

/-- The stages and the deferred function when Arrange, Act and Assert return. -/
theorem lifecycle_returned {σ : Type} (env : Env σ) (tc : TestCase) (start : Nat)
    (w : World σ) (h1 : (tc.ArrangeMethod env w).1 = Exit.returned)
    (h2 : (tc.ActMethod env (tc.ArrangeMethod env w).2).1 = Exit.returned)
    (h3 : (tc.AssertMethod env (tc.ActMethod env (tc.ArrangeMethod env w).2).2).1 =
      Exit.returned) :
    lifecycle env tc start w =
      cleanup env tc start true
        (tc.AssertMethod env (tc.ActMethod env (tc.ArrangeMethod env w).2).2).2 := by
  simp [lifecycle, runStages, h1, Step.andThen_returned _ h2, h3]

/-! ## `Test` enters the lifecycle -/

theorem logEventIfInitialized_andThen {σ : Type} (message : String) (g : Step σ)
    (w : World σ) :
    Step.andThen (logEventIfInitialized message) g w =
      g { w with runnerInstance := w.runnerInstance.map fun r => r.LogEvent message } := rfl

theorem parallelStep_spec {σ : Type} {h : TestingT σ} (hR : h.Returns)
    (options : List TestConfig) (w : World σ) :
    (parallelStep h options w).1 = Exit.returned ∧
    (parallelStep h options w).2.td.statuses = w.td.statuses ∧
    (parallelStep h options w).2.td.fatal = w.td.fatal ∧
    (parallelStep h options w).2.td.timings = w.td.timings ∧
    (parallelStep h options w).2.deferStack = w.deferStack ∧
    (parallelStep h options w).2.clockReads = w.clockReads ∧
    (∃ ext, (parallelStep h options w).2.trace = w.trace ++ ext ∧
      ∀ e ∈ ext, ∃ m, e = Event.host m) ∧
    (h.SkippedStable → h.Skipped (parallelStep h options w).2.td.T = h.Skipped w.td.T) := by
  have hp : (callT h Method.Parallel w).1 = Exit.returned :=
    callT_returned hR (m := Method.Parallel) rfl w
  have hcall : (callT h Method.Parallel w).1 = Exit.returned ∧
      (callT h Method.Parallel w).2.td.statuses = w.td.statuses ∧
      (callT h Method.Parallel w).2.td.fatal = w.td.fatal ∧
      (callT h Method.Parallel w).2.td.timings = w.td.timings ∧
      (callT h Method.Parallel w).2.deferStack = w.deferStack ∧
      (callT h Method.Parallel w).2.clockReads = w.clockReads ∧
      (∃ ext, (callT h Method.Parallel w).2.trace = w.trace ++ ext ∧
        ∀ e ∈ ext, ∃ m, e = Event.host m) ∧
      (h.SkippedStable → h.Skipped (callT h Method.Parallel w).2.td.T = h.Skipped w.td.T) :=
    ⟨hp, rfl, rfl, rfl, rfl, rfl, ⟨[Event.host Method.Parallel], rfl, by simp⟩,
      fun hK => hK Method.Parallel w.td.T rfl⟩
  have hnone : (Step.seq ([] : List (Step σ)) w).1 = Exit.returned ∧
      (Step.seq ([] : List (Step σ)) w).2.td.statuses = w.td.statuses ∧
      (Step.seq ([] : List (Step σ)) w).2.td.fatal = w.td.fatal ∧
      (Step.seq ([] : List (Step σ)) w).2.td.timings = w.td.timings ∧
      (Step.seq ([] : List (Step σ)) w).2.deferStack = w.deferStack ∧
      (Step.seq ([] : List (Step σ)) w).2.clockReads = w.clockReads ∧
      (∃ ext, (Step.seq ([] : List (Step σ)) w).2.trace = w.trace ++ ext ∧
        ∀ e ∈ ext, ∃ m, e = Event.host m) ∧
      (h.SkippedStable →
        h.Skipped (Step.seq ([] : List (Step σ)) w).2.td.T = h.Skipped w.td.T) :=
    ⟨rfl, rfl, rfl, rfl, rfl, rfl, ⟨[], by simp, by simp⟩, fun _ => rfl⟩
  cases options with
  | nil => exact hcall
  | cons o rest =>
    by_cases ho : o.ParallelOff = false
    · simpa only [parallelStep, ho, if_true] using hcall
    · simpa only [parallelStep, ho, if_false] using hnone

/-- On a host whose `Name` and `Parallel` methods return, an invocation of `Test` that
enters the lifecycle is the lifecycle run from a fresh state. -/
theorem Test_enters {σ : Type} {env : Env σ} (hR : env.host.Returns) (tc : TestCase)
    (options : List TestConfig) (t : σ) (k : Nat) (r : Option runner)
    (henter : entersLifecycle env t) :
    ∃ wP, Fresh env tc t wP ∧ wP.clockReads = k + 1 ∧
      Test env tc options t k r = lifecycle env tc (env.now k) wP := by
  obtain ⟨tagged, matched, actualName, hm, htm⟩ := henter
  have hn : (callT env.host Method.Name (World.init tc t k r)).1 = Exit.returned :=
    callT_returned hR (m := Method.Name) rfl _
  obtain ⟨p1, p2, p3, p4, p5, p6, ⟨px, p7, p8⟩, p9⟩ := parallelStep_spec hR options
    { (callT env.host Method.Name (World.init tc t k r)).2 with
      clockReads := k + 1
      runnerInstance := r.map fun x => x.LogEvent ("Instantiating: " ++ actualName) }
  have hfresh : Fresh env tc t (parallelStep env.host options
      { (callT env.host Method.Name (World.init tc t k r)).2 with
        clockReads := k + 1
        runnerInstance := r.map fun x => x.LogEvent ("Instantiating: " ++ actualName) }).2 :=
    { statuses := by rw [p2]; rfl
      fatal := by rw [p3]; rfl
      timings := by rw [p4]; rfl
      deferStack := by rw [p5]; rfl
      trace := by
        rw [p7]
        intro e he
        rcases List.mem_append.1 he with he | he
        · exact ⟨Method.Name, by simpa [callT, World.init] using he⟩
        · exact p8 e he
      skipped := fun hK => by
        rw [p9 hK]
        exact hK Method.Name t rfl }
  have hT : Test env tc options t k r =
      (if tagged = true then
        if (!matched) = true then
          logEventIfInitialized "(match workaround) test not in tagged set; skipping"
        else
          Step.seq [onTD (fun c => { c with actualName := actualName }),
            lifecycle env tc (env.now k)]
      else lifecycle env tc (env.now k))
      (parallelStep env.host options
        { (callT env.host Method.Name (World.init tc t k r)).2 with
          clockReads := k + 1
          runnerInstance := r.map fun x => x.LogEvent ("Instantiating: " ++ actualName) }).2 := by
    simp only [Test, hn, hm, Step.seq_cons, Step.andThen_ret, logEventIfInitialized_andThen]
    exact (Step.andThen_returned _ p1).trans (by rw [Step.seq_singleton]; rfl)
  rcases htm with ht | hmt
  · subst ht
    exact ⟨_, hfresh, p6, by rw [hT]; simp⟩
  · subst hmt
    cases tagged with
    | false => exact ⟨_, hfresh, p6, by rw [hT]; simp⟩
    | true =>
      refine ⟨{ (parallelStep env.host options
        { (callT env.host Method.Name (World.init tc t k r)).2 with
          clockReads := k + 1
          runnerInstance := r.map fun x => x.LogEvent ("Instantiating: " ++ actualName) }).2
          with td := { (parallelStep env.host options
        { (callT env.host Method.Name (World.init tc t k r)).2 with
          clockReads := k + 1
          runnerInstance := r.map fun x => x.LogEvent ("Instantiating: " ++ actualName) }).2.td
            with actualName := actualName } }, ?_, p6, by rw [hT]; simp⟩
      exact
        { statuses := hfresh.statuses
          fatal := hfresh.fatal
          timings := hfresh.timings
          deferStack := hfresh.deferStack
          trace := hfresh.trace
          skipped := hfresh.skipped }

/-! ## The lifecycle when no stage is aborted -/

theorem invocations_host (m : Method) : invocations [Event.host m] = [] := rfl

/-- When no stage callback has a Fatal- or Skip-class call, all four stages run in order
and the lifecycle ends with the end of the test in a state that holds the reports and the
deferred callbacks of all four stages and a timing for each stage. -/
theorem lifecycle_noAbort {σ : Type} {env : Env σ} (hR : env.host.Returns) (tc : TestCase)
    (htc : tc.stagesReturn) (start : Nat) (w : World σ) :
    ∃ w4 end_, lifecycle env tc start w = finishTest env start end_ w4 ∧
      w4.td.statuses = w.td.statuses ++ stageReports tc ∧
      w4.td.fatal = w.td.fatal ∧
      w4.deferStack = w.deferStack ++ stageDefers tc ∧
      (∃ ext, w4.trace = w.trace ++ ext ∧ invocations ext = stageEnters tc) ∧
      (∀ l, l.isStage = true → ∃ tm, w4.td.timings l = some tm ∧ tm.Lifecycle = l ∧
        tm.Started = (tc.callback l).isSome ∧ tm.Ended = (tc.callback l).isSome) ∧
      (∀ l, l.isStage = false → w4.td.timings l = w.td.timings l) := by
  obtain ⟨hA, hB, hC, hD⟩ := htc
  obtain ⟨a1, a2, a3, a4, _, ⟨ax, a6, a7⟩, ⟨atm, a8, a9, a10, a11⟩, _⟩ :=
    timedRun_noAbort hR tc.Arrange hA Lifecycle.Arrange w
  obtain ⟨b1, b2, b3, b4, _, ⟨bx, b6, b7⟩, ⟨btm, b8, b9, b10, b11⟩, _⟩ :=
    timedRun_noAbort hR tc.Act hB Lifecycle.Act (timedRun env tc.Arrange Lifecycle.Arrange w).2
  obtain ⟨c1, c2, c3, c4, _, ⟨cx, c6, c7⟩, ⟨ctm, c8, c9, c10, c11⟩, _⟩ :=
    timedRun_noAbort hR tc.Assert hC Lifecycle.Assert
      (timedRun env tc.Act Lifecycle.Act (timedRun env tc.Arrange Lifecycle.Arrange w).2).2
  obtain ⟨d1, d2, d3, d4, _, ⟨dx, d6, d7⟩, ⟨dtm, d8, d9, d10, d11⟩, _⟩ :=
    timedRun_noAbort hR tc.After hD Lifecycle.After
      (cleanupEntry env (timedRun env tc.Assert Lifecycle.Assert
        (timedRun env tc.Act Lifecycle.Act
          (timedRun env tc.Arrange Lifecycle.Arrange w).2).2).2)
  refine ⟨(timedRun env tc.After Lifecycle.After
      (cleanupEntry env (timedRun env tc.Assert Lifecycle.Assert
        (timedRun env tc.Act Lifecycle.Act
          (timedRun env tc.Arrange Lifecycle.Arrange w).2).2).2)).2,
      env.now (timedRun env tc.Assert Lifecycle.Assert
        (timedRun env tc.Act Lifecycle.Act
          (timedRun env tc.Arrange Lifecycle.Arrange w).2).2).2.clockReads,
      ?_, ?_, ?_, ?_, ?_, ?_, ?_⟩
  · rw [lifecycle_returned env tc start w a1 b1 c1, cleanup_eq hR]
    simp only [Bool.or_true, if_true]
    exact Step.andThen_returned _ d1
  · rw [d2, cleanupEntry_statuses, c2, b2, a2]
    simp [stageReports]
  · rw [d4, cleanupEntry_fatal, c4, b4, a4]
  · rw [d3, cleanupEntry_deferStack, c3, b3, a3]
    simp [stageDefers]
  · refine ⟨ax ++ bx ++ cx ++ [Event.host Method.Skipped] ++ dx, ?_, ?_⟩
    · rw [d6, cleanupEntry_trace, c6, b6, a6]
      simp
    · simp only [invocations_append, a7, b7, c7, d7, invocations_host, stageEnters,
        List.append_nil]
  · intro l hl
    rw [d8, cleanupEntry_timings, c8, b8, a8]
    cases l <;> simp [Lifecycle.isStage] at hl
    · exact ⟨atm, by simp [mapSet], a9, a10, a11⟩
    · exact ⟨btm, by simp [mapSet], b9, b10, b11⟩
    · exact ⟨ctm, by simp [mapSet], c9, c10, c11⟩
    · exact ⟨dtm, by simp [mapSet], d9, d10, d11⟩
  · intro l hl
    rw [d8, cleanupEntry_timings, c8, b8, a8]
    cases l <;> simp [Lifecycle.isStage] at hl <;> simp [mapSet]

/-! ## Claims about test cases in which no stage is aborted -/

theorem Fresh.no_invocations {σ : Type} {env : Env σ} {tc : TestCase} {t : σ} {w : World σ}
    (hf : Fresh env tc t w) : invocations w.trace = [] := by
  simp only [invocations, List.filter_eq_nil_iff]
  intro e he
  obtain ⟨m, rfl⟩ := hf.trace e he
  simp [Event.isInvocation]

/-- C5. On a host whose non-aborting methods return, every invocation of `Test` that
enters the lifecycle with a test case (any of the four callbacks present or absent) whose
stage callbacks and deferred callbacks make no report returns, and the status sequence is
exactly the single entry (Pass, TestFinished, fatal=false). -/
theorem Test_no_report_single_pass {σ : Type} (env : Env σ) (hR : env.host.Returns)
    (tc : TestCase) (options : List TestConfig) (t : σ) (k : Nat) (r : Option runner)
    (henter : entersLifecycle env t) (hq : tc.stagesQuiet)
    (hdq : ∀ fn ∈ tc.deferStack ++ stageDefers tc, quiet fn) :
    (Test env tc options t k r).1 = Exit.returned ∧
    (Test env tc options t k r).2.td.statuses =
      [⟨StatusValue.Pass, Lifecycle.TestFinished, false⟩] := by
  obtain ⟨wP, hf, _, hT⟩ := Test_enters hR tc options t k r henter
  obtain ⟨qA, qB, qC, qD⟩ := hq
  obtain ⟨w4, e, hL, s1, s2, s3, _, _, _⟩ := lifecycle_noAbort hR tc
    ⟨noAbort_of_quiet qA, noAbort_of_quiet qB, noAbort_of_quiet qC, noAbort_of_quiet qD⟩
    (env.now k) wP
  have hst : w4.td.statuses = [] := by
    rw [s1, hf.statuses]
    simp [stageReports, reportsOf_quiet qA, reportsOf_quiet qB, reportsOf_quiet qC,
      reportsOf_quiet qD]
  have hdef : ∀ fn ∈ w4.deferStack, quiet fn := by
    rw [s3, hf.deferStack]; exact hdq
  rw [hT, hL]
  refine ⟨(finishTest_returns hR _ _ w4
    (fun fn hfn => Callback.returns_of_noAbort hR (noAbort_of_quiet (hdef fn hfn)))).1, ?_⟩
  rw [finishTest_quiet hR _ _ w4 hdef, hst]
  rfl

/-- C7. On a host whose non-aborting methods return, when neither the stage callbacks nor
the deferred callbacks of the test case abort the task, `Test` returns and the invocations
it makes are exactly: each present stage callback once, in the order Arrange, Act, Assert,
After (an absent callback is not invoked and stops nothing), and then the deferred
callbacks from the last registered to the first. -/
theorem Test_invokes_stages_in_order {σ : Type} (env : Env σ) (hR : env.host.Returns)
    (tc : TestCase) (options : List TestConfig) (t : σ) (k : Nat) (r : Option runner)
    (henter : entersLifecycle env t) (htc : tc.stagesReturn)
    (hd : ∀ fn ∈ tc.deferStack ++ stageDefers tc, noAbort fn) :
    (Test env tc options t k r).1 = Exit.returned ∧
    invocations (Test env tc options t k r).2.trace =
      stageEnters tc ++
        (List.range (tc.deferStack ++ stageDefers tc).length).reverse.map Event.deferred := by
  obtain ⟨wP, hf, _, hT⟩ := Test_enters hR tc options t k r henter
  obtain ⟨w4, e, hL, _, _, s3, ⟨x1, t1, t2⟩, _, _⟩ := lifecycle_noAbort hR tc htc (env.now k) wP
  have hdef : ∀ fn ∈ w4.deferStack, Callback.Returns env.host fn := by
    rw [s3, hf.deferStack]
    exact fun fn hfn => Callback.returns_of_noAbort hR (hd fn hfn)
  obtain ⟨f1, x2, f2, f3⟩ := finishTest_returns hR (env.now k) e w4 hdef
  rw [hT, hL]
  refine ⟨f1, ?_⟩
  rw [f2, t1, invocations_append, invocations_append, hf.no_invocations, t2, f3, s3,
    hf.deferStack]
  rfl

theorem entersLifecycle_mockT : entersLifecycle (Env.simple mockT) newMockT :=
  ⟨false, false, "", rfl, Or.inl rfl⟩

theorem entersLifecycle_goT : entersLifecycle (Env.simple goTestingT) (newGoT "T") :=
  ⟨false, false, "T", by decide, Or.inl rfl⟩

/-- C5 at a concrete input: a test case with three quiet callbacks and a quiet deferred
callback on the test double. -/
theorem Test_no_report_single_pass_witness :
    (Test (Env.simple mockT) quietCase [⟨true⟩] newMockT 0 none).1 = Exit.returned ∧
    (Test (Env.simple mockT) quietCase [⟨true⟩] newMockT 0 none).2.td.statuses =
      [⟨StatusValue.Pass, Lifecycle.TestFinished, false⟩] :=
  Test_no_report_single_pass (Env.simple mockT) mockT_returns quietCase [⟨true⟩] newMockT 0 none
    entersLifecycle_mockT
    (by simp [TestCase.stagesQuiet, quietCase, quiet, bodyOf, Stmt.reports, Method.reports,
      Method.isErrorClass, Method.isFatalClass, Method.isSkipClass])
    (by simp [quietCase, stageDefers, defersOf, bodyOf, Stmt.defers, quiet, Stmt.reports,
      Method.reports, Method.isErrorClass, Method.isFatalClass, Method.isSkipClass])

/-- C7 at a concrete input: the invocations for a test case without an Assert callback. -/
theorem Test_invokes_stages_in_order_witness :
    invocations (Test (Env.simple goTestingT) quietCase [] (newGoT "T") 0 none).2.trace =
      [Event.enter Lifecycle.Arrange, Event.enter Lifecycle.Act, Event.enter Lifecycle.After,
        Event.deferred 0] :=
  (Test_invokes_stages_in_order (Env.simple goTestingT) goTestingT_returns quietCase []
    (newGoT "T") 0 none entersLifecycle_goT
    (by simp [TestCase.stagesReturn, quietCase, noAbort, bodyOf, Stmt.aborts, Method.aborts,
      Method.isFatalClass, Method.isSkipClass])
    (by simp [quietCase, stageDefers, defersOf, bodyOf, Stmt.defers, noAbort, Stmt.aborts,
      Method.aborts, Method.isFatalClass, Method.isSkipClass])).2

theorem Method.report_error {m : Method} (hm : m.isErrorClass = true) (l : Lifecycle) :
    m.report l = [⟨StatusValue.Fail, l, false⟩] := by
  simp [Method.report, hm]

theorem Method.aborts_error {m : Method} (hm : m.isErrorClass = true) : m.aborts = false := by
  cases m <;> simp_all [Method.isErrorClass, Method.aborts, Method.isFatalClass,
    Method.isSkipClass]

theorem reportsOf_oneError {body : Callback} (hb : oneError body) (l : Lifecycle) :
    reportsOf l body = [⟨StatusValue.Fail, l, false⟩] := by
  obtain ⟨pre, m, post, rfl, hm, hpre, hpost⟩ := hb
  rw [reportsOf_append, reportsOf_quiet hpre]
  simp only [reportsOf, Stmt.report]
  rw [reportsOf_quiet hpost, Method.report_error hm]
  rfl

theorem noAbort_of_oneError {body : Callback} (hb : oneError body) : noAbort body := by
  obtain ⟨pre, m, post, rfl, hm, hpre, hpost⟩ := hb
  intro s hs
  rcases List.mem_append.1 hs with hs | hs
  · exact noAbort_of_quiet hpre s hs
  · rcases List.mem_cons.1 hs with rfl | hs
    · exact Method.aborts_error hm
    · exact noAbort_of_quiet hpost s hs

/-- The reports of a stage of a test case that reports exactly one error in each stage
of `S`. -/
theorem errorsExactlyIn_stage {S : Lifecycle → Bool} {tc : TestCase}
    (hS : errorsExactlyIn S tc) (l : Lifecycle) (hl : l ∈ stageNames) :
    noAbort (bodyOf (tc.callback l)) ∧
    reportsOf l (bodyOf (tc.callback l)) =
      if S l = true then [⟨StatusValue.Fail, l, false⟩] else [] := by
  obtain ⟨h1, h2⟩ := hS l hl
  cases hs : S l with
  | true =>
    obtain ⟨body, hb, hone⟩ := h1 hs
    rw [hb]
    exact ⟨noAbort_of_oneError hone, by simpa [bodyOf] using reportsOf_oneError hone l⟩
  | false =>
    exact ⟨noAbort_of_quiet (h2 hs), by simpa using reportsOf_quiet (h2 hs) l⟩

/-- C6 as amended. On a host whose non-aborting methods return, for every non-empty set
`S` of stages: when the callback of each stage in `S` makes exactly one Error-class report
and nothing else reports, `Test` returns, every present callback is invoked (in lifecycle
order, followed by the deferred callbacks), and the status sequence is exactly the
entries (Fail, stage, fatal=false) for the stages of `S` in lifecycle order followed by
one terminal (Fail, TestFinished, fatal=false). -/
theorem Test_error_in_each_stage_of_S {σ : Type} (env : Env σ) (hR : env.host.Returns)
    (tc : TestCase) (options : List TestConfig) (t : σ) (k : Nat) (r : Option runner)
    (henter : entersLifecycle env t) (S : Lifecycle → Bool) (hS : errorsExactlyIn S tc)
    (hne : ∃ l ∈ stageNames, S l = true)
    (hdq : ∀ fn ∈ tc.deferStack ++ stageDefers tc, quiet fn) :
    (Test env tc options t k r).1 = Exit.returned ∧
    invocations (Test env tc options t k r).2.trace =
      stageEnters tc ++
        (List.range (tc.deferStack ++ stageDefers tc).length).reverse.map Event.deferred ∧
    (Test env tc options t k r).2.td.statuses =
      (stageNames.filter S).map (fun l => ⟨StatusValue.Fail, l, false⟩) ++
        [⟨StatusValue.Fail, Lifecycle.TestFinished, false⟩] := by
  obtain ⟨nA, rA⟩ := errorsExactlyIn_stage hS Lifecycle.Arrange (by simp [stageNames])
  obtain ⟨nB, rB⟩ := errorsExactlyIn_stage hS Lifecycle.Act (by simp [stageNames])
  obtain ⟨nC, rC⟩ := errorsExactlyIn_stage hS Lifecycle.Assert (by simp [stageNames])
  obtain ⟨nD, rD⟩ := errorsExactlyIn_stage hS Lifecycle.After (by simp [stageNames])
  have htc : tc.stagesReturn := ⟨nA, nB, nC, nD⟩
  obtain ⟨wP, hf, _, hT⟩ := Test_enters hR tc options t k r henter
  obtain ⟨w4, e, hL, s1, s2, s3, ⟨x1, t1, t2⟩, _, _⟩ :=
    lifecycle_noAbort hR tc htc (env.now k) wP
  have hdef : ∀ fn ∈ w4.deferStack, quiet fn := by
    rw [s3, hf.deferStack]; exact hdq
  obtain ⟨f1, x2, f2, f3⟩ := finishTest_returns hR (env.now k) e w4
    (fun fn hfn => Callback.returns_of_noAbort hR (noAbort_of_quiet (hdef fn hfn)))
  refine ⟨by rw [hT, hL]; exact f1, ?_, ?_⟩
  · rw [hT, hL, f2, t1, invocations_append, invocations_append, hf.no_invocations, t2, f3, s3,
      hf.deferStack]
    rfl
  have hrep : stageReports tc =
      (stageNames.filter S).map (fun l => ⟨StatusValue.Fail, l, false⟩) := by
    have e1 : stageReports tc = reportsOf Lifecycle.Arrange (bodyOf (tc.callback Lifecycle.Arrange))
        ++ reportsOf Lifecycle.Act (bodyOf (tc.callback Lifecycle.Act))
        ++ reportsOf Lifecycle.Assert (bodyOf (tc.callback Lifecycle.Assert))
        ++ reportsOf Lifecycle.After (bodyOf (tc.callback Lifecycle.After)) := rfl
    rw [e1, rA, rB, rC, rD]
    simp only [stageNames, List.filter_cons, List.filter_nil]
    cases hA : S Lifecycle.Arrange <;> cases hB : S Lifecycle.Act <;>
      cases hC : S Lifecycle.Assert <;> cases hD : S Lifecycle.After <;> simp
  have hne2 : stageReports tc ≠ [] := by
    rw [hrep]
    obtain ⟨l, hl, hSl⟩ := hne
    intro h0
    have hmem : l ∈ stageNames.filter S := List.mem_filter.2 ⟨hl, hSl⟩
    have := List.map_eq_nil_iff.1 h0
    rw [this] at hmem
    exact List.not_mem_nil _ hmem
  rw [hT, hL, finishTest_quiet hR _ _ w4 hdef, s1, s2, hf.statuses, hf.fatal, List.nil_append,
    hrep]
  have : terminalStatus ((stageNames.filter S).map
      (fun l => (⟨StatusValue.Fail, l, false⟩ : Status))) false =
      ⟨StatusValue.Fail, Lifecycle.TestFinished, false⟩ := by
    rw [hrep] at hne2
    simp [terminalStatus, hne2]
    exact hne
  rw [this]

/-- C6 at a concrete input: the test double and an error in each of the four stages give
five statuses. -/
theorem Test_error_in_each_stage_of_S_witness :
    (Test (Env.simple mockT) errorInEachStage [⟨true⟩] newMockT 0 none).2.td.statuses =
      [⟨StatusValue.Fail, Lifecycle.Arrange, false⟩, ⟨StatusValue.Fail, Lifecycle.Act, false⟩,
        ⟨StatusValue.Fail, Lifecycle.Assert, false⟩, ⟨StatusValue.Fail, Lifecycle.After, false⟩,
        ⟨StatusValue.Fail, Lifecycle.TestFinished, false⟩] :=
  (Test_error_in_each_stage_of_S (Env.simple mockT) mockT_returns errorInEachStage [⟨true⟩]
    newMockT 0 none entersLifecycle_mockT (fun _ => true)
    (by
      intro l hl
      refine ⟨fun _ => ?_, fun h => by simp at h⟩
      simp only [stageNames, List.mem_cons, List.mem_singleton, List.not_mem_nil, or_false]
        at hl
      rcases hl with rfl | rfl | rfl | rfl <;>
        exact ⟨_, rfl, [], Method.Error [], [], rfl, rfl, by simp [quiet], by simp [quiet]⟩)
    ⟨Lifecycle.Arrange, by simp [stageNames], rfl⟩
    (by simp [errorInEachStage, stageDefers, defersOf, bodyOf, Stmt.defers])).2.2

/-- C6 as stated fails for the empty set of stages: with no report at all the status
sequence is the single `Pass` entry, not a terminal `Fail`. -/
theorem Test_error_empty_S_counterexample :
    errorsExactlyIn (fun _ => false) emptyCase ∧
    (Test (Env.simple mockT) emptyCase [⟨true⟩] newMockT 0 none).2.td.statuses =
      [⟨StatusValue.Pass, Lifecycle.TestFinished, false⟩] ∧
    (Test (Env.simple mockT) emptyCase [⟨true⟩] newMockT 0 none).2.td.statuses ≠
      (stageNames.filter fun _ => false).map (fun l => ⟨StatusValue.Fail, l, false⟩) ++
        [⟨StatusValue.Fail, Lifecycle.TestFinished, false⟩] := by
  refine ⟨?_, by decide, by decide⟩
  intro l hl
  refine ⟨fun h => by simp at h, fun _ => ?_⟩
  simp only [stageNames, List.mem_cons, List.mem_singleton, List.not_mem_nil, or_false] at hl
  rcases hl with rfl | rfl | rfl | rfl <;> simp [emptyCase, TestCase.callback, bodyOf, quiet]

/-! ## Stages that are aborted -/

theorem entered_append (a b : List Event) : entered (a ++ b) = entered a ++ entered b := by
  simp [entered]

theorem entered_eq_of_invocations {a b : List Event} (h : invocations a = b) :
    entered a = entered b := by
  have key : ∀ l : List Event, entered l = entered (invocations l) := by
    intro l
    induction l with
    | nil => rfl
    | cons e rest ih =>
      cases e <;> simp_all [entered, invocations, Event.isInvocation, Event.stage]
  rw [key a, h]

theorem entered_enterOf (l : Lifecycle) (fn : Option Callback) :
    entered (enterOf l fn) = presentStage l fn := by
  cases fn <;> rfl

theorem entered_deferredPhase {ext : List Event} (h : ∀ e ∈ ext, e.isDeferredPhase = true) :
    entered ext = [] := by
  simp only [entered, List.filterMap_eq_nil_iff]
  intro e he
  have := h e he
  cases e <;> simp_all [Event.isDeferredPhase, Event.stage]

/-- What a stage logs, whatever its callback does: its own invocation and nothing else
that is an invocation. -/
theorem timedRun_trace {σ : Type} (env : Env σ) (fn : Option Callback) (l : Lifecycle)
    (w : World σ) :
    ∃ ext, (timedRun env fn l w).2.trace = w.trace ++ ext ∧ invocations ext = enterOf l fn := by
  cases fn with
  | none => exact ⟨[], by rw [timedRun_none]; simp, rfl⟩
  | some body =>
    obtain ⟨ext, t1, t2⟩ := run_invocations env.host body (stageEntry l w)
    refine ⟨Event.enter l :: ext, ?_, ?_⟩
    · rw [timedRun_some]
      unfold Step.andThen
      split
      · simp [storeTiming, t1]
      · simp [t1]
    · have : invocations (Event.enter l :: ext) = Event.enter l :: invocations ext := by
        simp [invocations, Event.isInvocation]
      rw [this, t2]; rfl

/-- The stage callbacks the deferred function of `Test` invokes: After, unless the test
was skipped before Arrange completed. -/
theorem cleanup_entered {σ : Type} {env : Env σ} (hR : env.host.Returns) (tc : TestCase)
    (start : Nat) (arrangeComplete : Bool) (w : World σ) :
    ∃ ext, (cleanup env tc start arrangeComplete w).2.trace = w.trace ++ ext ∧
      entered ext = if (!env.host.Skipped w.td.T || arrangeComplete) = true
        then presentStage Lifecycle.After tc.After else [] := by
  rw [cleanup_eq hR]
  by_cases hc : (!env.host.Skipped w.td.T || arrangeComplete) = true
  · rw [if_pos hc, if_pos hc]
    obtain ⟨x1, t1, t2⟩ := timedRun_trace env tc.After Lifecycle.After (cleanupEntry env w)
    have e1 : entered x1 = presentStage Lifecycle.After tc.After := by
      rw [entered_eq_of_invocations t2, entered_enterOf]
    unfold Step.andThen
    split
    · obtain ⟨D, x2, _, _, _, t3, t4⟩ := finishTest_general env start (env.now w.clockReads)
        (tc.AfterMethod env (cleanupEntry env w)).2
      refine ⟨Event.host Method.Skipped :: (x1 ++ x2), ?_, ?_⟩
      · rw [t3]
        show (timedRun env tc.After Lifecycle.After (cleanupEntry env w)).2.trace ++ x2 = _
        rw [t1]; simp
      · have : entered (Event.host Method.Skipped :: (x1 ++ x2)) = entered x1 ++ entered x2 := by
          simp [entered, Event.stage]
        rw [this, e1, entered_deferredPhase t4, List.append_nil]
    · refine ⟨Event.host Method.Skipped :: x1, ?_, ?_⟩
      · show (timedRun env tc.After Lifecycle.After (cleanupEntry env w)).2.trace = _
        rw [t1]; simp
      · have : entered (Event.host Method.Skipped :: x1) = entered x1 := by
          simp [entered, Event.stage]
        rw [this, e1]
  · rw [if_neg hc, if_neg hc]
    obtain ⟨D, x2, _, _, _, t3, t4⟩ := finishTest_general env start (env.now w.clockReads)
      (cleanupEntry env w)
    refine ⟨Event.host Method.Skipped :: x2, ?_, ?_⟩
    · simp only [Step.andThen, Step.seq_nil]
      rw [t3]; simp
    · have : entered (Event.host Method.Skipped :: x2) = entered x2 := by
        simp [entered, Event.stage]
      rw [this, entered_deferredPhase t4]

theorem enterOf_eq_map (l : Lifecycle) (fn : Option Callback) :
    enterOf l fn = (presentStage l fn).map Event.enter := by
  cases fn <;> rfl

/-- The lifecycle when stage `X` (Arrange, Act or Assert) is aborted by statement `s` of
its callback after the statements `pre`, the stages before `X` having returned: the
deferred function runs in a state that holds the reports and deferred callbacks of the
stages before `X`, of `pre` and of `s`, with `arrangeComplete` true unless `X` is
Arrange. -/
theorem lifecycle_abort_at {σ : Type} {env : Env σ} (hR : env.host.Returns) (tc : TestCase)
    (X : Lifecycle) (hX : X.isMainStage = true) (pre post : Callback) (s : Stmt)
    (hcb : tc.callback X = some (pre ++ s :: post)) (hpre : noAbort pre)
    (hs : ∀ v : World σ, (Stmt.exec env.host s v).1 = Exit.goexit)
    (hbefore : ∀ p ∈ callbacksBefore tc X, noAbort (bodyOf p.2)) (start : Nat) (w : World σ) :
    ∃ wX, lifecycle env tc start w =
        (Exit.goexit, (cleanup env tc start (decide (X ≠ Lifecycle.Arrange)) wX).2) ∧
      wX.td.statuses = w.td.statuses ++ reportsBefore tc X ++ reportsOf X pre ++ s.report X ∧
      wX.td.fatal = (w.td.fatal || s.isFatal) ∧
      wX.deferStack = w.deferStack ++ defersBefore tc X ++ defersOf pre ++ s.defers ∧
      (∃ ext, wX.trace = w.trace ++ ext ∧
        invocations ext = (enteredBefore tc X ++ [X]).map Event.enter) ∧
      (env.host.SkippedStable → s.isSkip = false →
        env.host.Skipped wX.td.T = env.host.Skipped w.td.T) ∧
      (∃ v, wX = (Stmt.exec env.host s v).2) ∧
      (∀ l, wX.td.timings l ≠ w.td.timings l → (l, tc.callback l) ∈ callbacksBefore tc X) := by
  cases X <;> simp [Lifecycle.isMainStage] at hX
  case Arrange =>
    have hA : tc.Arrange = some (pre ++ s :: post) := hcb
    obtain ⟨a1, _, ab⟩ := timedRun_abort_at hR pre post s hpre hs Lifecycle.Arrange w
    obtain ⟨ax, a6, a7⟩ := ab.trace
    refine ⟨(timedRun env (some (pre ++ s :: post)) Lifecycle.Arrange w).2, ?_, ?_, ab.fatal, ?_,
      ⟨ax, a6, ?_⟩, ab.skipped, ab.last, ?_⟩
    · have h1 : (tc.ArrangeMethod env w).1 = Exit.goexit := by
        show (timedRun env tc.Arrange Lifecycle.Arrange w).1 = _
        rw [hA]; exact a1
      rw [lifecycle_arrange_goexit env tc start w h1]
      show (_, (cleanup env tc start false (timedRun env tc.Arrange Lifecycle.Arrange w).2).2) = _
      rw [hA]; rfl
    · rw [ab.statuses]; simp [reportsBefore, callbacksBefore]
    · rw [ab.deferStack]; simp [defersBefore, callbacksBefore]
    · rw [a7]; simp [enteredBefore, callbacksBefore]
    · intro l hl
      exact absurd (congrFun ab.timings l) hl
  case Act =>
    have hB : tc.Act = some (pre ++ s :: post) := hcb
    have hA : noAbort (bodyOf tc.Arrange) :=
      hbefore (Lifecycle.Arrange, tc.Arrange) (by simp [callbacksBefore])
    obtain ⟨a1, a2, a3, a4, a5, ⟨ax, a6, a7⟩, ⟨atm, a8, _⟩, _⟩ :=
      timedRun_noAbort hR tc.Arrange hA Lifecycle.Arrange w
    obtain ⟨b1, _, ab⟩ := timedRun_abort_at hR pre post s hpre hs Lifecycle.Act
      (timedRun env tc.Arrange Lifecycle.Arrange w).2
    obtain ⟨bx, b6, b7⟩ := ab.trace
    refine ⟨(timedRun env (some (pre ++ s :: post)) Lifecycle.Act
      (timedRun env tc.Arrange Lifecycle.Arrange w).2).2, ?_, ?_, ?_, ?_,
      ⟨ax ++ bx, ?_, ?_⟩, ?_, ab.last, ?_⟩
    · have h2 : (tc.ActMethod env (tc.ArrangeMethod env w).2).1 = Exit.goexit := by
        show (timedRun env tc.Act Lifecycle.Act (timedRun env tc.Arrange Lifecycle.Arrange w).2).1
          = _
        rw [hB]; exact b1
      rw [lifecycle_act_goexit env tc start w a1 h2]
      show (_, (cleanup env tc start true (timedRun env tc.Act Lifecycle.Act
        (timedRun env tc.Arrange Lifecycle.Arrange w).2).2).2) = _
      rw [hB]; rfl
    · rw [ab.statuses, a2]; simp [reportsBefore, callbacksBefore]
    · rw [ab.fatal, a4]
    · rw [ab.deferStack, a3]; simp [defersBefore, callbacksBefore]
    · rw [b6, a6]; simp
    · rw [invocations_append, a7, b7, enterOf_eq_map]
      simp [enteredBefore, callbacksBefore]
    · intro hK hsk
      rw [ab.skipped hK hsk, a5 hK]
    · intro l hl
      rw [ab.timings, a8] at hl
      have : l = Lifecycle.Arrange := by
        by_contra hne
        exact hl (by simp [mapSet, hne])
      subst this
      simp [callbacksBefore, TestCase.callback]
  case Assert =>
    have hC : tc.Assert = some (pre ++ s :: post) := hcb
    have hA : noAbort (bodyOf tc.Arrange) :=
      hbefore (Lifecycle.Arrange, tc.Arrange) (by simp [callbacksBefore])
    have hB : noAbort (bodyOf tc.Act) :=
      hbefore (Lifecycle.Act, tc.Act) (by simp [callbacksBefore])
    obtain ⟨a1, a2, a3, a4, a5, ⟨ax, a6, a7⟩, ⟨atm, a8, _⟩, _⟩ :=
      timedRun_noAbort hR tc.Arrange hA Lifecycle.Arrange w
    obtain ⟨b1, b2, b3, b4, b5, ⟨bx, b6, b7⟩, ⟨btm, b8, _⟩, _⟩ :=
      timedRun_noAbort hR tc.Act hB Lifecycle.Act (timedRun env tc.Arrange Lifecycle.Arrange w).2
    obtain ⟨c1, _, ab⟩ := timedRun_abort_at hR pre post s hpre hs Lifecycle.Assert
      (timedRun env tc.Act Lifecycle.Act (timedRun env tc.Arrange Lifecycle.Arrange w).2).2
    obtain ⟨cx, c6, c7⟩ := ab.trace
    refine ⟨(timedRun env (some (pre ++ s :: post)) Lifecycle.Assert
      (timedRun env tc.Act Lifecycle.Act (timedRun env tc.Arrange Lifecycle.Arrange w).2).2).2,
      ?_, ?_, ?_, ?_, ⟨ax ++ bx ++ cx, ?_, ?_⟩, ?_, ab.last, ?_⟩
    · have h3 : (tc.AssertMethod env (tc.ActMethod env (tc.ArrangeMethod env w).2).2).1 =
          Exit.goexit := by
        show (timedRun env tc.Assert Lifecycle.Assert (timedRun env tc.Act Lifecycle.Act
          (timedRun env tc.Arrange Lifecycle.Arrange w).2).2).1 = _
        rw [hC]; exact c1
      rw [lifecycle_assert_goexit env tc start w a1 b1 h3]
      show (_, (cleanup env tc start true (timedRun env tc.Assert Lifecycle.Assert
        (timedRun env tc.Act Lifecycle.Act
          (timedRun env tc.Arrange Lifecycle.Arrange w).2).2).2).2) = _
      rw [hC]; rfl
    · rw [ab.statuses, b2, a2]; simp [reportsBefore, callbacksBefore]
    · rw [ab.fatal, b4, a4]
    · rw [ab.deferStack, b3, a3]; simp [defersBefore, callbacksBefore]
    · rw [c6, b6, a6]; simp
    · rw [invocations_append, invocations_append, a7, b7, c7, enterOf_eq_map, enterOf_eq_map]
      simp [enteredBefore, callbacksBefore]
    · intro hK hsk
      rw [ab.skipped hK hsk, b5 hK, a5 hK]
    · intro l hl
      rw [ab.timings, b8, a8] at hl
      have : l = Lifecycle.Arrange ∨ l = Lifecycle.Act := by
        by_contra hne
        rw [not_or] at hne
        exact hl (by simp [mapSet, hne.1, hne.2])
      rcases this with rfl | rfl <;> simp [callbacksBefore, TestCase.callback]

theorem entered_map_enter (L : List Lifecycle) : entered (L.map Event.enter) = L := by
  induction L with
  | nil => rfl
  | cons l rest ih => simpa [entered, Event.stage] using ih

theorem Fresh.no_entered {σ : Type} {env : Env σ} {tc : TestCase} {t : σ} {w : World σ}
    (hf : Fresh env tc t w) : entered w.trace = [] :=
  entered_eq_of_invocations hf.no_invocations

/-- The lifecycle depends on the callback of a stage only through what `timedRun` does
with it. -/
theorem lifecycle_congr {σ : Type} (env : Env σ) (tc : TestCase) (X : Lifecycle)
    (f1 f2 : Option Callback) (h : timedRun env f1 X = timedRun env f2 X) (start : Nat) :
    lifecycle env (tc.withCallback X f1) start = lifecycle env (tc.withCallback X f2) start := by
  funext w
  cases X <;>
    simp only [lifecycle, runStages, cleanup, TestCase.ArrangeMethod, TestCase.ActMethod,
      TestCase.AssertMethod, TestCase.AfterMethod, TestCase.withCallback, h]

theorem Test_congr {σ : Type} (env : Env σ) (tc : TestCase) (X : Lifecycle)
    (f1 f2 : Option Callback) (h : timedRun env f1 X = timedRun env f2 X)
    (options : List TestConfig) (t : σ) (k : Nat) (r : Option runner) :
    Test env (tc.withCallback X f1) options t k r =
      Test env (tc.withCallback X f2) options t k r := by
  have hi : World.init (tc.withCallback X f1) t k r = World.init (tc.withCallback X f2) t k r := by
    cases X <;> rfl
  simp only [Test, hi, lifecycle_congr env tc X f1 f2 h]

theorem TestCase.withCallback_self (tc : TestCase) (X : Lifecycle) (hX : X.isStage = true) :
    tc.withCallback X (tc.callback X) = tc := by
  cases X <;> simp [Lifecycle.isStage] at hX <;> rfl

/-- The deferred function when After runs, After does not report and the deferred
callbacks do not report: exactly the final status is appended. -/
theorem cleanup_quiet {σ : Type} {env : Env σ} (hR : env.host.Returns) (tc : TestCase)
    (start : Nat) (arrangeComplete : Bool) (w : World σ)
    (hc : (!env.host.Skipped w.td.T || arrangeComplete) = true)
    (hq : quiet (bodyOf tc.After))
    (hdq : ∀ fn ∈ w.deferStack ++ defersOf (bodyOf tc.After), quiet fn) :
    (cleanup env tc start arrangeComplete w).2.td.statuses =
      w.td.statuses ++ [terminalStatus w.td.statuses w.td.fatal] := by
  obtain ⟨d1, d2, d3, d4, _⟩ := timedRun_noAbort hR tc.After (noAbort_of_quiet hq)
    Lifecycle.After (cleanupEntry env w)
  rw [cleanup_eq hR, if_pos hc]
  show (Step.andThen (timedRun env tc.After Lifecycle.After) _ _).2.td.statuses = _
  rw [Step.andThen_returned _ d1, finishTest_quiet hR _ _ _ (by rw [d3]; exact hdq), d2, d4,
    reportsOf_quiet hq]
  simp

theorem flatten_quiet_reports (L : List (Lifecycle × Option Callback))
    (hq : ∀ p ∈ L, quiet (bodyOf p.2)) :
    (L.map fun p => reportsOf p.1 (bodyOf p.2)).flatten = [] := by
  induction L with
  | nil => rfl
  | cons p rest ih =>
    simp only [List.map_cons, List.flatten_cons]
    rw [reportsOf_quiet (hq p (List.mem_cons_self _ _)),
      ih (fun q hq2 => hq q (List.mem_cons_of_mem _ hq2))]
    rfl

/-- C1. On a host whose Fatal-class calls abort the running task (whose other non-Skip
methods return and do not change `Skipped()`, and which is not skipped at the start): when
the callback of a stage X among Arrange, Act, Assert makes a Fatal-class report after
statements `pre` that do not abort, the stages before X having returned, then the task is
aborted, nothing of X after the report is executed (the run is the same as with the
callback cut after the report), the callbacks invoked are exactly those of the present
stages up to X and then After, and, if nothing else reports, the status sequence is
exactly [(Fail, X, fatal=true), (Fail, TestFinished, fatal=true)]. -/
theorem Test_fatal_aborts_stage {σ : Type} (env : Env σ) (hR : env.host.Returns)
    (hF : env.host.FatalAborts) (hK : env.host.SkippedStable) (tc : TestCase)
    (options : List TestConfig) (t : σ) (k : Nat) (r : Option runner)
    (henter : entersLifecycle env t) (hsk : env.host.Skipped t = false)
    (X : Lifecycle) (hX : X.isMainStage = true) (pre post : Callback) (m : Method)
    (hm : m.isFatalClass = true) (hcb : tc.callback X = some (pre ++ Stmt.call m :: post))
    (hpre : noAbort pre) (hbefore : ∀ p ∈ callbacksBefore tc X, noAbort (bodyOf p.2)) :
    (Test env tc options t k r).1 = Exit.goexit ∧
    Test env tc options t k r =
      Test env (tc.withCallback X (some (pre ++ [Stmt.call m]))) options t k r ∧
    entered (Test env tc options t k r).2.trace =
      enteredBefore tc X ++ [X] ++ presentStage Lifecycle.After tc.After ∧
    ((∀ p ∈ callbacksBefore tc X, quiet (bodyOf p.2)) → quiet pre → quiet (bodyOf tc.After) →
      (∀ fn ∈ tc.deferStack ++ defersBefore tc X ++ defersOf pre ++ defersOf (bodyOf tc.After),
        quiet fn) →
      (Test env tc options t k r).2.td.statuses =
        [⟨StatusValue.Fail, X, true⟩, ⟨StatusValue.Fail, Lifecycle.TestFinished, true⟩]) := by
  have hs : ∀ v : World σ, (Stmt.exec env.host (Stmt.call m) v).1 = Exit.goexit :=
    fun v => Stmt.exec_fatal_goexit hR hF (Stmt.call m) hm v
  have hnotskip : (Stmt.call m).isSkip = false := by
    cases m <;> simp_all [Stmt.isSkip, Method.isSkipClass, Method.isFatalClass]
  obtain ⟨wP, hf, _, hT⟩ := Test_enters hR tc options t k r henter
  obtain ⟨wX, hL, x1, x2, x3, ⟨ext, x4, x5⟩, x6, _, _⟩ :=
    lifecycle_abort_at hR tc X hX pre post (Stmt.call m) hcb hpre hs hbefore (env.now k) wP
  have hskX : env.host.Skipped wX.td.T = false := by
    rw [x6 hK hnotskip, hf.skipped hK, hsk]
  have hcond : (!env.host.Skipped wX.td.T || decide (X ≠ Lifecycle.Arrange)) = true := by
    simp [hskX]
  refine ⟨by rw [hT, hL], ?_, ?_, ?_⟩
  · have hstage : X.isStage = true := by
      cases X <;> simp_all [Lifecycle.isMainStage, Lifecycle.isStage]
    have hcut : timedRun env (some (pre ++ Stmt.call m :: post)) X =
        timedRun env (some (pre ++ [Stmt.call m])) X :=
      funext fun v => (timedRun_abort_at hR pre post (Stmt.call m) hpre hs X v).2.1
    have := Test_congr env tc X _ _ hcut options t k r
    rwa [← hcb, TestCase.withCallback_self tc X hstage] at this
  · obtain ⟨e2, c1, c2⟩ := cleanup_entered hR tc (env.now k) (decide (X ≠ Lifecycle.Arrange)) wX
    rw [hT, hL]
    show entered (cleanup env tc (env.now k) (decide (X ≠ Lifecycle.Arrange)) wX).2.trace = _
    rw [c1, x4, entered_append, entered_append, hf.no_entered, c2, if_pos hcond,
      entered_eq_of_invocations x5, entered_map_enter]
    rfl
  · intro hqb hqpre hqafter hqd
    have hst : wX.td.statuses = [⟨StatusValue.Fail, X, true⟩] := by
      have hrb : reportsBefore tc X = [] := flatten_quiet_reports _ hqb
      rw [x1, hf.statuses, hrb, reportsOf_quiet hqpre]
      simp [Stmt.report, Method.report, hm]
      cases m <;> simp_all [Method.isErrorClass, Method.isFatalClass]
    have hfat : wX.td.fatal = true := by
      rw [x2]; simp [Stmt.isFatal, hm]
    have hdq : ∀ fn ∈ wX.deferStack ++ defersOf (bodyOf tc.After), quiet fn := by
      rw [x3, hf.deferStack]
      simpa [Stmt.defers] using hqd
    rw [hT, hL]
    show (cleanup env tc (env.now k) (decide (X ≠ Lifecycle.Arrange)) wX).2.td.statuses = _
    rw [cleanup_quiet hR tc _ _ wX hcond hqafter hdq, hst, hfat]
    rfl

/-- C1 at a concrete input: two Fatal calls in a row in Arrange on the standard host
record only the first, Act is not invoked and After is. -/
theorem Test_fatal_aborts_stage_witness :
    (Test (Env.simple goTestingT) arrangeMultiFatal [] (newGoT "T") 0 none).1 = Exit.goexit ∧
    entered (Test (Env.simple goTestingT) arrangeMultiFatal [] (newGoT "T") 0 none).2.trace =
      [Lifecycle.Arrange, Lifecycle.After] ∧
    (Test (Env.simple goTestingT) arrangeMultiFatal [] (newGoT "T") 0 none).2.td.statuses =
      [⟨StatusValue.Fail, Lifecycle.Arrange, true⟩,
        ⟨StatusValue.Fail, Lifecycle.TestFinished, true⟩] :=
  have h := Test_fatal_aborts_stage (Env.simple goTestingT) goTestingT_returns
    goTestingT_fatalAborts goTestingT_skippedStable arrangeMultiFatal [] (newGoT "T") 0 none
    entersLifecycle_goT rfl Lifecycle.Arrange rfl []
    [Stmt.call (Method.Fatalf "basic arrange example fatal 2" [])]
    (Method.Fatalf "basic arrange example fatal 1" []) rfl rfl (by simp [noAbort])
    (by simp [callbacksBefore])
  ⟨h.1, h.2.2.1,
    h.2.2.2 (by simp [callbacksBefore]) (by simp [quiet])
      (by simp [arrangeMultiFatal, bodyOf, quiet, Stmt.reports])
      (by simp [arrangeMultiFatal, bodyOf, defersBefore, callbacksBefore, defersOf,
        Stmt.defers])⟩

/-- C2. On a host whose Skip-class calls abort the task and make `Skipped()` true (and
whose non-aborting methods return): when the callback of a stage X among Arrange, Act,
Assert reports a skip after statements `pre` that do not abort, the stages before X having
returned, the task is aborted and the stage callbacks invoked are exactly those of the
present stages up to X, followed by After unless X is Arrange.  For a skip in Arrange, Act,
Assert and After are thus never invoked, and the deferred function still calls every
callback registered with `Defer` before the skip point (those of the test case and those
registered by `pre`), last registered first, when these callbacks return. -/
theorem Test_skip_aborts_stage {σ : Type} (env : Env σ) (hR : env.host.Returns)
    (hS : env.host.SkipAborts) (tc : TestCase) (options : List TestConfig) (t : σ) (k : Nat)
    (r : Option runner) (henter : entersLifecycle env t)
    (X : Lifecycle) (hX : X.isMainStage = true) (pre post : Callback) (m : Method)
    (hm : m.isSkipClass = true) (hcb : tc.callback X = some (pre ++ Stmt.call m :: post))
    (hpre : noAbort pre) (hbefore : ∀ p ∈ callbacksBefore tc X, noAbort (bodyOf p.2)) :
    (Test env tc options t k r).1 = Exit.goexit ∧
    entered (Test env tc options t k r).2.trace =
      enteredBefore tc X ++ [X] ++
        (if X = Lifecycle.Arrange then [] else presentStage Lifecycle.After tc.After) ∧
    (X = Lifecycle.Arrange → (∀ fn ∈ tc.deferStack ++ defersOf pre, noAbort fn) →
      invocations (Test env tc options t k r).2.trace =
        Event.enter Lifecycle.Arrange ::
          (List.range (tc.deferStack ++ defersOf pre).length).reverse.map Event.deferred) := by
  have hs : ∀ v : World σ, (Stmt.exec env.host (Stmt.call m) v).1 = Exit.goexit :=
    fun v => (Stmt.exec_skip_goexit hS (Stmt.call m) hm v).1
  obtain ⟨wP, hf, _, hT⟩ := Test_enters hR tc options t k r henter
  obtain ⟨wX, hL, _, _, x3, ⟨ext, x4, x5⟩, _, ⟨v, x7⟩, _⟩ :=
    lifecycle_abort_at hR tc X hX pre post (Stmt.call m) hcb hpre hs hbefore (env.now k) wP
  have hskX : env.host.Skipped wX.td.T = true := by
    rw [x7]; exact (Stmt.exec_skip_goexit hS (Stmt.call m) hm v).2
  refine ⟨by rw [hT, hL], ?_, ?_⟩
  · obtain ⟨e2, c1, c2⟩ := cleanup_entered hR tc (env.now k) (decide (X ≠ Lifecycle.Arrange)) wX
    rw [hT, hL]
    show entered (cleanup env tc (env.now k) (decide (X ≠ Lifecycle.Arrange)) wX).2.trace = _
    rw [c1, x4, entered_append, entered_append, hf.no_entered, c2,
      entered_eq_of_invocations x5, entered_map_enter, hskX]
    by_cases hXA : X = Lifecycle.Arrange <;> simp [hXA]
  · intro hXA hd
    subst hXA
    have hdef : ∀ fn ∈ (cleanupEntry env wX).deferStack, Callback.Returns env.host fn := by
      rw [cleanupEntry_deferStack, x3, hf.deferStack]
      intro fn hfn
      refine Callback.returns_of_noAbort hR (hd fn ?_)
      simpa [defersBefore, callbacksBefore, Stmt.defers] using hfn
    obtain ⟨_, e3, f2, f3⟩ := finishTest_returns hR (env.now k) (env.now wX.clockReads)
      (cleanupEntry env wX) hdef
    have hcl : (cleanup env tc (env.now k) false wX).2 =
        (finishTest env (env.now k) (env.now wX.clockReads) (cleanupEntry env wX)).2 := by
      rw [cleanup_eq hR, hskX]
      rfl
    rw [hT, hL]
    show invocations (cleanup env tc (env.now k) false wX).2.trace = _
    rw [hcl, f2, cleanupEntry_trace, x4, invocations_append, invocations_append,
      invocations_append, hf.no_invocations, x5, f3, cleanupEntry_deferStack, x3,
      hf.deferStack]
    simp [enteredBefore, callbacksBefore, defersBefore, Stmt.defers, invocations_host]

/-- C2 at a concrete input: a skip in Arrange on the standard host. -/
theorem Test_skip_aborts_stage_witness :
    entered (Test (Env.simple goTestingT) arrangeSkipNow [] (newGoT "T") 0 none).2.trace =
      [Lifecycle.Arrange] ∧
    invocations (Test (Env.simple goTestingT) arrangeSkipNow [] (newGoT "T") 0 none).2.trace =
      [Event.enter Lifecycle.Arrange, Event.deferred 0] :=
  have h := Test_skip_aborts_stage (Env.simple goTestingT) goTestingT_returns
    goTestingT_skipAborts arrangeSkipNow [] (newGoT "T") 0 none entersLifecycle_goT
    Lifecycle.Arrange rfl [Stmt.Defer [Stmt.call (Method.Log ["skip now defer message 1"])]]
    [Stmt.Defer [Stmt.call (Method.Log ["skip now defer message 2"])]] Method.SkipNow rfl rfl
    (by simp [noAbort, Stmt.aborts]) (by simp [callbacksBefore])
  ⟨h.2.1, h.2.2 rfl (by simp [arrangeSkipNow, defersOf, Stmt.defers, noAbort, Stmt.aborts,
    Method.aborts, Method.isFatalClass, Method.isSkipClass])⟩

/-! ## Invariants of the lifecycle, for arbitrary callbacks -/

theorem any_stageFatal_host {ext : List Event} (h : ∀ e ∈ ext, ∃ m, e = Event.host m) :
    ext.any Event.isStageFatal = false := by
  rw [List.any_eq_false]
  intro e he
  obtain ⟨m, rfl⟩ := h e he
  simp [Event.isStageFatal]

/-- On a host whose `Helper` method returns, a statement executed during a stage keeps
the fatal flag equal to "a Fatal-class report was logged during a stage". -/
theorem Stmt.exec_fatalLogged {σ : Type} {h : TestingT σ} (hR : h.Returns) (s : Stmt)
    (w : World σ) (hcur : w.td.currentLifecycle ≠ Lifecycle.TestFinished)
    (hw : FatalLogged w) : FatalLogged (Stmt.exec h s w).2 := by
  have e3 := (Stmt.exec_effect hR s w).2.2
  unfold FatalLogged at hw ⊢
  rw [e3, hw]
  clear e3
  cases s
  case Defer fn => simp [Stmt.exec, DefaultDeferrer.Defer, Stmt.isFatal]
  case other n => simp [Stmt.exec, logEvent, Stmt.isFatal, Event.isStageFatal]
  case call m =>
    obtain ⟨ext, t1, t2⟩ := (TD.invoke_adds (P := fun _ e => ∃ m, e = Event.host m)
      (fun _ m => ⟨m, rfl⟩) h m
      { w with trace := w.trace ++ [Event.call w.td.currentLifecycle m] }).trace
    show _ = List.any (TD.invoke h m
      { w with trace := w.trace ++ [Event.call w.td.currentLifecycle m] }).2.trace _
    rw [t1]
    simp [List.any_append, any_stageFatal_host t2, Event.isStageFatal, Stmt.isFatal, hcur]

/-- A callback run during a stage keeps the fatal flag equal to "a Fatal-class report was
logged during a stage", however it ends. -/
theorem run_fatalLogged {σ : Type} {h : TestingT σ} (hR : h.Returns) (body : Callback)
    (w : World σ) (hcur : w.td.currentLifecycle ≠ Lifecycle.TestFinished)
    (hw : FatalLogged w) : FatalLogged (run h body w).2 := by
  induction body generalizing w with
  | nil => exact hw
  | cons s rest ih =>
    have h1 := Stmt.exec_fatalLogged hR s w hcur hw
    rw [run_cons]
    unfold Step.andThen
    split
    · exact ih _ (by rw [(Stmt.exec_local h s w).lifecycle]; exact hcur) h1
    · exact h1

theorem Lifecycle.ne_finished_of_stage {l : Lifecycle} (hl : l.isStage = true) :
    l ≠ Lifecycle.TestFinished := by
  cases l <;> simp_all [Lifecycle.isStage]

/-- A stage keeps the three invariants, however its callback ends. -/
theorem timedRun_invariants {σ : Type} {env : Env σ} (hR : env.host.Returns) (tc : TestCase)
    (l : Lifecycle) (hl : l.isStage = true) (w : World σ) :
    (FatalLogged w → FatalLogged (timedRun env (tc.callback l) l w).2) ∧
    (StageStatuses w → StageStatuses (timedRun env (tc.callback l) l w).2) ∧
    (TimingsOK tc w.td.timings → TimingsOK tc (timedRun env (tc.callback l) l w).2.td.timings) := by
  cases hfn : tc.callback l with
  | none =>
    rw [timedRun_none]
    refine ⟨fun h => h, fun h => h, fun h => ?_⟩
    intro l2 tm htm
    by_cases h2 : l2 = l
    · subst h2
      simp only [mapSet, if_true] at htm
      cases htm
      exact ⟨hl, rfl, by simp [hfn], by simp [hfn]⟩
    · simp only [mapSet, if_neg h2] at htm
      exact h l2 tm htm
  | some body =>
    have g := run_local env.host body (stageEntry l w)
    rw [timedRun_some]
    have hF : FatalLogged w → FatalLogged (run env.host body (stageEntry l w)).2 := by
      intro hw
      refine run_fatalLogged hR body (stageEntry l w) (Lifecycle.ne_finished_of_stage hl) ?_
      unfold FatalLogged at hw ⊢
      simp [hw, List.any_append, Event.isStageFatal]
    have hS : StageStatuses w → StageStatuses (run env.host body (stageEntry l w)).2 := by
      intro hw s hs
      obtain ⟨ext, e1, e2, _⟩ := g.statuses
      rw [e1] at hs
      rcases List.mem_append.1 hs with hs | hs
      · exact hw s hs
      · rw [(e2 s hs).1]; exact hl
    have hT : (run env.host body (stageEntry l w)).2.td.timings = w.td.timings := g.timings
    unfold Step.andThen
    split
    · refine ⟨fun hw => hF hw, fun hw => hS hw, fun hw => ?_⟩
      intro l2 tm htm
      simp only [storeTiming, Step.ret_apply, hT] at htm
      by_cases h2 : l2 = l
      · subst h2
        simp only [mapSet, if_true] at htm
        cases htm
        exact ⟨hl, rfl, by simp [hfn], by simp [hfn]⟩
      · simp only [mapSet, if_neg h2] at htm
        exact hw l2 tm htm
    · exact ⟨fun hw => hF hw, fun hw => hS hw, fun hw => by rw [hT]; exact hw⟩

/-- The state in which the stages of `Test` end satisfies every property that the stages
preserve. -/
theorem runStages_invariant {σ : Type} (env : Env σ) (tc : TestCase) (I : World σ → Prop)
    (hstage : ∀ l v, l.isStage = true → I v → I (timedRun env (tc.callback l) l v).2)
    (w : World σ) (hw : I w) : I (runStages env tc w).2.2 := by
  have hA : I (tc.ArrangeMethod env w).2 := hstage Lifecycle.Arrange w rfl hw
  have hB : I (tc.ActMethod env (tc.ArrangeMethod env w).2).2 :=
    hstage Lifecycle.Act _ rfl hA
  have hC : I (tc.AssertMethod env (tc.ActMethod env (tc.ArrangeMethod env w).2).2).2 :=
    hstage Lifecycle.Assert _ rfl hB
  unfold runStages
  split
  · exact hA
  · simp only [Step.seq_cons]
    unfold Step.andThen
    split
    · rw [Step.seq_singleton]; exact hC
    · exact hB

/-- Where the lifecycle ends, for arbitrary callbacks: either the After stage is aborted
and the rest of the deferred function is not executed, or the end of the test runs in the
state left by the stages; this state satisfies every property that the stages and the
call of `Skipped` preserve. -/
theorem lifecycle_cases {σ : Type} {env : Env σ} (hR : env.host.Returns) (tc : TestCase)
    (start : Nat) (I : World σ → Prop)
    (hstage : ∀ l v, l.isStage = true → I v → I (timedRun env (tc.callback l) l v).2)
    (hentry : ∀ v, I v → I (cleanupEntry env v)) (w : World σ) (hw : I w) :
    ∃ w4, I w4 ∧
      ((∃ e, (lifecycle env tc start w).2 = (finishTest env start e w4).2) ∨
        ((lifecycle env tc start w).2 = w4 ∧ ∃ v, (tc.AfterMethod env v).1 = Exit.goexit)) := by
  have hS := runStages_invariant env tc I hstage w hw
  have hE := hentry _ hS
  have hl : (lifecycle env tc start w).2 =
      (cleanup env tc start (runStages env tc w).2.1 (runStages env tc w).2.2).2 := rfl
  rw [hl, cleanup_eq hR]
  split
  · cases hx : (tc.AfterMethod env (cleanupEntry env (runStages env tc w).2.2)).1 with
    | returned =>
      rw [Step.andThen_returned _ hx]
      exact ⟨_, hstage Lifecycle.After _ rfl hE, Or.inl ⟨_, rfl⟩⟩
    | goexit =>
      rw [Step.andThen_goexit _ hx]
      exact ⟨_, hstage Lifecycle.After _ rfl hE, Or.inr ⟨rfl, _, hx⟩⟩
  · exact ⟨_, hE, Or.inl ⟨_, rfl⟩⟩

/-! ## Claims about every invocation -/

theorem Fresh.fatalLogged {σ : Type} {env : Env σ} {tc : TestCase} {t : σ} {w : World σ}
    (hf : Fresh env tc t w) : FatalLogged w := by
  unfold FatalLogged
  rw [hf.fatal, any_stageFatal_host hf.trace]

theorem terminalStatus_spec (S : List Status) (f : Bool) :
    (terminalStatus S f).Lifecycle = Lifecycle.TestFinished ∧
    ((terminalStatus S f).Status = StatusValue.Pass ↔ S = []) ∧
    (terminalStatus S f = ⟨StatusValue.Pass, Lifecycle.TestFinished, false⟩ ↔ S = []) ∧
    (S ≠ [] → (terminalStatus S f).Status = StatusValue.Fail ∧ (terminalStatus S f).Fatal = f) := by
  unfold terminalStatus
  cases S <;> simp

/-- C8 as amended. On a host whose non-aborting methods return, after every invocation of
`Test` that enters the lifecycle and in which the After stage returns when it is run, the
status sequence is non-empty, its last entry carries `TestFinished`, and that last entry is
`Pass` iff it is the only entry. -/
theorem Test_statuses_end_with_TestFinished {σ : Type} (env : Env σ) (hR : env.host.Returns)
    (tc : TestCase) (options : List TestConfig) (t : σ) (k : Nat) (r : Option runner)
    (henter : entersLifecycle env t)
    (hAfter : ∀ v : World σ, (tc.AfterMethod env v).1 = Exit.returned) :
    ∃ last, (Test env tc options t k r).2.td.statuses.getLast? = some last ∧
      last.Lifecycle = Lifecycle.TestFinished ∧
      (last.Status = StatusValue.Pass ↔ (Test env tc options t k r).2.td.statuses.length = 1) := by
  obtain ⟨wP, _, _, hT⟩ := Test_enters hR tc options t k r henter
  obtain ⟨w4, _, hcase⟩ := lifecycle_cases hR tc (env.now k) (fun _ => True)
    (fun _ _ _ _ => trivial) (fun _ _ => trivial) wP trivial
  rcases hcase with ⟨e, he⟩ | ⟨_, v, hv⟩
  · obtain ⟨D, _, d1, d2, _⟩ := finishTest_general env (env.now k) e w4
    obtain ⟨t1, t2, _, _⟩ := terminalStatus_spec w4.td.statuses w4.td.fatal
    rw [hT, he, d1]
    rcases List.eq_nil_or_concat D with rfl | ⟨D2, d, rfl⟩
    · refine ⟨terminalStatus w4.td.statuses w4.td.fatal, by simp, t1, ?_⟩
      rw [t2]
      simp
    · have hrw : w4.td.statuses ++ terminalStatus w4.td.statuses w4.td.fatal :: D2.concat d =
          (w4.td.statuses ++ terminalStatus w4.td.statuses w4.td.fatal :: D2) ++ [d] := by
        simp
      rw [hrw]
      refine ⟨d, List.getLast?_concat _, (d2 d (by simp)).1, ?_⟩
      have hne := (d2 d (by simp)).2
      constructor
      · intro hp
        exact absurd hp hne
      · intro hlen
        simp only [List.length_append, List.length_cons, List.length_singleton,
          List.length_nil] at hlen
        omega
  · rw [hAfter v] at hv
    cases hv

/-- C8 at a concrete input: a test case whose After callback does not report, on the
standard host. -/
theorem Test_statuses_end_with_TestFinished_witness :
    ∃ last, (Test (Env.simple goTestingT) quietCase [] (newGoT "T") 0 none).2.td.statuses.getLast?
        = some last ∧ last.Lifecycle = Lifecycle.TestFinished ∧
      (last.Status = StatusValue.Pass ↔
        (Test (Env.simple goTestingT) quietCase [] (newGoT "T") 0 none).2.td.statuses.length = 1) :=
  Test_statuses_end_with_TestFinished (Env.simple goTestingT) goTestingT_returns quietCase []
    (newGoT "T") 0 none entersLifecycle_goT (fun _ => rfl)

/-- C8 as stated fails for a tagged host name whose pattern does not match: `Test` returns
before the lifecycle and the status sequence is empty. -/
theorem Test_tagged_unmatched_counterexample :
    (Test Env.literal emptyCase [] (newGoT taggedTestA) 0 none).1 = Exit.returned ∧
    (Test Env.literal emptyCase [] (newGoT taggedTestA) 0 none).2.td.statuses = [] := by
  decide

/-- C4 as amended. On a host whose non-aborting methods return, for every invocation of
`Test` that enters the lifecycle and in which the After stage returns when it is run: the
status sequence is the statuses `S` recorded during Arrange, Act, Assert and After, then
the terminal status, then the statuses `D` recorded by deferred callbacks; the terminal
status carries `TestFinished`, it is (Pass, fatal=false) iff `S` is empty, and otherwise it
is `Fail` with `Fatal` true iff a Fatal-class report was made during one of the stages,
that is, before the terminal status was appended. -/
theorem Test_terminal_status {σ : Type} (env : Env σ) (hR : env.host.Returns)
    (tc : TestCase) (options : List TestConfig) (t : σ) (k : Nat) (r : Option runner)
    (henter : entersLifecycle env t)
    (hAfter : ∀ v : World σ, (tc.AfterMethod env v).1 = Exit.returned) :
    ∃ S term D, (Test env tc options t k r).2.td.statuses = S ++ term :: D ∧
      (∀ s ∈ S, s.Lifecycle.isStage = true) ∧
      (∀ d ∈ D, d.Lifecycle = Lifecycle.TestFinished ∧ d.Status ≠ StatusValue.Pass) ∧
      term.Lifecycle = Lifecycle.TestFinished ∧
      (term = ⟨StatusValue.Pass, Lifecycle.TestFinished, false⟩ ↔ S = []) ∧
      (S ≠ [] → term.Status = StatusValue.Fail ∧
        (term.Fatal = true ↔
          ∃ e ∈ (Test env tc options t k r).2.trace, e.isStageFatal = true)) := by
  obtain ⟨wP, hf, _, hT⟩ := Test_enters hR tc options t k r henter
  obtain ⟨w4, ⟨hF, hS⟩, hcase⟩ := lifecycle_cases hR tc (env.now k)
    (fun v => FatalLogged v ∧ StageStatuses v)
    (fun l v hl hv => ⟨(timedRun_invariants hR tc l hl v).1 hv.1,
      (timedRun_invariants hR tc l hl v).2.1 hv.2⟩)
    (fun v hv => ⟨by
      have := hv.1
      unfold FatalLogged at this ⊢
      simp [this, List.any_append, Event.isStageFatal], hv.2⟩)
    wP ⟨hf.fatalLogged, by intro s hs; rw [hf.statuses] at hs; cases hs⟩
  rcases hcase with ⟨e, he⟩ | ⟨_, v, hv⟩
  · obtain ⟨D, ext, d1, d2, _, d4, d5⟩ := finishTest_general env (env.now k) e w4
    obtain ⟨t1, _, t3, t4⟩ := terminalStatus_spec w4.td.statuses w4.td.fatal
    refine ⟨w4.td.statuses, terminalStatus w4.td.statuses w4.td.fatal, D, by rw [hT, he, d1],
      hS, d2, t1, t3, ?_⟩
    intro hne
    refine ⟨(t4 hne).1, ?_⟩
    have hext : ext.any Event.isStageFatal = false := by
      rw [List.any_eq_false]
      intro x hx
      have := d5 x hx
      cases x <;> simp_all [Event.isDeferredPhase, Event.isStageFatal]
    rw [(t4 hne).2, hT, he, d4, hF, List.any_eq_true]
    rw [List.any_eq_false] at hext
    constructor
    · rintro ⟨x, hx, hx2⟩
      exact ⟨x, List.mem_append_left _ hx, hx2⟩
    · rintro ⟨x, hx, hx2⟩
      rcases List.mem_append.1 hx with hx | hx
      · exact ⟨x, hx, hx2⟩
      · exact absurd hx2 (hext x hx)
  · rw [hAfter v] at hv
    cases hv

/-- C4 at a concrete input: an `Error` followed by a `Fatal` in Act on the standard host
gives a terminal (Fail, TestFinished, fatal=true), the one the decomposition singles out. -/
theorem Test_terminal_status_witness :
    (Test (Env.simple goTestingT)
      ⟨none, some [Stmt.call (Method.Error []), Stmt.call (Method.Fatal [])], none, none, []⟩
      [] (newGoT "T") 0 none).2.td.statuses =
      [⟨StatusValue.Fail, Lifecycle.Act, false⟩, ⟨StatusValue.Fail, Lifecycle.Act, true⟩,
        ⟨StatusValue.Fail, Lifecycle.TestFinished, true⟩] ∧
    ∃ S term D,
      (Test (Env.simple goTestingT)
        ⟨none, some [Stmt.call (Method.Error []), Stmt.call (Method.Fatal [])], none, none, []⟩
        [] (newGoT "T") 0 none).2.td.statuses = S ++ term :: D ∧
      (∀ s ∈ S, s.Lifecycle.isStage = true) ∧
      term.Lifecycle = Lifecycle.TestFinished :=
  have h := Test_terminal_status (Env.simple goTestingT) goTestingT_returns
    ⟨none, some [Stmt.call (Method.Error []), Stmt.call (Method.Fatal [])], none, none, []⟩
    [] (newGoT "T") 0 none entersLifecycle_goT (fun _ => rfl)
  match h with
  | ⟨S, term, D, h1, h2, _, h4, _⟩ => ⟨by decide, S, term, D, h1, h2, h4⟩

/-- C4 as stated fails when the only Fatal-class report of the invocation is made by a
deferred callback: the terminal status is (Fail, TestFinished, fatal=false) although a
Fatal-class report was made and the fatal flag of the context ends up true. -/
theorem Test_deferred_fatal_counterexample :
    (Test (Env.simple goTestingT) errorThenDeferredFatal [] (newGoT "T") 0 none).2.td.statuses =
      [⟨StatusValue.Fail, Lifecycle.Act, false⟩,
        ⟨StatusValue.Fail, Lifecycle.TestFinished, false⟩,
        ⟨StatusValue.Fail, Lifecycle.TestFinished, true⟩] ∧
    Event.call Lifecycle.TestFinished (Method.Fatal ["deferred fatal"]) ∈
      (Test (Env.simple goTestingT) errorThenDeferredFatal [] (newGoT "T") 0 none).2.trace ∧
    (Test (Env.simple goTestingT) errorThenDeferredFatal [] (newGoT "T") 0 none).2.td.fatal =
      true := by
  decide

/-- What the timing map does hold, however the stages end. On a host whose non-aborting
methods return, for every invocation of `Test` that enters the lifecycle: every entry of
the timing map is stored under one of the four stage names, carries that name, and has
`Started` and `Ended` both true when the callback of the stage is present and both false
when it is absent; and when no stage callback has a Fatal- or Skip-class call, the map has
an entry for each of the four stage names. Which entries exist after an abort is not part
of this statement. -/
theorem Test_timing_entries_wellFormed {σ : Type} (env : Env σ) (hR : env.host.Returns)
    (tc : TestCase) (options : List TestConfig) (t : σ) (k : Nat) (r : Option runner)
    (henter : entersLifecycle env t) :
    (∀ l tm, (Test env tc options t k r).2.td.timings l = some tm →
      l.isStage = true ∧ tm.Lifecycle = l ∧ tm.Started = (tc.callback l).isSome ∧
        tm.Ended = (tc.callback l).isSome) ∧
    (tc.stagesReturn → ∀ l, l.isStage = true →
      ∃ tm, (Test env tc options t k r).2.td.timings l = some tm) := by
  obtain ⟨wP, hf, _, hT⟩ := Test_enters hR tc options t k r henter
  constructor
  · obtain ⟨w4, h4, hcase⟩ := lifecycle_cases hR tc (env.now k)
      (fun v => TimingsOK tc v.td.timings)
      (fun l v hl hv => (timedRun_invariants hR tc l hl v).2.2 hv)
      (fun v hv => hv) wP (by
        intro l tm htm
        rw [hf.timings] at htm
        cases htm)
    rcases hcase with ⟨e, he⟩ | ⟨he, _⟩
    · obtain ⟨_, _, _, _, d3, _⟩ := finishTest_general env (env.now k) e w4
      rw [hT, he, d3]
      exact h4
    · rw [hT, he]
      exact h4
  · intro htc l hl
    obtain ⟨w4, e, hL, _, _, _, _, s5, _⟩ := lifecycle_noAbort hR tc htc (env.now k) wP
    obtain ⟨_, _, _, _, d3, _⟩ := finishTest_general env (env.now k) e w4
    obtain ⟨tm, h1, _⟩ := s5 l hl
    exact ⟨tm, by rw [hT, hL, d3, h1]⟩

/-- A test case without an Assert callback, run on the standard host with no abort, has an
entry for Assert with `Started = Ended = false`. -/
theorem Test_timing_entries_wellFormed_quietCase :
    ∃ tm, (Test (Env.simple goTestingT) quietCase [] (newGoT "T") 0 none).2.td.timings
        Lifecycle.Assert = some tm ∧ tm.Started = false ∧ tm.Ended = false :=
  have h := Test_timing_entries_wellFormed (Env.simple goTestingT) goTestingT_returns
    quietCase []
    (newGoT "T") 0 none entersLifecycle_goT
  match h.2 (by simp [TestCase.stagesReturn, quietCase, noAbort, bodyOf, Stmt.aborts,
      Method.aborts, Method.isFatalClass, Method.isSkipClass]) Lifecycle.Assert rfl with
  | ⟨tm, htm⟩ => ⟨tm, htm, (h.1 _ tm htm).2.2.1, (h.1 _ tm htm).2.2.2⟩

/-- C10 fails on the code when a stage is aborted. On the standard host: after a Fatal in
Arrange the timing map has an entry for After only; after a Fatal in Act it has entries for
Arrange and After only, and Assert, which was never invoked, has none; after a SkipNow in
Arrange the map is empty. The claim expects four entries in each of these runs. In the run
of a test case whose stages all return, the map has its four entries. -/
theorem Test_timings_missing_after_abort :
    ((Test (Env.simple goTestingT) arrangeMultiFatal [] (newGoT "T") 0 none).2.td.timings
        Lifecycle.Arrange = none ∧
      (Test (Env.simple goTestingT) arrangeMultiFatal [] (newGoT "T") 0 none).2.td.timings
        Lifecycle.Act = none ∧
      (Test (Env.simple goTestingT) arrangeMultiFatal [] (newGoT "T") 0 none).2.td.timings
        Lifecycle.Assert = none ∧
      ((Test (Env.simple goTestingT) arrangeMultiFatal [] (newGoT "T") 0 none).2.td.timings
        Lifecycle.After).isSome = true) ∧
    (((Test (Env.simple goTestingT) actFatal [] (newGoT "T") 0 none).2.td.timings
        Lifecycle.Arrange).isSome = true ∧
      (Test (Env.simple goTestingT) actFatal [] (newGoT "T") 0 none).2.td.timings
        Lifecycle.Act = none ∧
      (Test (Env.simple goTestingT) actFatal [] (newGoT "T") 0 none).2.td.timings
        Lifecycle.Assert = none ∧
      ((Test (Env.simple goTestingT) actFatal [] (newGoT "T") 0 none).2.td.timings
        Lifecycle.After).isSome = true) ∧
    (∀ l : Lifecycle,
      (Test (Env.simple goTestingT) arrangeSkipNow [] (newGoT "T") 0 none).2.td.timings l =
        none) ∧
    (((Test (Env.simple goTestingT) quietCase [] (newGoT "T") 0 none).2.td.timings
        Lifecycle.Arrange).isSome = true ∧
      ((Test (Env.simple goTestingT) quietCase [] (newGoT "T") 0 none).2.td.timings
        Lifecycle.Act).isSome = true ∧
      ((Test (Env.simple goTestingT) quietCase [] (newGoT "T") 0 none).2.td.timings
        Lifecycle.Assert).isSome = true ∧
      ((Test (Env.simple goTestingT) quietCase [] (newGoT "T") 0 none).2.td.timings
        Lifecycle.After).isSome = true) := by
  refine ⟨by decide, by decide, ?_, by decide⟩
  intro l
  cases l <;> decide

/-- C3 fails on the code when the After callback aborts the task: on the standard host,
with a deferred callback registered in Arrange and a Fatal in After, the deferred function
of `Test` is cut short; no `TestFinished` status is appended and the deferred callback is
never invoked although it is on the stack. -/
theorem Test_after_fatal_skips_cleanup :
    (Test (Env.simple goTestingT) afterFatal [] (newGoT "T") 0 none).1 = Exit.goexit ∧
    (Test (Env.simple goTestingT) afterFatal [] (newGoT "T") 0 none).2.td.statuses =
      [⟨StatusValue.Fail, Lifecycle.After, true⟩] ∧
    (Test (Env.simple goTestingT) afterFatal [] (newGoT "T") 0 none).2.deferStack.length = 1 ∧
    invocations (Test (Env.simple goTestingT) afterFatal [] (newGoT "T") 0 none).2.trace =
      [Event.enter Lifecycle.Arrange, Event.enter Lifecycle.After] ∧
    (Test (Env.simple goTestingT) afterFatal [] (newGoT "T") 0 none).2.td.currentLifecycle =
      Lifecycle.After := by
  decide

/-! ## Timings of a test whose stages all return -/

/-- A stage keeps `Duration = End - Start` for every stored timing, however its callback
ends. -/
theorem timedRun_durations {σ : Type} (env : Env σ) (fn : Option Callback) (l : Lifecycle)
    (w : World σ) (hw : DurationsOK w.td.timings) :
    DurationsOK (timedRun env fn l w).2.td.timings := by
  cases fn with
  | none =>
    rw [timedRun_none]
    intro l2 tm htm
    by_cases h2 : l2 = l
    · subst h2
      simp only [mapSet, if_true] at htm
      cases htm
      rfl
    · simp only [mapSet, if_neg h2] at htm
      exact hw l2 tm htm
  | some body =>
    have hT : (run env.host body (stageEntry l w)).2.td.timings = w.td.timings :=
      (run_local env.host body (stageEntry l w)).timings
    rw [timedRun_some]
    unfold Step.andThen
    split
    · intro l2 tm htm
      simp only [storeTiming, Step.ret_apply, hT] at htm
      by_cases h2 : l2 = l
      · subst h2
        simp only [mapSet, if_true] at htm
        cases htm
        rfl
      · simp only [mapSet, if_neg h2] at htm
        exact hw l2 tm htm
    · rw [hT]; exact hw

/-- C11. On a host whose non-aborting methods return, for every invocation of `Test` that
enters the lifecycle with a test case whose stage callbacks have no Fatal- or Skip-class
call, the timing map has an entry under each of the four stage names; its `Lifecycle`
field is the key, `Started` and `Ended` are both true when the callback of the stage is
present and both false when it is absent, and `Duration` is `End - Start`. -/
theorem Test_noAbort_timing_entries {σ : Type} (env : Env σ) (hR : env.host.Returns)
    (tc : TestCase) (options : List TestConfig) (t : σ) (k : Nat) (r : Option runner)
    (henter : entersLifecycle env t) (htc : tc.stagesReturn) (l : Lifecycle)
    (hl : l.isStage = true) :
    ∃ tm, (Test env tc options t k r).2.td.timings l = some tm ∧ tm.Lifecycle = l ∧
      tm.Started = (tc.callback l).isSome ∧ tm.Ended = (tc.callback l).isSome ∧
      tm.Duration = (tm.End : Int) - (tm.Start : Int) := by
  obtain ⟨wP, hf, _, hT⟩ := Test_enters hR tc options t k r henter
  obtain ⟨w4, e, hL, _, _, _, _, s5, _⟩ := lifecycle_noAbort hR tc htc (env.now k) wP
  obtain ⟨_, _, _, _, d3, _⟩ := finishTest_general env (env.now k) e w4
  obtain ⟨v, hv, hcase⟩ := lifecycle_cases hR tc (env.now k)
    (fun v => DurationsOK v.td.timings)
    (fun l v _ hv => timedRun_durations env (tc.callback l) l v hv)
    (fun v hv => hv) wP (by
      intro l tm htm
      rw [hf.timings] at htm
      cases htm)
  obtain ⟨tm, h1, h2, h3, h4⟩ := s5 l hl
  have htm : (Test env tc options t k r).2.td.timings l = some tm := by
    rw [hT, hL, d3, h1]
  refine ⟨tm, htm, h2, h3, h4, ?_⟩
  rcases hcase with ⟨e2, he⟩ | ⟨he, _⟩
  · obtain ⟨_, _, _, _, d3b, _⟩ := finishTest_general env (env.now k) e2 v
    rw [hT, he, d3b] at htm
    exact hv l tm htm
  · rw [hT, he] at htm
    exact hv l tm htm

/-- C11 at a concrete input: on the standard host a test case with only an Act callback has
four timing entries, of which only that of Act has `Started = Ended = true`. -/
theorem Test_noAbort_timing_entries_witness :
    (∃ tm, (Test (Env.simple goTestingT) onlyAct [] (newGoT "T") 0 none).2.td.timings
        Lifecycle.Act = some tm ∧ tm.Lifecycle = Lifecycle.Act ∧ tm.Started = true ∧
      tm.Ended = true ∧ tm.Duration = (tm.End : Int) - (tm.Start : Int)) ∧
    (([Lifecycle.Arrange, Lifecycle.Act, Lifecycle.Assert, Lifecycle.After].map fun l =>
      ((Test (Env.simple goTestingT) onlyAct [] (newGoT "T") 0 none).2.td.timings l).map
        fun tm => (tm.Started, tm.Ended)) =
      [some (false, false), some (true, true), some (false, false), some (false, false)]) :=
  ⟨Test_noAbort_timing_entries (Env.simple goTestingT) goTestingT_returns onlyAct []
    (newGoT "T") 0 none entersLifecycle_goT
    (by simp [TestCase.stagesReturn, onlyAct, noAbort, bodyOf, Stmt.aborts, Method.aborts,
      Method.isFatalClass, Method.isSkipClass]) Lifecycle.Act rfl, by decide⟩

/-! ## Invariants of the lifecycle context under the methods of `TD` -/

theorem Step.andThen_snd {σ : Type} (f g : Step σ) (w : World σ) :
    (Step.andThen f g w).2 = if (f w).1 = Exit.returned then (g (f w).2).2 else (f w).2 := by
  unfold Step.andThen
  split <;> simp_all

/-- C12. Every method of `TD`, on every host and in every state, preserves the invariants
of the lifecycle context: the status sequence grows by at most one entry, appended at its
end, and that entry carries the current lifecycle; the fatal flag never goes from true to
false; a method other than `Fatal`, `Fatalf` and `FailNow` (in particular `Error`,
`Errorf`, `Fail`, `Skip`, `Skipf`, `SkipNow`, `Log`, `Logf`) leaves the flag unchanged; and
when the host's `Helper` returns, `Fatal`, `Fatalf` and `FailNow` set the flag and the
appended entries are exactly the report of the method. -/
theorem TD_invoke_preserves_invariants {σ : Type} (h : TestingT σ) (m : Method)
    (w : World σ) :
    (∃ ext, (TD.invoke h m w).2.td.statuses = w.td.statuses ++ ext ∧ ext.length ≤ 1 ∧
      ∀ s ∈ ext, s.Lifecycle = w.td.currentLifecycle) ∧
    (TD.invoke h m w).2.td.currentLifecycle = w.td.currentLifecycle ∧
    (w.td.fatal = true → (TD.invoke h m w).2.td.fatal = true) ∧
    (m.isFatalClass = false → (TD.invoke h m w).2.td.fatal = w.td.fatal) ∧
    ((h.call Method.Helper w.td.T).2 = false →
      (TD.invoke h m w).2.td.statuses = w.td.statuses ++ m.report w.td.currentLifecycle ∧
      (m.isFatalClass = true → (TD.invoke h m w).2.td.fatal = true)) := by
  cases hH : (h.call Method.Helper w.td.T).2 <;>
  cases m <;>
    simp [TD.invoke, TD.Error, TD.Errorf, TD.Fail, TD.FailNow, TD.Failed, TD.Fatal,
      TD.Fatalf, TD.Log, TD.Logf, TD.Skip, TD.SkipNow, TD.Skipf, TD.Skipped, TD.Helper,
      TD.Parallel, TD.Name, Step.andThen_snd, callT, onTD, hH, Method.report, Method.isErrorClass,
      Method.isFatalClass, Method.isSkipClass, TD.setFailed, TD.setSkipped]
  all_goals (split <;> simp)

/-- C12 at a concrete input: on the test double, `Fatal` during Act appends one status that
carries Act and sets the flag, and `Skip` leaves the flag alone. -/
theorem TD_invoke_preserves_invariants_witness :
    ((TD.invoke mockT (Method.Fatal ["x"])
        (stageEntry Lifecycle.Act (World.init emptyCase newMockT 0 none))).2.td.statuses =
      [] ++ (Method.Fatal ["x"]).report Lifecycle.Act ∧
     ((Method.Fatal ["x"]).isFatalClass = true →
      (TD.invoke mockT (Method.Fatal ["x"])
        (stageEntry Lifecycle.Act (World.init emptyCase newMockT 0 none))).2.td.fatal = true)) ∧
    (TD.invoke mockT (Method.Skip ["x"])
        (stageEntry Lifecycle.Act (World.init emptyCase newMockT 0 none))).2.td.fatal = false :=
  ⟨(TD_invoke_preserves_invariants mockT (Method.Fatal ["x"])
      (stageEntry Lifecycle.Act (World.init emptyCase newMockT 0 none))).2.2.2.2 rfl,
   (TD_invoke_preserves_invariants mockT (Method.Skip ["x"])
      (stageEntry Lifecycle.Act (World.init emptyCase newMockT 0 none))).2.2.2.1 rfl⟩

/-! ## `TD` forwards to the host -/

/-- C14. On a host whose `Helper` returns, every method of `TD` (for `Name`: when no actual
name is set) logs exactly the host calls `forwardedCalls m`: the host method of the same
name once, with the same arguments, preceded by `Helper` for `Error`, `Errorf`, `Fatal` and
`Fatalf`, and nothing else; the host is left in the state these calls produce; and
`Skipped()`, `Failed()` and `Name()` return the host's value. -/
theorem TD_forwards_to_host {σ : Type} (h : TestingT σ)
    (hH : ∀ s, (h.call Method.Helper s).2 = false) (m : Method) (w : World σ)
    (hname : m = Method.Name → w.td.actualName = "") :
    (TD.invoke h m w).2.trace = w.trace ++ (forwardedCalls m).map Event.host ∧
    hostCalls ((forwardedCalls m).map Event.host) = forwardedCalls m ∧
    (forwardedCalls m).filter (fun x => decide (x ≠ Method.Helper)) =
      (if m = Method.Helper then [] else [m]) ∧
    (TD.invoke h m w).2.td.T = (forwardedCalls m).foldl (fun s x => (h.call x s).1) w.td.T ∧
    TD.skippedValue h w.td = h.Skipped w.td.T ∧
    TD.failedValue h w.td = h.Failed w.td.T ∧
    (w.td.actualName = "" → TD.nameValue h w.td = h.Name w.td.T) := by
  refine ⟨?_, ?_, ?_, ?_, rfl, rfl, fun hn => by simp [TD.nameValue, hn]⟩
  · cases m <;>
      simp [TD.invoke, TD.Error, TD.Errorf, TD.Fail, TD.FailNow, TD.Failed, TD.Fatal,
        TD.Fatalf, TD.Log, TD.Logf, TD.Skip, TD.SkipNow, TD.Skipf, TD.Skipped, TD.Helper,
        TD.Parallel, TD.Name, Step.andThen_snd, callT, onTD, hH, forwardedCalls,
        Method.callsHelper, TD.setFailed, TD.setSkipped]
    all_goals simp_all
  · cases m <;> simp [forwardedCalls, Method.callsHelper, hostCalls]
  · cases m <;> simp [forwardedCalls, Method.callsHelper]
  · cases m <;>
      simp [TD.invoke, TD.Error, TD.Errorf, TD.Fail, TD.FailNow, TD.Failed, TD.Fatal,
        TD.Fatalf, TD.Log, TD.Logf, TD.Skip, TD.SkipNow, TD.Skipf, TD.Skipped, TD.Helper,
        TD.Parallel, TD.Name, Step.andThen_snd, callT, onTD, hH, forwardedCalls,
        Method.callsHelper, TD.setFailed, TD.setSkipped]
    all_goals simp_all

/-- C14 at a concrete input: on the test double, `Errorf` is logged as the calls `Helper`
and `Errorf` with the same format and arguments, as `Test_TD_ArgMethodsPassThrough`
asserts. -/
theorem TD_forwards_to_host_witness :
    (TD.invoke mockT (Method.Errorf "%s" ["a"]) (World.init emptyCase newMockT 0 none)).2.td.T.calls
      = [Method.Helper, Method.Errorf "%s" ["a"]] :=
  (congrArg MockT.calls (TD_forwards_to_host mockT (fun _ => rfl) (Method.Errorf "%s" ["a"])
    (World.init emptyCase newMockT 0 none) (fun hm => by cases hm)).2.2.2.1).trans (by decide)

/-! ## Calls of the host's `Parallel` -/

theorem ParallelBalanced.empty : ParallelBalanced [] := rfl

theorem ParallelBalanced.append {a b : List Event} (ha : ParallelBalanced a)
    (hb : ParallelBalanced b) : ParallelBalanced (a ++ b) := by
  unfold ParallelBalanced at *
  rw [List.countP_append, List.countP_append, ha, hb]

theorem Step.Balanced.comp {σ : Type} {f g : Step σ} (hf : Step.Balanced f)
    (hg : Step.Balanced g) : Step.Balanced (Step.andThen f g) := by
  intro w
  obtain ⟨e1, h1, b1⟩ := hf w
  rw [Step.andThen_snd]
  split
  · obtain ⟨e2, h2, b2⟩ := hg (f w).2
    exact ⟨e1 ++ e2, by rw [h2, h1, List.append_assoc], b1.append b2⟩
  · exact ⟨e1, h1, b1⟩

theorem Step.Balanced.seq {σ : Type} {fs : List (Step σ)} (h : ∀ f ∈ fs, Step.Balanced f) :
    Step.Balanced (Step.seq fs) := by
  induction fs with
  | nil => exact fun w => ⟨[], by simp, ParallelBalanced.empty⟩
  | cons f rest ih =>
    exact (h f (List.mem_cons_self _ _)).comp
      (ih fun g hg => h g (List.mem_cons_of_mem _ hg))

/-- A step that leaves the log alone. -/
theorem Step.Balanced.of_silent {σ : Type} {f : Step σ} (h : ∀ w, (f w).2.trace = w.trace) :
    Step.Balanced f :=
  fun w => ⟨[], by simp [h w], ParallelBalanced.empty⟩

theorem Step.Balanced.logEvent {σ : Type} (e : Event) (h1 : e.isHostParallel = false)
    (h2 : e.isCallParallel = false) : Step.Balanced (logEvent (σ := σ) e) :=
  fun w => ⟨[e], rfl, by simp [ParallelBalanced, h1, h2]⟩

theorem Step.Balanced.hostCall {σ : Type} (h : TestingT σ) {m : Method}
    (hm : m ≠ Method.Parallel) : Step.Balanced (callT h m) := by
  intro w
  refine ⟨[Event.host m], rfl, ?_⟩
  cases m <;> simp_all [ParallelBalanced, Event.isHostParallel, Event.isCallParallel]

theorem Step.Balanced.onTD {σ : Type} (f : TD σ → TD σ) : Step.Balanced (onTD f) :=
  Step.Balanced.of_silent fun _ => rfl

/-- A method of `TD` other than `Parallel` does not call the host's `Parallel`. -/
theorem TD.invoke_balanced {σ : Type} (h : TestingT σ) {m : Method}
    (hm : m ≠ Method.Parallel) : Step.Balanced (TD.invoke h m) := by
  have hC : ∀ {x : Method}, x ≠ Method.Parallel → Step.Balanced (Testdeck.callT h x) :=
    fun hx => Step.Balanced.hostCall h hx
  have hO : ∀ f : TD σ → TD σ, Step.Balanced (Testdeck.onTD f) := Step.Balanced.onTD
  cases m
  case Parallel => exact absurd rfl hm
  case Name =>
    intro w
    show ∃ ext, (TD.Name h w).2.trace = _ ∧ _
    unfold TD.Name
    split
    · exact ⟨[], by simp, ParallelBalanced.empty⟩
    · exact hC (by simp) w
  all_goals
    first
    | exact hC (by simp)
    | exact (hO _).comp ((hC (by simp)).comp (Step.Balanced.seq (by simp)))
    | exact (hO _).comp ((hO _).comp ((hC (by simp)).comp (Step.Balanced.seq (by simp))))
    | exact (hC (by simp)).comp ((hO _).comp ((hC (by simp)).comp
        (Step.Balanced.seq (by simp))))
    | exact (hC (by simp)).comp ((hO _).comp ((hO _).comp ((hC (by simp)).comp
        (Step.Balanced.seq (by simp)))))

/-- A statement of a callback calls the host's `Parallel` exactly when it is
`t.Parallel()`. -/
theorem Stmt.exec_balanced {σ : Type} (h : TestingT σ) (s : Stmt) :
    Step.Balanced (Stmt.exec h s) := by
  cases s
  case Defer fn => exact Step.Balanced.of_silent fun _ => rfl
  case other n => exact Step.Balanced.logEvent _ rfl rfl
  case call m =>
    intro w
    by_cases hm : m = Method.Parallel
    · subst hm
      exact ⟨[Event.call w.td.currentLifecycle Method.Parallel, Event.host Method.Parallel],
        by simp [Stmt.exec, TD.invoke, TD.Parallel, callT],
        by simp [ParallelBalanced, Event.isHostParallel, Event.isCallParallel]⟩
    · have hl : Step.Balanced (Testdeck.logEvent (σ := σ)
          (Event.call w.td.currentLifecycle m)) :=
        Step.Balanced.logEvent _ rfl (by cases m <;> simp_all [Event.isCallParallel])
      exact (hl.comp (TD.invoke_balanced h hm)) w

theorem run_balanced {σ : Type} (h : TestingT σ) (body : Callback) :
    Step.Balanced (run h body) := by
  induction body with
  | nil => exact fun w => ⟨[], by simp [run], ParallelBalanced.empty⟩
  | cons s rest ih => exact (Stmt.exec_balanced h s).comp ih
theorem RunDeferredLoop_balanced {σ : Type} (h : TestingT σ) (n : Nat) :
    Step.Balanced (DefaultDeferrer.RunDeferredLoop h n) := by
  induction n with
  | zero => exact fun w => ⟨[], by simp [DefaultDeferrer.RunDeferredLoop], ParallelBalanced.empty⟩
  | succ i ih =>
    intro w
    unfold DefaultDeferrer.RunDeferredLoop
    split
    · next fn _ =>
      have hs : Step.Balanced (Step.seq [Testdeck.logEvent (Event.deferred i), run h fn,
          DefaultDeferrer.RunDeferredLoop h i]) :=
        (Step.Balanced.logEvent (Event.deferred i) rfl rfl).comp
          ((run_balanced h fn).comp (ih.comp (Step.Balanced.seq (by simp))))
      exact hs w
    · exact ⟨[], by simp, ParallelBalanced.empty⟩

theorem RunDeferred_balanced {σ : Type} (h : TestingT σ) :
    Step.Balanced (DefaultDeferrer.RunDeferred h) :=
  fun w => RunDeferredLoop_balanced h w.deferStack.length w

theorem timedRun_balanced {σ : Type} (env : Env σ) (fn : Option Callback) (l : Lifecycle) :
    Step.Balanced (timedRun env fn l) := by
  intro w
  cases fn with
  | none => exact ⟨[], by simp [timedRun_none], ParallelBalanced.empty⟩
  | some body =>
    rw [timedRun_some]
    have hs : Step.Balanced (Step.andThen (run env.host body)
        (storeTiming env ⟨l, env.now w.clockReads, 0, 0, true, true⟩)) :=
      (run_balanced env.host body).comp (Step.Balanced.of_silent fun _ => rfl)
    obtain ⟨ext, h1, h2⟩ := hs (stageEntry l w)
    refine ⟨Event.enter l :: ext, by rw [h1]; simp, ?_⟩
    unfold ParallelBalanced at *
    simpa [List.countP_cons, Event.isHostParallel, Event.isCallParallel] using h2

theorem TD.Name_balanced {σ : Type} (h : TestingT σ) : Step.Balanced (TD.Name h) :=
  TD.invoke_balanced h (m := Method.Name) (by simp)

theorem saveStatistics_balanced {σ : Type} (h : TestingT σ) (start end_ : Nat) :
    Step.Balanced (saveStatistics h start end_) := by
  intro w
  have hs : Step.Balanced (Step.andThen (TD.Name h) (TD.Failed h)) :=
    (TD.Name_balanced h).comp (Step.Balanced.hostCall h (by simp))
  unfold saveStatistics
  cases hr : w.runnerInstance with
  | none => exact ⟨[], by simp, ParallelBalanced.empty⟩
  | some r =>
    simp only [TD.makeStatistics]
    split
    · exact hs w
    · exact hs w

theorem cleanup_balanced {σ : Type} (env : Env σ) (tc : TestCase) (start : Nat)
    (arrangeComplete : Bool) : Step.Balanced (cleanup env tc start arrangeComplete) := by
  intro w
  have hs : Step.Balanced (Step.seq [
      Step.ret (fun w1 : World σ => { w1 with clockReads := w1.clockReads + 1 }),
      TD.Skipped env.host,
      (if !(env.host.Skipped w.td.T) || arrangeComplete then tc.AfterMethod env else Step.seq []),
      Testdeck.onTD (fun c => { c with currentLifecycle := Lifecycle.TestFinished }),
      Testdeck.onTD TD.finalStatus,
      DefaultDeferrer.RunDeferred env.host,
      saveStatistics env.host start (env.now w.clockReads)]) := by
    refine Step.Balanced.seq ?_
    intro f hf
    simp only [List.mem_cons, List.mem_singleton, List.not_mem_nil, or_false] at hf
    rcases hf with rfl | rfl | rfl | rfl | rfl | rfl | rfl
    · exact Step.Balanced.of_silent fun _ => rfl
    · exact Step.Balanced.hostCall _ (by simp)
    · split
      · exact timedRun_balanced env tc.After Lifecycle.After
      · exact Step.Balanced.seq (by simp)
    · exact Step.Balanced.onTD _
    · exact Step.Balanced.onTD _
    · exact RunDeferred_balanced _
    · exact saveStatistics_balanced _ _ _
  exact hs w

theorem lifecycle_balanced {σ : Type} (env : Env σ) (tc : TestCase) (start : Nat) :
    Step.Balanced (lifecycle env tc start) := by
  intro w
  have hA := timedRun_balanced env tc.Arrange Lifecycle.Arrange
  have hBC : Step.Balanced (Step.seq [tc.ActMethod env, tc.AssertMethod env]) :=
    (timedRun_balanced env tc.Act Lifecycle.Act).comp
      ((timedRun_balanced env tc.Assert Lifecycle.Assert).comp (Step.Balanced.seq (by simp)))
  have hS : ∃ ext, (runStages env tc w).2.2.trace = w.trace ++ ext ∧ ParallelBalanced ext := by
    obtain ⟨e1, h1, b1⟩ := hA w
    unfold runStages
    split
    · exact ⟨e1, h1, b1⟩
    · obtain ⟨e2, h2, b2⟩ := hBC (tc.ArrangeMethod env w).2
      exact ⟨e1 ++ e2, by
        show (Step.seq [tc.ActMethod env, tc.AssertMethod env] (tc.ArrangeMethod env w).2).2.trace = _
        rw [h2]
        show (timedRun env tc.Arrange Lifecycle.Arrange w).2.trace ++ e2 = _
        rw [h1, List.append_assoc], b1.append b2⟩
  obtain ⟨e1, h1, b1⟩ := hS
  obtain ⟨e2, h2, b2⟩ := cleanup_balanced env tc start (runStages env tc w).2.1
    (runStages env tc w).2.2
  exact ⟨e1 ++ e2, by
    show (cleanup env tc start (runStages env tc w).2.1 (runStages env tc w).2.2).2.trace = _
    rw [h2, h1, List.append_assoc], b1.append b2⟩
/-- The request for parallel scheduling logs exactly the calls the options ask for,
whether or not the host returns from the call. -/
theorem parallelStep_trace {σ : Type} (h : TestingT σ) (options : List TestConfig)
    (w : World σ) : (parallelStep h options w).2.trace = w.trace ++ parallelCalls options := by
  cases options with
  | nil => rfl
  | cons o rest =>
    cases ho : o.ParallelOff <;> simp [parallelStep, parallelCalls, ho, callT]

/-- C15. When the host's `Name` returns and the tag pattern of the name, if any, compiles:
the log of `Test` starts with the call of `Name`, followed by one call of the host's
`Parallel` when no `TestConfig` is passed or the first has `ParallelOff = false` and by no
such call when the first has `ParallelOff = true`; everything else, in particular every
invocation of a stage callback, comes after it, and the rest of the log holds a call of the
host's `Parallel` only where a callback itself executes `t.Parallel()`.  So when no
callback does, the host's `Parallel` is called exactly once, respectively never. -/
theorem Test_calls_Parallel_once {σ : Type} (env : Env σ) (tc : TestCase)
    (options : List TestConfig) (t : σ) (k : Nat) (r : Option runner)
    (hName : (env.host.call Method.Name t).2 = false)
    (hTag : MatchTag env.regexpCompile (env.host.Name t) ≠ none) :
    ((options = [] ∨ ∃ o rest, options = o :: rest ∧ o.ParallelOff = false) →
      parallelCalls options = [Event.host Method.Parallel]) ∧
    ((∃ o rest, options = o :: rest ∧ o.ParallelOff = true) → parallelCalls options = []) ∧
    ∃ ext, (Test env tc options t k r).2.trace =
        Event.host Method.Name :: (parallelCalls options ++ ext) ∧
      ParallelBalanced ext ∧
      ((∀ e ∈ ext, e.isCallParallel = false) →
        (Test env tc options t k r).2.trace.countP Event.isHostParallel =
          (parallelCalls options).length) := by
  refine ⟨?_, ?_, ?_⟩
  · rintro (rfl | ⟨o, rest, rfl, ho⟩)
    · rfl
    · simp [parallelCalls, ho]
  · rintro ⟨o, rest, rfl, ho⟩
    simp [parallelCalls, ho]
  obtain ⟨⟨tagged, matched, actualName⟩, hm⟩ := Option.ne_none_iff_exists'.1 hTag
  have hn : (callT env.host Method.Name (World.init tc t k r)).1 = Exit.returned := by
    simp [callT, World.init, hName]
  have hR : Step.Balanced (if tagged = true then
        if (!matched) = true then
          logEventIfInitialized (σ := σ) "(match workaround) test not in tagged set; skipping"
        else
          Step.seq [onTD (fun c => { c with actualName := actualName }),
            lifecycle env tc (env.now k)]
      else lifecycle env tc (env.now k)) := by
    split
    · split
      · exact Step.Balanced.of_silent fun _ => rfl
      · exact (Step.Balanced.onTD _).comp
          ((lifecycle_balanced env tc _).comp (Step.Balanced.seq (by simp)))
    · exact lifecycle_balanced env tc _
  have hT : Test env tc options t k r =
      Step.andThen (parallelStep env.host options)
        (if tagged = true then
          if (!matched) = true then
            logEventIfInitialized "(match workaround) test not in tagged set; skipping"
          else
            Step.seq [onTD (fun c => { c with actualName := actualName }),
              lifecycle env tc (env.now k)]
        else lifecycle env tc (env.now k))
        { (callT env.host Method.Name (World.init tc t k r)).2 with
          clockReads := k + 1
          runnerInstance := r.map fun x => x.LogEvent ("Instantiating: " ++ actualName) } := by
    simp only [Test, hn, hm, Step.seq_cons, Step.andThen_ret, logEventIfInitialized_andThen,
      Step.seq_singleton]
    rfl
  have hP := parallelStep_trace env.host options
    { (callT env.host Method.Name (World.init tc t k r)).2 with
      clockReads := k + 1
      runnerInstance := r.map fun x => x.LogEvent ("Instantiating: " ++ actualName) }
  have h0 : ({ (callT env.host Method.Name (World.init tc t k r)).2 with
      clockReads := k + 1
      runnerInstance := r.map fun x => x.LogEvent ("Instantiating: " ++ actualName) } :
      World σ).trace = [Event.host Method.Name] := rfl
  rw [h0] at hP
  have key : ∃ ext, (Test env tc options t k r).2.trace =
      Event.host Method.Name :: (parallelCalls options ++ ext) ∧ ParallelBalanced ext := by
    rw [hT, Step.andThen_snd]
    split
    · obtain ⟨ext, h1, h2⟩ := hR (parallelStep env.host options
        { (callT env.host Method.Name (World.init tc t k r)).2 with
          clockReads := k + 1
          runnerInstance := r.map fun x => x.LogEvent ("Instantiating: " ++ actualName) }).2
      exact ⟨ext, by rw [h1, hP]; simp, h2⟩
    · exact ⟨[], by rw [hP]; simp, ParallelBalanced.empty⟩
  obtain ⟨ext, h1, h2⟩ := key
  refine ⟨ext, h1, h2, fun hc => ?_⟩
  have hz : ext.countP Event.isHostParallel = 0 := by
    rw [h2, List.countP_eq_zero]
    intro e he
    simp [hc e he]
  rw [h1, List.countP_cons, List.countP_append, hz]
  cases options with
  | nil => simp [parallelCalls, Event.isHostParallel]
  | cons o rest =>
    cases ho : o.ParallelOff <;> simp [parallelCalls, ho, Event.isHostParallel]

/-- C15 at a concrete input: on the standard host, `Test` without options calls `Parallel`
right after `Name`; a test case without `t.Parallel()` in its callbacks sees the host's
`Parallel` called once without options and never with `ParallelOff = true`. -/
theorem Test_calls_Parallel_once_witness :
    (∃ ext, (Test (Env.simple goTestingT) quietCase [] (newGoT "T") 0 none).2.trace =
        Event.host Method.Name :: (parallelCalls [] ++ ext) ∧
      ParallelBalanced ext ∧
      ((∀ e ∈ ext, e.isCallParallel = false) →
        (Test (Env.simple goTestingT) quietCase [] (newGoT "T") 0 none).2.trace.countP
          Event.isHostParallel = (parallelCalls []).length)) ∧
    (Test (Env.simple goTestingT) quietCase [] (newGoT "T") 0 none).2.trace.countP
      Event.isHostParallel = 1 ∧
    (Test (Env.simple goTestingT) quietCase [⟨true⟩] (newGoT "T") 0 none).2.trace.countP
      Event.isHostParallel = 0 :=
  ⟨(Test_calls_Parallel_once (Env.simple goTestingT) quietCase [] (newGoT "T") 0 none rfl
      (by decide)).2.2, by decide, by decide⟩

/-! ## The test-name tag -/

theorem splitLastNul_none {a : List Char} (ha : Char.ofNat 0 ∉ a) : splitLastNul a = none := by
  induction a with
  | nil => rfl
  | cons c cs ih =>
    have hc : c ≠ Char.ofNat 0 := fun h => ha (by simp [h])
    have hcs : Char.ofNat 0 ∉ cs := fun h => ha (List.mem_cons_of_mem _ h)
    simp [splitLastNul, ih hcs, hc]

theorem splitLastNul_append (p : List Char) {a : List Char} (ha : Char.ofNat 0 ∉ a) :
    splitLastNul (p ++ Char.ofNat 0 :: a) = some (p, a) := by
  induction p with
  | nil => simp [splitLastNul, splitLastNul_none ha]
  | cons c cs ih => simp [splitLastNul, ih]

/-- C16. For every pattern `p` that compiles to `re` and every name `a` without a NUL,
where neither holds a newline, `MatchTag` of `p`, NUL, `a` is (ok = true, matched = whether
`re` matches `a`, actualName = `a`); and for every name without a NUL, `MatchTag` is
(ok = false, matched = false, actualName = the name). -/
theorem MatchTag_decodes_tag (regexpCompile : String → Option (String → Bool)) :
    (∀ (p a : String) (re : String → Bool), regexpCompile p = some re →
      Char.ofNat 0 ∉ a.data → Char.ofNat 10 ∉ p.data → Char.ofNat 10 ∉ a.data →
      MatchTag regexpCompile (p ++ String.singleton (Char.ofNat 0) ++ a) =
        some (true, re a, a)) ∧
    (∀ name : String, Char.ofNat 0 ∉ name.data →
      MatchTag regexpCompile name = some (false, false, name)) := by
  constructor
  · intro p a re hre h0 hp ha
    have hd : (p ++ String.singleton (Char.ofNat 0) ++ a).data =
        p.data ++ Char.ofNat 0 :: a.data := by
      simp [String.data_append]
    have hnl : (p ++ String.singleton (Char.ofNat 0) ++ a).data.contains (Char.ofNat 10) =
        false := by
      rw [hd]
      simp [hp, ha]
    have hm : reMatchTag (p ++ String.singleton (Char.ofNat 0) ++ a) = some (p, a) := by
      unfold reMatchTag
      rw [hnl, hd, splitLastNul_append _ h0]
      rfl
    simp [MatchTag, hm, hre]
  · intro name h0
    have hm : reMatchTag name = none := by
      unfold reMatchTag
      split
      · rfl
      · rw [splitLastNul_none h0]; rfl
    simp [MatchTag, hm]

/-- C16 at a concrete input, with the library for literal patterns: the name the runner's
workaround gives `TestA` under the filter `TestB` decodes to a tagged name that does not
match, and the plain name `AAA/aaa` of `Test_MatchTag_ShouldNotMatchWithUntaggedName` is
not tagged. -/
theorem MatchTag_decodes_tag_witness :
    (∃ re, literalRegexp "TestB" = some re ∧
      MatchTag literalRegexp ("TestB" ++ String.singleton (Char.ofNat 0) ++ "TestA") =
        some (true, re "TestA", "TestA") ∧ re "TestA" = false) ∧
    MatchTag literalRegexp "AAA/aaa" = some (false, false, "AAA/aaa") :=
  ⟨⟨_, rfl, (MatchTag_decodes_tag literalRegexp).1 "TestB" "TestA" _ rfl (by decide)
      (by decide) (by decide), by decide⟩,
    (MatchTag_decodes_tag literalRegexp).2 "AAA/aaa" (by decide)⟩

/-! ## The runner: filter and statistics -/

/-- C17. The method `Match` returns a non-nil error exactly when the pattern does not
compile, and then leaves the runner, in particular the stored regular expression and
pattern string, unchanged; when the pattern compiles to `re` it returns nil, stores `re`
and the pattern string, and leaves the other fields unchanged. -/
theorem runner_Match_spec (regexpCompile : String → Option (String → Bool)) (r : runner)
    (pattern : String) :
    ((r.Match regexpCompile pattern).1 = true ↔ regexpCompile pattern = none) ∧
    (regexpCompile pattern = none → (r.Match regexpCompile pattern).2 = r) ∧
    (∀ re, regexpCompile pattern = some re →
      (r.Match regexpCompile pattern).1 = false ∧
      (r.Match regexpCompile pattern).2.matchRe = some re ∧
      (r.Match regexpCompile pattern).2.matchPattern = pattern ∧
      (r.Match regexpCompile pattern).2.stats = r.stats ∧
      (r.Match regexpCompile pattern).2.output = r.output ∧
      (r.Match regexpCompile pattern).2.eventLogger = r.eventLogger ∧
      (r.Match regexpCompile pattern).2.m = r.m) := by
  unfold runner.Match
  cases h : regexpCompile pattern with
  | none => simp
  | some re => simp

/-- C17 at a concrete input: with a library that compiles only the pattern `TestA`, a
second call of `Match` with a pattern that does not compile returns an error and keeps
the filter of the first call. -/
theorem runner_Match_spec_witness :
    (((newInstance none).Match onlyTestA "TestA").2.Match onlyTestA "bad[regex").2 =
      ((newInstance none).Match onlyTestA "TestA").2 ∧
    ((newInstance none).Match onlyTestA "TestA").2.matchPattern = "TestA" :=
  ⟨(runner_Match_spec onlyTestA ((newInstance none).Match onlyTestA "TestA").2 "bad[regex").2.1
      (if_neg (by decide)),
    ((runner_Match_spec onlyTestA (newInstance none) "TestA").2.2 (fun s => s == "TestA")
      (if_pos rfl)).2.2.1⟩

/-- C18. After `AddStatistics(&s)` the list `Statistics()` returns is the previous list
with `s` appended: its length has grown by one, its last element is `s`, the earlier
records are unchanged and in the same order; the rest of the runner is unchanged. -/
theorem runner_AddStatistics_appends (r : runner) (s : Statistics) :
    (r.AddStatistics s).Statistics = r.Statistics ++ [s] ∧
    (r.AddStatistics s).Statistics.length = r.Statistics.length + 1 ∧
    (r.AddStatistics s).Statistics.getLast? = some s ∧
    (∀ i, i < r.Statistics.length →
      (r.AddStatistics s).Statistics[i]? = r.Statistics[i]?) ∧
    (r.AddStatistics s).output = r.output ∧
    (r.AddStatistics s).eventLogger = r.eventLogger ∧
    (r.AddStatistics s).matchRe = r.matchRe ∧
    (r.AddStatistics s).matchPattern = r.matchPattern ∧
    (r.AddStatistics s).m = r.m := by
  refine ⟨rfl, by simp [runner.AddStatistics, runner.Statistics],
    by simp [runner.AddStatistics, runner.Statistics], ?_, rfl, rfl, rfl, rfl, rfl⟩
  intro i hi
  show (r.stats ++ [s])[i]? = r.stats[i]?
  exact List.getElem?_append_left hi

/-- C18 at a concrete input, as in `Test_Runner_ShouldAddStatistics`: on a new runner the
list has the record `foobar` at index 0 after `AddStatistics`, and a second record goes
behind it. -/
theorem runner_AddStatistics_appends_witness :
    (((newInstance none).AddStatistics (Statistics.named "foobar" false)).AddStatistics
      (Statistics.named "second" true)).Statistics[0]? =
    ((newInstance none).AddStatistics (Statistics.named "foobar" false)).Statistics[0]? :=
  (runner_AddStatistics_appends ((newInstance none).AddStatistics (Statistics.named "foobar" false))
    (Statistics.named "second" true)).2.2.2.1 0 (by decide)

theorem runner_PassedLoop_iff (stats : List Statistics) :
    runner.PassedLoop stats = true ↔ ∀ s ∈ stats, s.Failed = false := by
  induction stats with
  | nil => simp [runner.PassedLoop]
  | cons s rest ih =>
    cases hs : s.Failed <;> simp [runner.PassedLoop, hs, ih]

/-- C19. The method `Passed` returns true iff no accumulated record has `Failed = true`; it
returns true for a runner without records and after `ClearStatistics()`. -/
theorem runner_Passed_iff (r : runner) :
    (r.Passed = true ↔ ¬ ∃ s ∈ r.Statistics, s.Failed = true) ∧
    (r.Statistics = [] → r.Passed = true) ∧
    r.ClearStatistics.Statistics = [] ∧
    r.ClearStatistics.Passed = true := by
  refine ⟨?_, ?_, rfl, rfl⟩
  · unfold runner.Passed runner.Statistics
    rw [runner_PassedLoop_iff]
    constructor
    · rintro h ⟨s, hs, hf⟩
      rw [h s hs] at hf
      cases hf
    · intro h s hs
      cases hf : s.Failed
      · rfl
      · exact absurd ⟨s, hs, hf⟩ h
  · intro h
    unfold runner.Passed
    rw [show r.stats = [] from h]
    rfl

/-- C19 at a concrete input: a new runner has passed, and a runner with a passed and a
failed record has not. -/
theorem runner_Passed_iff_witness :
    (newInstance none).Passed = true ∧
    (((newInstance none).AddStatistics (Statistics.named "a" false)).AddStatistics
      (Statistics.named "b" true)).Passed = false :=
  ⟨(runner_Passed_iff (newInstance none)).2.1 rfl, by decide⟩

/-! ## Delivery of the statistics -/

/-- When the deferred function of `Test` reaches the delivery of the statistics on a host
whose `Name` and `Failed` return: with a runner instance, exactly one record is appended,
built from the name, the host's `Failed()`, the fatal flag, the statuses, the timings and
the two timestamps; without a runner instance nothing is delivered. -/
theorem saveStatistics_delivers {σ : Type} {h : TestingT σ} (hR : h.Returns)
    (start end_ : Nat) (w : World σ) :
    (∀ r, w.runnerInstance = some r →
      ∃ s, (saveStatistics h start end_ w).2.runnerInstance = some (r.AddStatistics s) ∧
        s.Name = TD.nameValue h w.td ∧ s.Failed = TD.failedValue h (TD.Name h w).2.td ∧
        s.Fatal = w.td.fatal ∧ s.Statuses = w.td.statuses ∧ s.Timings = w.td.timings ∧
        s.Start = start ∧ s.End = end_ ∧ s.Duration = (end_ : Int) - (start : Int)) ∧
    (w.runnerInstance = none → (saveStatistics h start end_ w).2.runnerInstance = none) := by
  have h1 : ∀ v : World σ, (TD.Name h v).1 = Exit.returned := by
    intro v
    unfold TD.Name
    split
    · rfl
    · exact callT_returned hR (m := Method.Name) rfl v
  have h2 : (Step.andThen (TD.Name h) (TD.Failed h) w).1 = Exit.returned := by
    rw [Step.andThen_returned _ (h1 w)]
    exact callT_returned hR (m := Method.Failed) rfl _
  have h3 : (Step.andThen (TD.Name h) (TD.Failed h) w).2.td.fatal = w.td.fatal ∧
      (Step.andThen (TD.Name h) (TD.Failed h) w).2.td.statuses = w.td.statuses ∧
      (Step.andThen (TD.Name h) (TD.Failed h) w).2.td.timings = w.td.timings := by
    rw [Step.andThen_returned _ (h1 w)]
    unfold TD.Name TD.Failed
    split <;> simp [callT]
  constructor
  · intro r hr
    refine ⟨(TD.makeStatistics h start end_ w).2, ?_, rfl, rfl, h3.1, h3.2.1, h3.2.2, rfl, rfl,
      rfl⟩
    simp [saveStatistics, hr, TD.makeStatistics, h2]
  · intro hr
    simp [saveStatistics, hr]

/-- C13 fails on the code when the After callback, or a deferred callback, aborts the task:
on the standard host with a runner instance, no record is added after a Fatal in After or
in a deferred callback, because the delivery is a plain statement of the deferred function
of `Test` behind the calls that abort.  After a Fatal in Arrange the same function delivers
the one record the claim describes. -/
theorem Test_after_fatal_adds_no_statistics :
    ((Test (Env.simple goTestingT) afterFatal [] (newGoT "T") 0 (some (newInstance none))).2.runnerInstance.map
      fun r => r.Statistics.length) = some 0 ∧
    ((Test (Env.simple goTestingT) deferredFatal [] (newGoT "T") 0
      (some (newInstance none))).2.runnerInstance.map fun r => r.Statistics.length) = some 0 ∧
    ((Test (Env.simple goTestingT) arrangeMultiFatal [] (newGoT "T") 0
      (some (newInstance none))).2.runnerInstance.map fun r => r.Statistics.map Statistics.summary) =
      some [("T", true, true,
        [⟨StatusValue.Fail, Lifecycle.Arrange, true⟩,
          ⟨StatusValue.Fail, Lifecycle.TestFinished, true⟩], 0, 2, 2, "")] :=
  ⟨by decide, by decide, rfl⟩

/-! ## Concurrent calls of `AddStatistics` -/

/-- C20 fails on the code: `AddStatistics` reads and writes `r.stats` without a lock.  One
goroutine running alone through its two accesses is the method `AddStatistics`, and two
goroutines one after the other leave two records; but when both read `r.stats` before
either writes, both return and only one record is left. -/
theorem AddStatistics_concurrent_lost_update :
    (∀ (r : runner) (s : Statistics),
      runSchedule [0, 0] (r, [AddStatisticsCall.start s]) =
        (r.AddStatistics s, [AddStatisticsCall.done])) ∧
    (runSchedule [0, 0, 1, 1] (newInstance none,
      [AddStatisticsCall.start (Statistics.named "TestA" false),
        AddStatisticsCall.start (Statistics.named "TestB" true)])).1.Statistics.map
      Statistics.summary =
      [(Statistics.named "TestA" false).summary, (Statistics.named "TestB" true).summary] ∧
    (runSchedule [0, 1, 0, 1] (newInstance none,
      [AddStatisticsCall.start (Statistics.named "TestA" false),
        AddStatisticsCall.start (Statistics.named "TestB" true)])).2.all
      AddStatisticsCall.isDone = true ∧
    (runSchedule [0, 1, 0, 1] (newInstance none,
      [AddStatisticsCall.start (Statistics.named "TestA" false),
        AddStatisticsCall.start (Statistics.named "TestB" true)])).1.Statistics.map
      Statistics.summary = [(Statistics.named "TestB" true).summary] :=
  ⟨fun _ _ => rfl, rfl, rfl, rfl⟩

/-! ## The singleton runner -/

/-- C21. In every package state that calls of `Instance` can reach: while no instance
exists, `Instance(m)` with a driver creates the instance `newInstance(m)` and returns it,
and `Instance(nil)` panics and leaves the state as it is; once an instance exists, every
call of `Instance`, with `nil` or with any driver, returns that instance and leaves it,
in particular its driver, unchanged; `Initialized()` is true iff an instance exists; and
every call leads to a reachable state again. -/
theorem Instance_singleton (p : Package) (hp : p.Reachable) (m : Option TestRunner) :
    (p.instanceVar = none → ∀ d, m = some d →
      Instance m p = (some (some (newInstance (some d))),
        { instanceVar := some (newInstance (some d)), onceDone := true }) ∧
      (newInstance (some d)).m = some d) ∧
    (p.instanceVar = none → m = none → Instance m p = (none, p)) ∧
    (∀ r, p.instanceVar = some r → Instance m p = (some (some r), p)) ∧
    (Initialized p = true ↔ ∃ r, p.instanceVar = some r) ∧
    (Initialized Package.init = false) ∧
    Package.init.Reachable ∧
    (Instance m p).2.Reachable := by
  unfold Package.Reachable at hp
  refine ⟨?_, ?_, ?_, ?_, rfl, rfl, ?_⟩
  · intro hi d hm
    have ho : p.onceDone = false := by rw [hp, hi]; rfl
    subst hm
    simp [Instance, hi, ho]
    rfl
  · intro hi hm
    simp [Instance, hi, hm]
  · intro r hi
    have ho : p.onceDone = true := by rw [hp, hi]; rfl
    simp [Instance, hi, ho]
  · simp [Initialized, Option.isSome_iff_exists]
  · unfold Package.Reachable Instance
    split
    · exact hp
    · cases ho : p.onceDone <;> simp [ho]
      rw [← hp, ho]

/-- C21 at a concrete input, as in `Test_Runner_ShouldInitialize`: from the start,
`Instance(nil)` panics, `Instance(m)` then creates the instance, and a later call with
another driver returns the instance with the first driver. -/
theorem Instance_singleton_witness :
    Instance none Package.init = (none, Package.init) ∧
    (((Instance (some ⟨some [⟨"TestB", 1⟩]⟩)
      (Instance (some ⟨some []⟩) Package.init).2).1.map fun i => i.map fun r => r.m) =
        some (some (some ⟨some []⟩))) ∧
    Initialized (Instance (some ⟨some []⟩) Package.init).2 = true :=
  ⟨(Instance_singleton Package.init rfl none).2.1 rfl rfl,
    by
      rw [(Instance_singleton Package.init rfl (some ⟨some []⟩)).1 rfl ⟨some []⟩ rfl |>.1]
      rw [(Instance_singleton ⟨some (newInstance (some ⟨some []⟩)), true⟩ rfl
        (some ⟨some [⟨"TestB", 1⟩]⟩)).2.2.1 _ rfl]
      rfl,
    by rw [(Instance_singleton Package.init rfl (some ⟨some []⟩)).1 rfl ⟨some []⟩ rfl |>.1]; rfl⟩

/-! ## The test filter and `Run` -/

theorem tagTests_eq_map (rePattern : String) (tests : List InternalTest) :
    tagTests rePattern tests =
      tests.map fun t => ⟨rePattern ++ String.singleton (Char.ofNat 0) ++ t.Name, t.F⟩ := by
  induction tests with
  | nil => rfl
  | cons t rest ih => simp [tagTests, ih]

theorem filterTests_some (f : String → Bool) (tests : List InternalTest) :
    filterTests (some f) tests = some (tests.filter fun t => f t.Name) := by
  induction tests with
  | nil => rfl
  | cons t rest ih =>
    cases ht : f t.Name <;> simp [filterTests, ih, ht]

/-- C25. When the workaround is on and the pattern is not `.*`, `filterTestsWorkaround`
returns a list of the same length as `tests` whose i-th entry has the function of the i-th
test and the name pattern, NUL, original name, whatever `re` is; otherwise, for a regular
expression `re`, it returns the tests whose name matches `re`, unmodified and in the
original order. -/
theorem filterTestsWorkaround_spec (re : Option (String → Bool)) (tests : List InternalTest)
    (workaround : Bool) (pattern : String) :
    (workaround = true → pattern ≠ ".*" →
      ∃ tagged, filterTestsWorkaround re tests workaround pattern = some tagged ∧
        tagged.length = tests.length ∧
        ∀ i (hi : i < tests.length), ∃ t, tagged[i]? = some t ∧ t.F = tests[i].F ∧
          t.Name = pattern ++ String.singleton (Char.ofNat 0) ++ tests[i].Name) ∧
    ((workaround = false ∨ pattern = ".*") → ∀ f, re = some f →
      filterTestsWorkaround re tests workaround pattern =
        some (tests.filter fun t => f t.Name) ∧
      (tests.filter fun t => f t.Name).Sublist tests) := by
  constructor
  · intro hw hp
    refine ⟨tagTests pattern tests, by simp [filterTestsWorkaround, hw, hp], ?_, ?_⟩
    · simp [tagTests_eq_map]
    · intro i hi
      simp [tagTests_eq_map, hi]
  · intro hw f hf
    subst hf
    refine ⟨?_, List.filter_sublist _⟩
    rcases hw with hw | hw
    · simp [filterTestsWorkaround, hw, filterTests_some]
    · simp [filterTestsWorkaround, hw, filterTests_some]

/-- C25 at a concrete input, as in `Test_FilterTestWorkaround_ShouldTagTestNames` and
`Test_FilterTest_ShouldFilterTests`: with the workaround the three tests are all kept and
tagged; without it only the test whose name the expression matches is kept. -/
theorem filterTestsWorkaround_spec_witness :
    (∃ tagged, filterTestsWorkaround none [⟨"A", 1⟩, ⟨"AA", 2⟩, ⟨"AAA", 3⟩] true "^AAA$" =
        some tagged ∧ tagged.length = 3) ∧
    filterTestsWorkaround (some fun s => s == "AAA") [⟨"A", 1⟩, ⟨"AA", 2⟩, ⟨"AAA", 3⟩] false
      "^AAA$" = some [⟨"AAA", 3⟩] :=
  ⟨match (filterTestsWorkaround_spec none [⟨"A", 1⟩, ⟨"AA", 2⟩, ⟨"AAA", 3⟩] true "^AAA$").1 rfl
      (by decide) with
    | ⟨tagged, h1, h2, _⟩ => ⟨tagged, h1, h2⟩,
   ((filterTestsWorkaround_spec (some fun s => s == "AAA") [⟨"A", 1⟩, ⟨"AA", 2⟩, ⟨"AAA", 3⟩]
      false "^AAA$").2 (Or.inl rfl) _ rfl).1.trans (by decide)⟩

theorem copyOutput_eq_map (output : String) (stats : List Statistics) :
    runner.copyOutput output stats = stats.map fun s => { s with Output := output } := by
  induction stats with
  | nil => rfl
  | cons s rest ih => simp [runner.copyOutput, ih]

/-- C22. `Run` returns unless `getInternalTests` or the filter panics; when it returns, the
runner holds the records it held when `runnerMainStart` returned, in the same order, each
with its `Output` field replaced by the combined captured output that `Output()` returns
and with every other field unchanged. -/
theorem runner_Run_copies_output (env : RunEnv) (r : runner) :
    (∀ r1 captured, r.runTests env = some (r1, captured) →
      ∃ r2, r.Run env = some r2 ∧
        r2.Output = (if env.EnableMatchWorkaround then env.reFilterTagsReplace captured
          else captured) ∧
        (∀ s ∈ r2.Statistics, s.Output = r2.Output) ∧
        r2.Statistics.length = r1.Statistics.length ∧
        r2.Statistics.map Statistics.withoutOutput =
          r1.Statistics.map Statistics.withoutOutput ∧
        r2.m = r1.m ∧ r2.eventLogger = r1.eventLogger ∧ r2.matchRe = r1.matchRe ∧
        r2.matchPattern = r1.matchPattern) ∧
    (r.runTests env = none → r.Run env = none) ∧
    (∀ d tests, r.m = some d → d.internalTests = some tests →
      (env.EnableMatchWorkaround = true ∧ r.matchPattern ≠ ".*" ∨ r.matchRe ≠ none) →
      ∃ r1 captured, r.runTests env = some (r1, captured)) := by
  refine ⟨?_, ?_, ?_⟩
  · intro r1 captured h
    cases hw : env.EnableMatchWorkaround
    · refine ⟨_, by simp [runner.Run, h, hw]; rfl, ?_⟩
      simp [runner.Output, runner.Statistics, copyOutput_eq_map, Statistics.withoutOutput]
    · refine ⟨_, by simp [runner.Run, h, hw]; rfl, ?_⟩
      simp [runner.Output, runner.Statistics, copyOutput_eq_map, Statistics.withoutOutput]
  · intro h
    simp [runner.Run, h]
  · intro d tests hm hd hf
    have hft : ∃ ts, filterTestsWorkaround r.matchRe tests env.EnableMatchWorkaround
        r.matchPattern = some ts := by
      unfold filterTestsWorkaround
      split
      · exact ⟨_, rfl⟩
      · next hc =>
        rcases hf with ⟨hw, hp⟩ | hre
        · simp [hw, hp] at hc
        · obtain ⟨f, hf⟩ := Option.ne_none_iff_exists'.1 hre
          rw [hf, filterTests_some]
          exact ⟨_, rfl⟩
    obtain ⟨ts, hts⟩ := hft
    exact ⟨(env.runnerMainStart ts r).1, (env.runnerMainStart ts r).2, by
      simp [runner.runTests, hm, getInternalTests, hd, hts]⟩

/-- C22 at a concrete input: a runner that already holds a record runs two tests; after
`Run` all three records carry the output of the run. -/
theorem runner_Run_copies_output_witness :
    ∃ r2, ((newInstance (some ⟨some [⟨"TestA", 1⟩, ⟨"TestB", 2⟩]⟩)).AddStatistics
        (Statistics.named "old" true)).Run fakeRunEnv = some r2 ∧
      r2.Statistics.length = 3 ∧ ∀ s ∈ r2.Statistics, s.Output = r2.Output :=
  match (runner_Run_copies_output fakeRunEnv
      ((newInstance (some ⟨some [⟨"TestA", 1⟩, ⟨"TestB", 2⟩]⟩)).AddStatistics
        (Statistics.named "old" true))).1 _ _ rfl with
  | ⟨r2, h1, _, h3, h4, _⟩ => ⟨r2, h1, h4.trans rfl, h3⟩

/-! ## The run mode -/

/-- C23. The function `RunAs` returns `job` when `env.RunAs` is `job`; `local` when
`env.RunAs` is any other non-empty string, whatever the environment; and for an empty
`env.RunAs` it returns `job` iff `KUBERNETES_SERVICE_HOST` is set and `TELEPRESENCE_ROOT`
is not, and `local` otherwise.  It returns no other value. -/
theorem config_RunAs_spec (lookupEnv : String → Option String) (env : config.Env) :
    (env.RunAs = "job" → config.RunAs lookupEnv env = "job") ∧
    (env.RunAs ≠ "" → env.RunAs ≠ "job" → config.RunAs lookupEnv env = "local") ∧
    (env.RunAs = "" →
      (config.RunAs lookupEnv env = "job" ↔
        (lookupEnv "KUBERNETES_SERVICE_HOST").isSome = true ∧
          lookupEnv "TELEPRESENCE_ROOT" = none) ∧
      (config.RunAs lookupEnv env = "local" ↔
        ¬ ((lookupEnv "KUBERNETES_SERVICE_HOST").isSome = true ∧
          lookupEnv "TELEPRESENCE_ROOT" = none))) ∧
    (config.RunAs lookupEnv env = "job" ∨ config.RunAs lookupEnv env = "local") := by
  have hne : ("job" : String) ≠ "local" := by decide
  have hne2 : ("job" : String) ≠ "" := by decide
  refine ⟨?_, ?_, ?_, ?_⟩
  · intro h
    simp [config.RunAs, h, RunAsJob]
  · intro h1 h2
    simp [config.RunAs, h1, h2, RunAsJob, RunAsLocal]
  · intro h
    cases hk : lookupEnv "KUBERNETES_SERVICE_HOST" <;>
      cases ht : lookupEnv "TELEPRESENCE_ROOT" <;>
      simp [config.RunAs, h, RunningInKubernetes, RunningInTelepresence,
        KubernetesServiceHostKey, TelepresenceRootKey, hk, ht, RunAsJob, RunAsLocal]
  · unfold config.RunAs
    split
    · split
      · exact Or.inl rfl
      · exact Or.inr rfl
    · split
      · exact Or.inl rfl
      · exact Or.inr rfl

/-- C23 at concrete inputs, the cases of `TestRunAs`: a forced `job` outside Kubernetes, a
garbage value inside Kubernetes, and the automatic detection with and without
Telepresence. -/
theorem config_RunAs_spec_witness :
    config.RunAs (envOf []) ⟨"job"⟩ = "job" ∧
    config.RunAs (envOf [("KUBERNETES_SERVICE_HOST", "host")]) ⟨"garbage-value"⟩ = "local" ∧
    config.RunAs (envOf [("KUBERNETES_SERVICE_HOST", "host")]) ⟨""⟩ = "job" ∧
    config.RunAs (envOf [("KUBERNETES_SERVICE_HOST", "host"), ("TELEPRESENCE_ROOT", "root")])
      ⟨""⟩ = "local" :=
  ⟨(config_RunAs_spec (envOf []) ⟨"job"⟩).1 rfl,
   (config_RunAs_spec (envOf [("KUBERNETES_SERVICE_HOST", "host")]) ⟨"garbage-value"⟩).2.1
      (by decide) (by decide),
   ((config_RunAs_spec (envOf [("KUBERNETES_SERVICE_HOST", "host")]) ⟨""⟩).2.2.1 rfl).1.2
      ⟨by decide, by decide⟩,
   ((config_RunAs_spec (envOf [("KUBERNETES_SERVICE_HOST", "host"),
      ("TELEPRESENCE_ROOT", "root")]) ⟨""⟩).2.2.1 rfl).2.2 (by decide)⟩

/-! ## The loop over the fields of a request -/

/-- C26 fails on the code: both loops leave with `break` at the first field whose name
starts with `XXX`, so they test the fields before it and no field after it.  For the
fields `Name`, `XXX_unrecognized`, `Text` only `Name` is tested, although `Text` does not
start with `XXX`; when the `XXX` fields come last, as in generated code, the tested fields
are the ones the claim expects. -/
theorem FuzzGrpcEndpoint_stops_at_XXX :
    (∀ fieldNames, FuzzGrpcEndpoint fieldNames =
      fieldNames.takeWhile fun fieldName => !"XXX".data.isPrefixOf fieldName.data) ∧
    (∀ fieldNames, RunIntruderTests fieldNames = FuzzGrpcEndpoint fieldNames) ∧
    FuzzGrpcEndpoint ["Name", "XXX_unrecognized", "Text"] = ["Name"] ∧
    RunIntruderTests ["Name", "XXX_unrecognized", "Text"] = ["Name"] ∧
    fieldsToTest ["Name", "XXX_unrecognized", "Text"] = ["Name", "Text"] ∧
    FuzzGrpcEndpoint ["Name", "Text", "XXX_unrecognized", "XXX_sizecache"] =
      fieldsToTest ["Name", "Text", "XXX_unrecognized", "XXX_sizecache"] := by
  refine ⟨?_, ?_, by decide, by decide, by decide, by decide⟩
  · intro fieldNames
    induction fieldNames with
    | nil => rfl
    | cons f rest ih =>
      cases hf : "XXX".data.isPrefixOf f.data <;>
        simp [FuzzGrpcEndpoint, List.takeWhile, hf, ih]
  · intro fieldNames
    induction fieldNames with
    | nil => rfl
    | cons f rest ih =>
      cases hf : "XXX".data.isPrefixOf f.data <;>
        simp [FuzzGrpcEndpoint, RunIntruderTests, hf, ih]

/-! ## Tagged names -/

theorem splitLastNul_eq_none_iff (l : List Char) :
    splitLastNul l = none ↔ Char.ofNat 0 ∉ l := by
  induction l with
  | nil => simp [splitLastNul]
  | cons c cs ih =>
    unfold splitLastNul
    cases hs : splitLastNul cs with
    | some pa =>
      have : Char.ofNat 0 ∈ cs := by
        by_contra hc
        rw [ih.2 hc] at hs
        cases hs
      simp [this]
    | none =>
      have hcs : Char.ofNat 0 ∉ cs := ih.1 hs
      by_cases hc : c = Char.ofNat 0
      · simp [hc]
      · simp [hc, hcs, Ne.symm hc]

theorem splitLastNul_some {l p a : List Char} (h : splitLastNul l = some (p, a)) :
    l = p ++ Char.ofNat 0 :: a ∧ Char.ofNat 0 ∉ a := by
  induction l generalizing p with
  | nil => simp [splitLastNul] at h
  | cons c cs ih =>
    unfold splitLastNul at h
    cases hs : splitLastNul cs with
    | some pa =>
      obtain ⟨p2, a2⟩ := pa
      rw [hs] at h
      simp only [Option.some.injEq, Prod.mk.injEq] at h
      obtain ⟨rfl, rfl⟩ := h
      obtain ⟨i1, i2⟩ := ih hs
      exact ⟨by rw [i1]; simp, i2⟩
    | none =>
      rw [hs] at h
      by_cases hc : c = Char.ofNat 0
      · simp only [hc, if_true, Option.some.injEq, Prod.mk.injEq] at h
        obtain ⟨rfl, rfl⟩ := h
        exact ⟨by simp [hc], (splitLastNul_eq_none_iff _).1 hs⟩
      · simp [hc] at h

/-- C30. The expression `reMatchTag` matches a name iff the name holds a NUL and no
newline; it then splits the name at its last NUL, so the name is pattern, NUL, actual
name, and the actual name holds no NUL.  `MatchTag` returns (true, whether the pattern
matches the actual name, the actual name) for such a name when the pattern compiles (and
panics when it does not), and returns (false, false, name) for every other name, so also
for a name that holds both a NUL and a newline. -/
theorem MatchTag_tagged_iff (regexpCompile : String → Option (String → Bool))
    (name : String) :
    ((reMatchTag name).isSome = true ↔
      Char.ofNat 0 ∈ name.data ∧ Char.ofNat 10 ∉ name.data) ∧
    (∀ p a, reMatchTag name = some (p, a) →
      name = p ++ String.singleton (Char.ofNat 0) ++ a ∧ Char.ofNat 0 ∉ a.data ∧
      MatchTag regexpCompile name =
        (regexpCompile p).map fun re => (true, re a, a)) ∧
    (reMatchTag name = none → MatchTag regexpCompile name = some (false, false, name)) ∧
    (Char.ofNat 10 ∈ name.data → MatchTag regexpCompile name = some (false, false, name)) ∧
    (∀ m a, MatchTag regexpCompile name = some (true, m, a) → Char.ofNat 0 ∉ a.data) := by
  have hsome : ∀ p a, reMatchTag name = some (p, a) →
      name = p ++ String.singleton (Char.ofNat 0) ++ a ∧ Char.ofNat 0 ∉ a.data := by
    intro p a h
    unfold reMatchTag at h
    split at h
    · cases h
    · cases hs : splitLastNul name.data with
      | none => rw [hs] at h; cases h
      | some pa =>
        obtain ⟨p2, a2⟩ := pa
        rw [hs] at h
        simp only [Option.map_some', Option.some.injEq, Prod.mk.injEq] at h
        obtain ⟨rfl, rfl⟩ := h
        obtain ⟨i1, i2⟩ := splitLastNul_some hs
        refine ⟨?_, i2⟩
        apply String.ext
        simp [String.data_append, i1]
  have hnl : Char.ofNat 10 ∈ name.data → reMatchTag name = none := by
    intro h
    simp [reMatchTag, h]
  have hnone : reMatchTag name = none → MatchTag regexpCompile name =
      some (false, false, name) := by
    intro h
    simp [MatchTag, h]
  refine ⟨?_, ?_, hnone, fun h => hnone (hnl h), ?_⟩
  · unfold reMatchTag
    by_cases h10 : Char.ofNat 10 ∈ name.data
    · simp [h10]
    · cases hs : splitLastNul name.data with
      | none => simp [h10, (splitLastNul_eq_none_iff _).1 hs]
      | some pa =>
        have : Char.ofNat 0 ∈ name.data := by
          by_contra hc
          rw [(splitLastNul_eq_none_iff _).2 hc] at hs
          cases hs
        simp [h10, this]
  · intro p a h
    refine ⟨(hsome p a h).1, (hsome p a h).2, ?_⟩
    cases hc : regexpCompile p <;> simp [MatchTag, h, hc]
  · intro m a h
    cases hr : reMatchTag name with
    | none => simp [MatchTag, hr] at h
    | some pa =>
      obtain ⟨p2, a2⟩ := pa
      cases hc : regexpCompile p2 with
      | none => simp [MatchTag, hr, hc] at h
      | some re =>
        simp only [MatchTag, hr, hc, Option.some.injEq, Prod.mk.injEq, true_and] at h
        rw [← h.2]
        exact (hsome p2 a2 hr).2

/-- C30 at concrete inputs: a name with two NULs is split at the last one, and a name with
a NUL and a newline is not tagged. -/
theorem MatchTag_tagged_iff_witness :
    MatchTag literalRegexp (String.mk ("a".data ++ [Char.ofNat 0] ++ "b".data ++
      [Char.ofNat 0] ++ "ab".data)) =
      some (true, false, "ab") ∧
    MatchTag literalRegexp (String.mk ("a".data ++ [Char.ofNat 0] ++ "b".data ++
      [Char.ofNat 10])) =
      some (false, false, String.mk ("a".data ++ [Char.ofNat 0] ++ "b".data ++
        [Char.ofNat 10])) :=
  ⟨((MatchTag_tagged_iff literalRegexp _).2.1
      (String.mk ("a".data ++ [Char.ofNat 0] ++ "b".data)) "ab" (by decide)).2.2.trans
      (by decide),
   (MatchTag_tagged_iff literalRegexp _).2.2.2.1 (by decide)⟩

/-! ## A tagged name that does not match -/

theorem runner.LogEvent_stats (r : runner) (message : String) :
    (r.LogEvent message).stats = r.stats := by
  unfold runner.LogEvent
  split <;> rfl

/-- The request for parallel scheduling changes nothing but the state of the host and the
log. -/
theorem parallelStep_frame {σ : Type} (h : TestingT σ) (options : List TestConfig)
    (w : World σ) :
    ∃ T, (parallelStep h options w).2 =
      { w with td := { w.td with T := T }, trace := w.trace ++ parallelCalls options } := by
  cases options with
  | nil => exact ⟨_, rfl⟩
  | cons o rest =>
    cases ho : o.ParallelOff
    · exact ⟨(h.call Method.Parallel w.td.T).1, by simp [parallelStep, parallelCalls, ho, callT]⟩
    · exact ⟨w.td.T, by simp [parallelStep, parallelCalls, ho]⟩

/-- C27. On a host whose `Name` and `Parallel` return, when `MatchTag` finds the host name
tagged with a pattern that does not match the actual name, `Test` returns right after the
request for parallel scheduling: the log holds the call of `Name` and the calls of
`Parallel` the options ask for and nothing else, so no stage callback and no deferred
callback is invoked; the status sequence is empty, the timing map is empty, the
deferred-call stack is the one of the test case, and the runner, if there is one, holds
the records it held before. -/
theorem Test_tagged_unmatched_returns {σ : Type} (env : Env σ) (hR : env.host.Returns)
    (tc : TestCase) (options : List TestConfig) (t : σ) (k : Nat) (r : Option runner)
    (actual : String)
    (hTag : MatchTag env.regexpCompile (env.host.Name t) = some (true, false, actual)) :
    (Test env tc options t k r).1 = Exit.returned ∧
    (Test env tc options t k r).2.trace = Event.host Method.Name :: parallelCalls options ∧
    invocations (Test env tc options t k r).2.trace = [] ∧
    (Test env tc options t k r).2.td.statuses = [] ∧
    (Test env tc options t k r).2.td.timings = (fun _ => none) ∧
    (Test env tc options t k r).2.deferStack = tc.deferStack ∧
    (Test env tc options t k r).2.td.currentLifecycle = Lifecycle.TestSetup ∧
    (Test env tc options t k r).2.runnerInstance.map runner.Statistics =
      r.map runner.Statistics := by
  have hn : (callT env.host Method.Name (World.init tc t k r)).1 = Exit.returned :=
    callT_returned hR (m := Method.Name) rfl _
  obtain ⟨p1, _⟩ := parallelStep_spec hR options
    { (callT env.host Method.Name (World.init tc t k r)).2 with
      clockReads := k + 1
      runnerInstance := r.map fun x => x.LogEvent ("Instantiating: " ++ actual) }
  obtain ⟨T, hP⟩ := parallelStep_frame env.host options
    { (callT env.host Method.Name (World.init tc t k r)).2 with
      clockReads := k + 1
      runnerInstance := r.map fun x => x.LogEvent ("Instantiating: " ++ actual) }
  have hT : Test env tc options t k r =
      logEventIfInitialized "(match workaround) test not in tagged set; skipping"
        (parallelStep env.host options
          { (callT env.host Method.Name (World.init tc t k r)).2 with
            clockReads := k + 1
            runnerInstance := r.map fun x => x.LogEvent ("Instantiating: " ++ actual) }).2 := by
    simp only [Test, hn, hTag, Step.seq_cons, Step.andThen_ret, logEventIfInitialized_andThen]
    exact (Step.andThen_returned _ p1).trans (by rw [Step.seq_singleton]; rfl)
  rw [hT, hP]
  refine ⟨rfl, rfl, ?_, rfl, rfl, rfl, rfl, ?_⟩
  · show invocations (Event.host Method.Name :: parallelCalls options) = []
    cases options with
    | nil => rfl
    | cons o rest =>
      cases ho : o.ParallelOff <;> simp [parallelCalls, ho, invocations, Event.isInvocation]
  · cases r with
    | none => rfl
    | some r0 =>
      simp [logEventIfInitialized, runner.Statistics, runner.LogEvent_stats]

/-- C27 at a concrete input: on the standard host with a runner, the test `TestA` under the
filter `TestB` returns with no status, no timing and no record, and only `Name` and
`Parallel` were called. -/
theorem Test_tagged_unmatched_returns_witness :
    (Test Env.literal quietCase [] (newGoT taggedTestA) 0 (some (newInstance none))).1 =
      Exit.returned ∧
    (Test Env.literal quietCase [] (newGoT taggedTestA) 0 (some (newInstance none))).2.trace =
      [Event.host Method.Name, Event.host Method.Parallel] ∧
    (Test Env.literal quietCase [] (newGoT taggedTestA) 0
      (some (newInstance none))).2.runnerInstance.map runner.Statistics = some [] :=
  have h := Test_tagged_unmatched_returns Env.literal goTestingT_returns quietCase []
    (newGoT taggedTestA) 0 (some (newInstance none)) "TestA" (by decide)
  ⟨h.1, h.2.1, h.2.2.2.2.2.2.2⟩

/-! ## The deferred-call stack is never emptied -/

/-- Calling callbacks that return and register nothing leaves the stack as it is. -/
theorem seq_callDeferred_stack {σ : Type} {h : TestingT σ} (hR : h.Returns)
    (L : List (Nat × Callback)) (hL : ∀ p ∈ L, plainCallback p.2) (w : World σ) :
    (Step.seq (L.map fun p => callDeferred h p.1 p.2) w).1 = Exit.returned ∧
    (Step.seq (L.map fun p => callDeferred h p.1 p.2) w).2.deferStack = w.deferStack := by
  induction L generalizing w with
  | nil => exact ⟨rfl, rfl⟩
  | cons p rest ih =>
    obtain ⟨hp1, hp2⟩ := hL p (List.mem_cons_self _ _)
    obtain ⟨r1, _, r3, _, _⟩ := run_noAbort hR p.2 hp1
      { w with trace := w.trace ++ [Event.deferred p.1] }
    have hc : callDeferred h p.1 p.2 w =
        run h p.2 { w with trace := w.trace ++ [Event.deferred p.1] } := by
      simp [callDeferred]
    obtain ⟨i1, i2⟩ := ih (fun q hq => hL q (List.mem_cons_of_mem _ hq))
      (callDeferred h p.1 p.2 w).2
    simp only [List.map_cons, Step.seq_cons]
    rw [Step.andThen_returned _ (by rw [hc]; exact r1)]
    refine ⟨i1, ?_⟩
    rw [i2, hc, r3, hp2]
    simp

theorem mem_enum_reverse {S : List Callback} {p : Nat × Callback}
    (hp : p ∈ S.enum.reverse) : p.2 ∈ S := by
  have := List.mem_map_of_mem Prod.snd (List.mem_reverse.1 hp)
  rwa [List.enum_map_snd] at this

/-- When the callbacks on the stack return and register nothing, `RunDeferred` returns,
leaves the stack as it is, and logs the invocations of the indices n-1, ..., 0. -/
theorem RunDeferred_plain {σ : Type} {h : TestingT σ} (hR : h.Returns) (w : World σ)
    (hS : ∀ fn ∈ w.deferStack, plainCallback fn) :
    (DefaultDeferrer.RunDeferred h w).1 = Exit.returned ∧
    (DefaultDeferrer.RunDeferred h w).2.deferStack = w.deferStack ∧
    ∃ ext, (DefaultDeferrer.RunDeferred h w).2.trace = w.trace ++ ext ∧
      invocations ext = (List.range w.deferStack.length).reverse.map Event.deferred := by
  have hL : ∀ p ∈ w.deferStack.enum.reverse, plainCallback p.2 :=
    fun p hp => hS p.2 (mem_enum_reverse hp)
  obtain ⟨s1, s2⟩ := seq_callDeferred_stack hR w.deferStack.enum.reverse hL w
  obtain ⟨_, ext, r2, r3⟩ := seq_callDeferred_invocations h w.deferStack.enum.reverse
    (fun p hp v => (run_noAbort hR p.2 (hL p hp).1 v).1) w
  have hrd : DefaultDeferrer.RunDeferred h w =
      Step.seq (w.deferStack.enum.reverse.map fun p => callDeferred h p.1 p.2) w := by
    rw [RunDeferred_eq]; rfl
  rw [hrd]
  refine ⟨s1, s2, ext, r2, ?_⟩
  rw [r3, ← List.enum_map_fst w.deferStack, List.map_reverse, List.map_reverse, List.map_map]
  rfl
/-- When the callbacks on the stack return and register nothing, the end of the test
leaves the stack as it is. -/
theorem finishTest_stack {σ : Type} {env : Env σ} (hR : env.host.Returns)
    (start end_ : Nat) (w : World σ) (hS : ∀ fn ∈ w.deferStack, plainCallback fn) :
    (finishTest env start end_ w).2.deferStack = w.deferStack := by
  obtain ⟨r1, r2, _⟩ := RunDeferred_plain hR
    { w with td := TD.finalStatus { w.td with currentLifecycle := Lifecycle.TestFinished } } hS
  rw [finishTest_eq, Step.andThen_returned _ r1, (saveStatistics_frame env.host _ _ _).2.2.2.1,
    r2]

/-- C28. The method `RunDeferred` never removes an entry: the stack it leaves starts with
the stack it found.  When the callbacks on the stack return and register nothing, the
stack afterwards is the same, so a second `RunDeferred` invokes all n callbacks again in
reverse order, 2n invocations in total; and a test case that is passed to `Test` a second
time, with the stack the first invocation left, has the callbacks deferred during the
first invocation invoked again, next to the ones its stages defer anew. -/
theorem RunDeferred_keeps_stack {σ : Type} (env : Env σ) (hR : env.host.Returns) :
    (∀ w : World σ, ∃ ext,
      (DefaultDeferrer.RunDeferred env.host w).2.deferStack = w.deferStack ++ ext) ∧
    (∀ w : World σ, (∀ fn ∈ w.deferStack, plainCallback fn) →
      (DefaultDeferrer.RunDeferred env.host w).1 = Exit.returned ∧
      (DefaultDeferrer.RunDeferred env.host w).2.deferStack = w.deferStack ∧
      (Step.andThen (DefaultDeferrer.RunDeferred env.host)
        (DefaultDeferrer.RunDeferred env.host) w).1 = Exit.returned ∧
      ∃ ext, (Step.andThen (DefaultDeferrer.RunDeferred env.host)
          (DefaultDeferrer.RunDeferred env.host) w).2.trace = w.trace ++ ext ∧
        invocations ext =
          (List.range w.deferStack.length).reverse.map Event.deferred ++
            (List.range w.deferStack.length).reverse.map Event.deferred ∧
        (invocations ext).length = 2 * w.deferStack.length) ∧
    (∀ (tc : TestCase) (options : List TestConfig) (t : σ) (k : Nat) (r : Option runner)
      (t2 : σ) (k2 : Nat) (r2 : Option runner),
      entersLifecycle env t → entersLifecycle env t2 → tc.stagesReturn →
      (∀ fn ∈ tc.deferStack ++ stageDefers tc, plainCallback fn) →
      (Test env tc options t k r).2.deferStack = tc.deferStack ++ stageDefers tc ∧
      invocations (Test env (tc.after (Test env tc options t k r).2) options t2 k2 r2).2.trace =
        stageEnters tc ++
          (List.range (tc.deferStack ++ stageDefers tc ++ stageDefers tc).length).reverse.map
            Event.deferred) := by
  refine ⟨fun w => (RunDeferred_grows env.host w).deferStack, ?_, ?_⟩
  · intro w hS
    obtain ⟨a1, a2, x1, a3, a4⟩ := RunDeferred_plain hR w hS
    obtain ⟨b1, _, x2, b3, b4⟩ := RunDeferred_plain hR
      (DefaultDeferrer.RunDeferred env.host w).2 (by rw [a2]; exact hS)
    rw [Step.andThen_returned _ a1]
    refine ⟨a1, a2, b1, x1 ++ x2, by rw [b3, a3, List.append_assoc], ?_, ?_⟩
    · rw [invocations_append, a4, b4, a2]
    · rw [invocations_append, a4, b4, a2]
      simp
      omega
  · intro tc options t k r t2 k2 r2 henter henter2 htc hD
    obtain ⟨wP, hf, _, hT⟩ := Test_enters hR tc options t k r henter
    obtain ⟨w4, e, hL, _, _, s3, _, _, _⟩ := lifecycle_noAbort hR tc htc (env.now k) wP
    have hw4 : w4.deferStack = tc.deferStack ++ stageDefers tc := by
      rw [s3, hf.deferStack]
    have h1 : (Test env tc options t k r).2.deferStack = tc.deferStack ++ stageDefers tc := by
      rw [hT, hL, finishTest_stack hR _ _ w4 (by rw [hw4]; exact hD), hw4]
    refine ⟨h1, ?_⟩
    have htc2 : (tc.after (Test env tc options t k r).2).stagesReturn := htc
    obtain ⟨vP, hg, _, hT2⟩ := Test_enters hR (tc.after (Test env tc options t k r).2) options
      t2 k2 r2 henter2
    obtain ⟨v4, e2, hL2, _, _, u3, ⟨x1, t1, t2'⟩, _, _⟩ := lifecycle_noAbort hR
      (tc.after (Test env tc options t k r).2) htc2 (env.now k2) vP
    have hv4 : v4.deferStack = tc.deferStack ++ stageDefers tc ++ stageDefers tc := by
      rw [u3, hg.deferStack]
      show (Test env tc options t k r).2.deferStack ++ stageDefers tc = _
      rw [h1]
    have hplain : ∀ fn ∈ v4.deferStack, plainCallback fn := by
      rw [hv4]
      intro fn hfn
      rcases List.mem_append.1 hfn with hfn | hfn
      · exact hD fn hfn
      · exact hD fn (List.mem_append_right _ hfn)
    obtain ⟨_, x2, f2, f3⟩ := finishTest_returns hR (env.now k2) e2 v4
      (fun fn hfn => Callback.returns_of_noAbort hR (hplain fn hfn).1)
    rw [hT2, hL2, f2, t1, invocations_append, invocations_append, hg.no_invocations, t2', f3,
      hv4]
    rfl

/-- C28 at a concrete input: on the standard host, a test case whose Arrange registers one
deferred callback has one entry on its stack after the first invocation of `Test`, and the
second invocation invokes two deferred callbacks: the entry of the first invocation again
and the newly registered one. -/
theorem RunDeferred_keeps_stack_witness :
    (Test (Env.simple goTestingT) deferInArrange [] (newGoT "T") 0 none).2.deferStack =
      [[Stmt.call (Method.Log ["deferred"])]] ∧
    invocations (Test (Env.simple goTestingT)
      (deferInArrange.after (Test (Env.simple goTestingT) deferInArrange [] (newGoT "T") 0
        none).2) [] (newGoT "T") 0 none).2.trace =
      [Event.enter Lifecycle.Arrange, Event.enter Lifecycle.Act, Event.deferred 1,
        Event.deferred 0] :=
  (RunDeferred_keeps_stack (Env.simple goTestingT) goTestingT_returns).2.2 deferInArrange []
    (newGoT "T") 0 none (newGoT "T") 0 none entersLifecycle_goT entersLifecycle_goT
    (by simp [TestCase.stagesReturn, deferInArrange, noAbort, bodyOf, Stmt.aborts,
      Method.aborts, Method.isFatalClass, Method.isSkipClass])
    (by simp [deferInArrange, stageDefers, defersOf, bodyOf, Stmt.defers, plainCallback,
      noAbort, Stmt.aborts, Method.aborts, Method.isFatalClass, Method.isSkipClass])

/-! ## The timestamps of the statistics -/

/-- On a host whose `Name` and `Parallel` return, an invocation of `Test` that enters the
lifecycle is the lifecycle run from a state in which nothing is recorded, the clock has
been read once more, and the runner, if there is one, holds the records it held before. -/
theorem Test_enters_state {σ : Type} {env : Env σ} (hR : env.host.Returns) (tc : TestCase)
    (options : List TestConfig) (t : σ) (k : Nat) (r : Option runner)
    (henter : entersLifecycle env t) :
    ∃ w0, Test env tc options t k r = lifecycle env tc (env.now k) w0 ∧
      w0.td.timings = (fun _ => none) ∧ w0.td.statuses = [] ∧ w0.clockReads = k + 1 ∧
      w0.deferStack = tc.deferStack ∧
      w0.runnerInstance.map runner.Statistics = r.map runner.Statistics := by
  obtain ⟨tagged, matched, actualName, hm, htm⟩ := henter
  have hn : (callT env.host Method.Name (World.init tc t k r)).1 = Exit.returned :=
    callT_returned hR (m := Method.Name) rfl _
  obtain ⟨p1, _⟩ := parallelStep_spec hR options
    { (callT env.host Method.Name (World.init tc t k r)).2 with
      clockReads := k + 1
      runnerInstance := r.map fun x => x.LogEvent ("Instantiating: " ++ actualName) }
  obtain ⟨T, hP⟩ := parallelStep_frame env.host options
    { (callT env.host Method.Name (World.init tc t k r)).2 with
      clockReads := k + 1
      runnerInstance := r.map fun x => x.LogEvent ("Instantiating: " ++ actualName) }
  have hT : Test env tc options t k r =
      (if tagged = true then
        if (!matched) = true then
          logEventIfInitialized "(match workaround) test not in tagged set; skipping"
        else
          Step.seq [onTD (fun c => { c with actualName := actualName }),
            lifecycle env tc (env.now k)]
      else lifecycle env tc (env.now k))
      (parallelStep env.host options
        { (callT env.host Method.Name (World.init tc t k r)).2 with
          clockReads := k + 1
          runnerInstance := r.map fun x => x.LogEvent ("Instantiating: " ++ actualName) }).2 := by
    simp only [Test, hn, hm, Step.seq_cons, Step.andThen_ret, logEventIfInitialized_andThen]
    exact (Step.andThen_returned _ p1).trans (by rw [Step.seq_singleton]; rfl)
  have hrun : (r.map fun x => x.LogEvent ("Instantiating: " ++ actualName)).map
      runner.Statistics = r.map runner.Statistics := by
    cases r with
    | none => rfl
    | some r0 => simp [runner.Statistics, runner.LogEvent_stats]
  rw [hP] at hT
  have hcase : tagged = false ∨ (tagged = true ∧ matched = true) := by
    cases tagged
    · exact Or.inl rfl
    · rcases htm with h | h
      · cases h
      · exact Or.inr ⟨rfl, h⟩
  rcases hcase with rfl | ⟨rfl, rfl⟩
  · rw [hT]
    simp only [Bool.false_eq_true, if_false]
    exact ⟨_, rfl, rfl, rfl, rfl, rfl, hrun⟩
  · rw [hT]
    simp only [Bool.not_true, Bool.false_eq_true, if_true, if_false, Step.seq_cons,
      onTD_andThen, Step.andThen_nil]
    exact ⟨_, rfl, rfl, rfl, rfl, rfl, hrun⟩

/-- A stage leaves the timings of the other stages and the runner alone and never turns
the clock back, however its callback ends; when it returns, it has stored a timing whose
`Start` is the clock reading taken on entry. -/
theorem timedRun_clock {σ : Type} (env : Env σ) (fn : Option Callback) (l : Lifecycle)
    (w : World σ) :
    (∀ l2, l2 ≠ l → (timedRun env fn l w).2.td.timings l2 = w.td.timings l2) ∧
    (timedRun env fn l w).2.runnerInstance = w.runnerInstance ∧
    w.clockReads ≤ (timedRun env fn l w).2.clockReads ∧
    ((timedRun env fn l w).1 = Exit.returned →
      ∃ tm, (timedRun env fn l w).2.td.timings l = some tm ∧
        tm.Start = env.now w.clockReads) := by
  cases fn with
  | none =>
    rw [timedRun_none]
    refine ⟨fun l2 h2 => by simp [mapSet, h2], rfl, by simp, fun _ => ?_⟩
    simp [mapSet]
  | some body =>
    have g := run_local env.host body (stageEntry l w)
    have hT : (run env.host body (stageEntry l w)).2.td.timings = w.td.timings := g.timings
    have hC : (run env.host body (stageEntry l w)).2.clockReads = w.clockReads + 1 :=
      g.clockReads
    have hRn : (run env.host body (stageEntry l w)).2.runnerInstance = w.runnerInstance :=
      g.runnerInstance
    rw [timedRun_some]
    cases hx : (run env.host body (stageEntry l w)).1 with
    | returned =>
      rw [Step.andThen_returned _ hx]
      refine ⟨fun l2 h2 => ?_, hRn, ?_, fun _ => ?_⟩
      · simp [storeTiming, mapSet, h2, hT]
      · simp only [storeTiming, Step.ret_apply, hC]
        omega
      · simp [storeTiming, mapSet]
    | goexit =>
      rw [Step.andThen_goexit _ hx]
      refine ⟨fun l2 _ => by rw [hT], hRn, by rw [hC]; omega, fun h => by cases h⟩
/-- The state in which the stages Arrange, Act and Assert end satisfies every property
that these three stages preserve. -/
theorem runStages_mainInvariant {σ : Type} (env : Env σ) (tc : TestCase)
    (I : World σ → Prop)
    (hstage : ∀ l v, l.isMainStage = true → I v → I (timedRun env (tc.callback l) l v).2)
    (w : World σ) (hw : I w) : I (runStages env tc w).2.2 := by
  have hA : I (tc.ArrangeMethod env w).2 := hstage Lifecycle.Arrange w rfl hw
  have hB : I (tc.ActMethod env (tc.ArrangeMethod env w).2).2 :=
    hstage Lifecycle.Act _ rfl hA
  have hC : I (tc.AssertMethod env (tc.ActMethod env (tc.ArrangeMethod env w).2).2).2 :=
    hstage Lifecycle.Assert _ rfl hB
  unfold runStages
  split
  · exact hA
  · simp only [Step.seq_cons]
    unfold Step.andThen
    split
    · rw [Step.seq_singleton]; exact hC
    · exact hB

/-- The end of the test leaves the timings alone, and either leaves the runner alone or
delivers one record whose timestamps are the two readings handed to it. -/
theorem finishTest_runner {σ : Type} {env : Env σ} (hR : env.host.Returns)
    (start end_ : Nat) (w : World σ) :
    (finishTest env start end_ w).2.td.timings = w.td.timings ∧
    ((finishTest env start end_ w).2.runnerInstance = w.runnerInstance ∨
      ∃ r s, w.runnerInstance = some r ∧
        (finishTest env start end_ w).2.runnerInstance = some (r.AddStatistics s) ∧
        s.Start = start ∧ s.End = end_ ∧ s.Duration = (end_ : Int) - (start : Int)) := by
  obtain ⟨_, _, _, _, d3, _⟩ := finishTest_general env start end_ w
  refine ⟨d3, ?_⟩
  have g := RunDeferred_grows env.host
    { w with td := TD.finalStatus { w.td with currentLifecycle := Lifecycle.TestFinished } }
  have hrun : (DefaultDeferrer.RunDeferred env.host
      { w with td := TD.finalStatus { w.td with currentLifecycle := Lifecycle.TestFinished }
        }).2.runnerInstance = w.runnerInstance := g.runnerInstance
  rw [finishTest_eq]
  cases hx : (DefaultDeferrer.RunDeferred env.host
      { w with td := TD.finalStatus { w.td with currentLifecycle := Lifecycle.TestFinished }
        }).1 with
  | goexit =>
    rw [Step.andThen_goexit _ hx]
    exact Or.inl hrun
  | returned =>
    rw [Step.andThen_returned _ hx]
    obtain ⟨h1, h2⟩ := saveStatistics_delivers hR start end_
      (DefaultDeferrer.RunDeferred env.host
        { w with td := TD.finalStatus { w.td with currentLifecycle := Lifecycle.TestFinished }
          }).2
    rcases Option.eq_none_or_eq_some w.runnerInstance with hr | ⟨r, hr⟩
    · left
      rw [h2 (hrun.trans hr), hr]
    · right
      obtain ⟨s, e1, _, _, _, _, _, e7, e8, e9⟩ := h1 r (hrun.trans hr)
      exact ⟨r, s, hr, e1, e7, e8, e9⟩

/-- C29. On a host whose non-aborting methods return and with a clock that never goes
back, for every invocation of `Test` that enters the lifecycle with a runner: when a
record is delivered and the After stage has stored its timing, the `End` of the record is
a clock reading taken before the `Start` of After (the reading right before it), so
`Start <= End <= Timings[After].Start`, and `Duration = End - Start` does not cover the
After stage and the deferred callbacks. -/
theorem Test_statistics_End_before_After {σ : Type} (env : Env σ) (hR : env.host.Returns)
    (hmono : Monotone env.now) (tc : TestCase) (options : List TestConfig) (t : σ) (k : Nat)
    (r0 : runner) (henter : entersLifecycle env t) (s : Statistics) (tm : Timing)
    (hs : (Test env tc options t k (some r0)).2.runnerInstance.map runner.Statistics =
      some (r0.Statistics ++ [s]))
    (htm : (Test env tc options t k (some r0)).2.td.timings Lifecycle.After = some tm) :
    (∃ c, k < c ∧ s.End = env.now c ∧ tm.Start = env.now (c + 1)) ∧
    s.Start = env.now k ∧ s.Start ≤ s.End ∧ s.End ≤ tm.Start ∧
    s.Duration = (s.End : Int) - (s.Start : Int) := by
  obtain ⟨w0, hT, h0t, _, h0c, _, h0r⟩ := Test_enters_state hR tc options t k (some r0) henter
  have hinv := runStages_mainInvariant env tc
    (fun v => v.td.timings Lifecycle.After = none ∧ v.runnerInstance = w0.runnerInstance ∧
      k + 1 ≤ v.clockReads)
    (fun l v hl hv => by
      obtain ⟨c1, c2, c3, _⟩ := timedRun_clock env (tc.callback l) l v
      refine ⟨?_, c2.trans hv.2.1, Nat.le_trans hv.2.2 c3⟩
      rw [c1 Lifecycle.After (by cases l <;> simp_all [Lifecycle.isMainStage])]
      exact hv.1)
    w0 ⟨by rw [h0t], rfl, by omega⟩
  obtain ⟨i1, i2, i3⟩ := hinv
  have hl : (lifecycle env tc (env.now k) w0).2 =
      (cleanup env tc (env.now k) (runStages env tc w0).2.1 (runStages env tc w0).2.2).2 := rfl
  rw [hT, hl, cleanup_eq hR] at hs htm
  have hstats : ∀ x : Option runner, x = w0.runnerInstance →
      x.map runner.Statistics ≠ some (r0.Statistics ++ [s]) := by
    intro x hx h
    rw [hx, h0r] at h
    have := congrArg (Option.map List.length) h
    simp at this
  have key : ∀ w4 : World σ, w4.runnerInstance = w0.runnerInstance →
      (finishTest env (env.now k) (env.now (runStages env tc w0).2.2.clockReads)
        w4).2.runnerInstance.map runner.Statistics = some (r0.Statistics ++ [s]) →
      s.Start = env.now k ∧ s.End = env.now (runStages env tc w0).2.2.clockReads ∧
        s.Duration = (env.now (runStages env tc w0).2.2.clockReads : Int) - (env.now k : Int) := by
    intro w4 hw4 h
    rcases (finishTest_runner hR (env.now k)
      (env.now (runStages env tc w0).2.2.clockReads) w4).2 with hsame | ⟨r, s2, e0, e1, e2, e3, e4⟩
    · exact absurd h (hstats _ (hsame.trans hw4))
    · rw [e1] at h
      have hr : r.Statistics = r0.Statistics := by
        have := h0r
        rw [← hw4, e0] at this
        simpa using this
      have hs2 : s2 = s := by
        have : r.Statistics ++ [s2] = r0.Statistics ++ [s] := by
          simpa [runner.AddStatistics, runner.Statistics] using h
        rw [hr] at this
        simpa using this
      subst hs2
      exact ⟨e2, e3, e4⟩
  have fin : ∀ c, k < c → s.Start = env.now k ∧ s.End = env.now c ∧
      s.Duration = (env.now c : Int) - (env.now k : Int) → tm.Start = env.now (c + 1) →
      (∃ c, k < c ∧ s.End = env.now c ∧ tm.Start = env.now (c + 1)) ∧
      s.Start = env.now k ∧ s.Start ≤ s.End ∧ s.End ≤ tm.Start ∧
      s.Duration = (s.End : Int) - (s.Start : Int) := by
    intro c hc ⟨a1, a2, a3⟩ a4
    refine ⟨⟨c, hc, a2, a4⟩, a1, ?_, ?_, ?_⟩
    · rw [a1, a2]; exact hmono (Nat.le_of_lt hc)
    · rw [a2, a4]; exact hmono (Nat.le_succ c)
    · rw [a1, a2]; exact a3
  by_cases hc : (!env.host.Skipped (runStages env tc w0).2.2.td.T ||
      (runStages env tc w0).2.1) = true
  · rw [if_pos hc] at hs htm
    obtain ⟨c1, c2, _, c4⟩ := timedRun_clock env tc.After Lifecycle.After
      (cleanupEntry env (runStages env tc w0).2.2)
    cases hx : (tc.AfterMethod env (cleanupEntry env (runStages env tc w0).2.2)).1 with
    | goexit =>
      rw [Step.andThen_goexit _ hx] at hs
      exact absurd hs (hstats _ (c2.trans i2))
    | returned =>
      rw [Step.andThen_returned _ hx] at hs htm
      obtain ⟨tm4, t1, t2⟩ := c4 hx
      have htm4 : tm = tm4 := by
        rw [(finishTest_runner hR _ _ _).1] at htm
        have : some tm = some tm4 := htm.symm.trans t1
        simpa using this
      refine fin _ (by omega) (key _ (c2.trans i2) hs) ?_
      rw [htm4, t2]
      rfl
  · exfalso
    rw [if_neg hc] at htm
    rw [Step.andThen_returned _ (by rfl), (finishTest_runner hR _ _ _).1] at htm
    have h2 : (cleanupEntry env (runStages env tc w0).2.2).td.timings Lifecycle.After =
        some tm := htm
    rw [cleanupEntry_timings, i1] at h2
    cases h2

/-- C29 at a concrete input: on the standard host with a clock that advances by one at
each reading, the test case with only an Act callback delivers a record with `Start = 0`
and `End = 7`, and the timing of After starts at 8. -/
theorem Test_statistics_End_before_After_witness :
    ((∃ c, 0 < c ∧ onlyActRecord.End = c ∧ onlyActAfter.Start = c + 1) ∧
      onlyActRecord.Start = 0 ∧ onlyActRecord.Start ≤ onlyActRecord.End ∧
      onlyActRecord.End ≤ onlyActAfter.Start ∧
      onlyActRecord.Duration = (onlyActRecord.End : Int) - (onlyActRecord.Start : Int)) ∧
    (onlyActRecord.Start, onlyActRecord.End, onlyActAfter.Start) = (0, 7, 8) :=
  ⟨Test_statistics_End_before_After (Env.simple goTestingT) goTestingT_returns
      (fun _ _ h => h) onlyAct [] (newGoT "T") 0 (newInstance none) entersLifecycle_goT
      onlyActRecord onlyActAfter rfl rfl, by decide⟩

/-! ## The multipart form -/

theorem writeFields_eq (L : List (String × FieldProperties)) (written : List (String × String))
    (hL : ∀ kv ∈ L, ∃ es, writeEntry kv = some es) :
    writeFields L written =
      some (written ++ L.flatMap fun kv => (writeEntry kv).getD []) := by
  induction L generalizing written with
  | nil => simp [writeFields]
  | cons kv rest ih =>
    obtain ⟨key, val⟩ := kv
    obtain ⟨es, hes⟩ := hL (key, val) (List.mem_cons_self _ _)
    have ih2 := fun w => ih w (fun q hq => hL q (List.mem_cons_of_mem _ hq))
    unfold writeFields
    simp only [List.flatMap_cons]
    by_cases h1 : val.MultipartType = "field"
    · by_cases h2 : (!val.Optional || !val.IsZero) = true
      · have hv : writeEntry (key, val) = some [(key, val.Value)] := by
          simp [writeEntry, h1, h2]
        rw [hv]
        simp [h1, h2, ih2]
      · have hv : writeEntry (key, val) = some [] := by
          simp [writeEntry, h1, h2]
        rw [hv]
        simp [h1, h2, ih2]
    · by_cases h3 : val.MultipartType = "custom"
      · cases hr : val.Ref with
        | none =>
          have hv : writeEntry (key, val) = some [] := by
            simp [writeEntry, h1, h3, hr]
          rw [hv]
          simp [h1, h3, hr, ih2]
        | some x =>
          cases x with
          | none => simp [writeEntry, h1, h3, hr] at hes
          | some entries =>
            have hv : writeEntry (key, val) = some entries := by
              simp [writeEntry, h1, h3, hr]
            rw [hv]
            simp [h1, h3, hr, ih2]
      · have hv : writeEntry (key, val) = some [] := by
          simp [writeEntry, h1, h3]
        rw [hv]
        simp [h1, h3, ih2]

/-- For a field whose properties are computed without a panic and whose `WriteField`,
where it is called, returns no error, the loop of `CreateMultipartBody` writes the
entries the claim expects. -/
theorem writeEntry_expected (field : StructField) (fp : FieldProperties)
    (hfp : fieldProperties field = some fp)
    (hw : field.multipartTag = some "custom" → field.implementsWriter = true →
      field.IsNil = some false → field.WriteField ≠ none) :
    writeEntry (itemKey field, fp) = some (expectedEntries field) := by
  have e1 : ("" : String) ≠ "field" := by decide
  have e2 : ("" : String) ≠ "custom" := by decide
  have e3 : ("" : String) ≠ "true" := by decide
  have e4 : ("field" : String) ≠ "custom" := by decide
  have e5 : ("custom" : String) ≠ "field" := by decide
  unfold fieldProperties at hfp
  unfold writeEntry expectedEntries
  rcases hmt : field.multipartTag with _ | mt
  · simp [hmt, e1] at hfp
    split at hfp
    · cases hfp
    · next ref hr =>
      simp only [Option.some.injEq] at hfp
      subst hfp
      simp [e1, e2]
  · by_cases hf : mt = "field"
    · subst hf
      rcases hz : field.isZero with _ | z
      · simp [hmt, hz] at hfp
      · simp [hmt, hz] at hfp
        split at hfp
        · cases hfp
        · next ref hr =>
          simp only [Option.some.injEq] at hfp
          subst hfp
          rcases ho : field.optionalTag with _ | ot
          · simp [e3]
          · by_cases hot : ot = "true"
            · subst hot
              cases z <;> simp
            · simp [hot]
    · by_cases hc : mt = "custom"
      · subst hc
        simp [hmt, e5] at hfp
        split at hfp
        · cases hfp
        · next ref hr =>
          simp only [Option.some.injEq] at hfp
          subst hfp
          cases hi : field.implementsWriter
          · simp [hi] at hr
            subst hr
            simp [e5]
          · rcases hn : field.IsNil with _ | n
            · simp [hi, hn] at hr
            · cases n
              · simp [hi, hn] at hr
                subst hr
                rcases hwf : field.WriteField with _ | entries
                · exact absurd hwf (hw hmt hi hn)
                · simp [e5]
              · simp [hi, hn] at hr
                subst hr
                simp [e5]
      · simp [hmt, hf] at hfp
        split at hfp
        · cases hfp
        · next ref hr =>
          simp only [Option.some.injEq] at hfp
          subst hfp
          simp [hf, hc]
theorem fmapSet_new (fmap : List (String × FieldProperties)) (key : String)
    (fp : FieldProperties) (hk : key ∉ fmap.map Prod.fst) :
    fmapSet fmap key fp = fmap ++ [(key, fp)] := by
  have : fmap.any (fun kv => kv.1 == key) = false := by
    rw [List.any_eq_false]
    intro kv hkv he
    exact hk (by rw [← eq_of_beq he]; exact List.mem_map_of_mem _ hkv)
  simp [fmapSet, this]

/-- When the keys of the fields are pairwise distinct, the map holds one entry for each
field, in the order of the fields. -/
theorem structFieldsLoop_distinct (it : List StructField)
    (acc : List (String × FieldProperties)) (hnd : (it.map itemKey).Nodup)
    (hacc : ∀ field ∈ it, itemKey field ∉ acc.map Prod.fst)
    (hfp : ∀ field ∈ it, ∃ fp, fieldProperties field = some fp) :
    ∃ fps, structFieldsLoop it acc = some (acc ++ fps) ∧
      List.Forall₂ (fun field kv => kv.1 = itemKey field ∧ fieldProperties field = some kv.2)
        it fps := by
  induction it generalizing acc with
  | nil => exact ⟨[], by simp [structFieldsLoop], List.Forall₂.nil⟩
  | cons f rest ih =>
    obtain ⟨fp, hf⟩ := hfp f (List.mem_cons_self _ _)
    rw [List.map_cons, List.nodup_cons] at hnd
    have hset := fmapSet_new acc (itemKey f) fp (hacc f (List.mem_cons_self _ _))
    obtain ⟨fps, h1, h2⟩ := ih (acc ++ [(itemKey f, fp)]) hnd.2
      (by
        intro g hg hmem
        rw [List.map_append, List.mem_append] at hmem
        rcases hmem with hmem | hmem
        · exact hacc g (List.mem_cons_of_mem _ hg) hmem
        · simp only [List.map_cons, List.map_nil, List.mem_singleton] at hmem
          exact hnd.1 (by rw [← hmem]; exact List.mem_map_of_mem _ hg))
      (fun g hg => hfp g (List.mem_cons_of_mem _ hg))
    refine ⟨(itemKey f, fp) :: fps, ?_, List.Forall₂.cons ⟨rfl, hf⟩ h2⟩
    simp only [structFieldsLoop, hf, hset, h1]
    simp

/-- When the keys of the fields are pairwise distinct and the struct can be converted,
`CreateMultipartBody` returns a body that holds, in the order in which the map is
visited, exactly the entries the claim expects for the fields. -/
theorem CreateMultipartBody_distinct
    (iterate : List (String × FieldProperties) → List (String × FieldProperties))
    (hiter : ∀ fields, (iterate fields).Perm fields) (it : List StructField)
    (hnd : (it.map itemKey).Nodup) (hit : Convertible it) :
    ∃ entries, CreateMultipartBody iterate it = MultipartResult.body entries ∧
      entries.Perm (it.flatMap expectedEntries) := by
  obtain ⟨fps, h1, h2⟩ := structFieldsLoop_distinct it [] hnd (by simp)
    (fun f hf => (hit f hf).1)
  have hall : ∀ (l : List StructField) (m : List (String × FieldProperties)),
      (∀ f ∈ l, f ∈ it) →
      List.Forall₂ (fun field kv => kv.1 = itemKey field ∧ fieldProperties field = some kv.2)
        l m →
      (∀ kv ∈ m, ∃ es, writeEntry kv = some es) ∧
      (m.flatMap fun kv => (writeEntry kv).getD []) = l.flatMap expectedEntries := by
    intro l m hl hfa
    induction hfa with
    | nil => exact ⟨by simp, rfl⟩
    | @cons f kv l2 m2 hhead _ ih =>
      obtain ⟨key, fp⟩ := kv
      obtain ⟨hk, hp⟩ := hhead
      have hk2 : key = itemKey f := hk
      have hp2 : fieldProperties f = some fp := hp
      clear hk hp
      subst hk2
      have hw := writeEntry_expected f fp hp2 (hit f (hl f (List.mem_cons_self _ _))).2
      obtain ⟨i1, i2⟩ := ih (fun g hg => hl g (List.mem_cons_of_mem _ hg))
      refine ⟨?_, ?_⟩
      · intro q hq
        rcases List.mem_cons.1 hq with rfl | hq
        · exact ⟨_, hw⟩
        · exact i1 q hq
      · simp only [List.flatMap_cons, hw, Option.getD_some, i2]
  obtain ⟨a1, a2⟩ := hall it fps (fun _ h => h) h2
  have hperm := hiter fps
  have hw : writeFields (iterate fps) [] =
      some ([] ++ (iterate fps).flatMap fun kv => (writeEntry kv).getD []) :=
    writeFields_eq _ _ (fun kv hkv => a1 kv (hperm.mem_iff.1 hkv))
  refine ⟨(iterate fps).flatMap fun kv => (writeEntry kv).getD [], ?_, ?_⟩
  · have hm : structFieldsMap it = some fps := by
      simpa [structFieldsMap] using h1
    simp [CreateMultipartBody, hm, hw]
  · rw [← a2]
    exact List.Perm.flatMap_right _ hperm

/-- C24 fails on the code when two fields have the same key: `structFieldsMap` keeps one
map entry for each key, so of two custom fields that are both tagged `json:"-"` (the tag of
the custom field in `Test_Multipart`) and both hold a value, only the second is written,
in every order of iteration, although the claim expects the entries of both.  With the
keys of `Test_MultipartMultipleCustomFields` and of `Test_MultipartOptional`, which are
distinct, the body holds the expected entries. -/
theorem CreateMultipartBody_drops_field_with_same_key :
    (structFieldsMap
      [demoStructField "StructParamA" (some "-") (some ("a_struct_key", "A struct value")),
        demoStructField "StructParamB" (some "-") (some ("b_struct_key", "B struct value"))]).map
      (fun fields => fields.map Prod.fst) = some ["-"] ∧
    (match CreateMultipartBody (fun fields => fields)
      [demoStructField "StructParamA" (some "-") (some ("a_struct_key", "A struct value")),
        demoStructField "StructParamB" (some "-") (some ("b_struct_key", "B struct value"))] with
      | MultipartResult.body entries => some entries
      | _ => none) = some [("b_struct_key", "B struct value")] ∧
    List.flatMap
      [demoStructField "StructParamA" (some "-") (some ("a_struct_key", "A struct value")),
        demoStructField "StructParamB" (some "-") (some ("b_struct_key", "B struct value"))]
      expectedEntries =
      [("a_struct_key", "A struct value"), ("b_struct_key", "B struct value")] ∧
    (match CreateMultipartBody (fun fields => fields)
      [demoStructField "StructParamA" none (some ("a_struct_key", "A struct value")),
        demoStructField "StructParamB" none (some ("b_struct_key", "B struct value")),
        demoStructField "StructParamNil" (some "nil_struct_key") none] with
      | MultipartResult.body entries => some entries
      | _ => none) =
      some [("a_struct_key", "A struct value"), ("b_struct_key", "B struct value")] ∧
    (match CreateMultipartBody List.reverse
      [stringField "StringParam" (some "string_param") none "string param here",
        stringField "OptionalSetParam" (some "set_param") (some "true") "set parameter value",
        stringField "OptionalUnsetParam" (some "unset_param") (some "true") ""] with
      | MultipartResult.body entries => some entries
      | _ => none) =
      some [("set_param", "set parameter value"), ("string_param", "string param here")] := by
  refine ⟨by decide, by decide, by decide, by decide, by decide⟩

end Testdeck
